import Mathlib

/-!
# libpsoarchive: PRSD cipher, PRSD payload codec, AFS and GSL containers

A shallow embedding of `PRSD-crypt.c`, `PRSD-comp.c`, `PRSD-decomp.c`,
`AFS-read.c`, `AFS-write.c`, `GSL-read.c` and `GSL-write.c`.

Conventions of the embedding:

* a byte is a `Nat` below 256, a `uint32_t` a `Nat` below `2^32`; unsigned
  arithmetic wraps with an explicit `% 2^32`;
* a C `int` / `ssize_t` result is an `Int`;
* a pointer that the code tests against `NULL` is an `Option`;
* a memory buffer reached through a pointer is the `List Nat` of the bytes
  from the pointer onward; a store past the last byte of the list lengthens it
  (a gap is filled with 0), a load past it reads 0;
* `pso_prsd_compress` stores into a heap block it has allocated itself with a
  size that leaves out the header: each of its stores is checked against the
  size of the block, and a store that runs past the end of the block, which is
  undefined behaviour, ends the call with `heap_result.overrun`;
* `malloc` always succeeds (the `PSOARCHIVE_EMEM` branches are not taken); where
  the code reads a fresh block before writing all of it, the block's contents
  are an argument `junk`;
* reads, seeks and writes on a `File` succeed, a read at the end of the data
  is short; the exception is `pad_file`, whose result the callers store
  unchecked: its argument `o` says how its two system calls end, and where
  the argument is left out they succeed;
* an `off_t` is held as a `Nat`, its value mod `2^64`, so `(off_t)-1` is
  `2^64 - 1`; `toInt64` gives the signed value;
* a file descriptor is a `File`: the bytes of the file and the current offset.
-/

namespace PsoArchive

/-! ## Error codes (`psoarchive-error.h`, ordered as the table in `error.c`) -/

/-- Modelled from the spec: the header `psoarchive-error.h`, which declares
`pso_error_t` and its codes, is not among the sources. The spec names the
codes (`FileError`, `MemoryError`, `FatalError`, `NoArchive`, ...); their
values are the negated indices of `err_map` in `error.c`, where
`pso_strerror` looks a code up at index `-err`. -/
abbrev pso_error_t := Int

/-- Modelled from the spec: code of the absent `psoarchive-error.h` whose message is
`err_map[0]`, "No error". -/
def PSOARCHIVE_OK : pso_error_t := 0

/-- Modelled from the spec: code of the absent `psoarchive-error.h` whose message is
`err_map[1]`, "File error". -/
def PSOARCHIVE_EFILE : pso_error_t := -1

/-- Modelled from the spec: code of the absent `psoarchive-error.h` whose message is
`err_map[2]`, "Memory allocation error". -/
def PSOARCHIVE_EMEM : pso_error_t := -2

/-- Modelled from the spec: code of the absent `psoarchive-error.h` whose message is
`err_map[3]`, "Fatal error". -/
def PSOARCHIVE_EFATAL : pso_error_t := -3

/-- Modelled from the spec: code of the absent `psoarchive-error.h` whose message is
`err_map[4]`, "No archive found". -/
def PSOARCHIVE_NOARCHIVE : pso_error_t := -4

/-- Modelled from the spec: code of the absent `psoarchive-error.h` whose message is
`err_map[5]`, "Empty archive". -/
def PSOARCHIVE_EMPTY : pso_error_t := -5

/-- Modelled from the spec: code of the absent `psoarchive-error.h` whose message is
`err_map[6]`, "I/O error". -/
def PSOARCHIVE_EIO : pso_error_t := -6

/-- Modelled from the spec: code of the absent `psoarchive-error.h` whose message is
`err_map[7]`, "Out of range". -/
def PSOARCHIVE_ERANGE : pso_error_t := -7

/-- Modelled from the spec: code of the absent `psoarchive-error.h` whose message is
`err_map[8]`, "Invalid pointer". -/
def PSOARCHIVE_EFAULT : pso_error_t := -8

/-- Modelled from the spec: code of the absent `psoarchive-error.h` whose message is
`err_map[9]`, "Invalid argument". -/
def PSOARCHIVE_EINVAL : pso_error_t := -9

/-- Modelled from the spec: code of the absent `psoarchive-error.h` whose message is
`err_map[10]`, "Out of space". -/
def PSOARCHIVE_ENOSPC : pso_error_t := -10

/-- Modelled from the spec: code of the absent `psoarchive-error.h` whose message is
`err_map[11]`, "Invalid data during parse". -/
def PSOARCHIVE_EBADMSG : pso_error_t := -11

/-- Modelled from the spec: code of the absent `psoarchive-error.h` whose message is
`err_map[12]`, "Operation not supported". -/
def PSOARCHIVE_ENOTSUP : pso_error_t := -12

/-! ## Machine words -/

/-- Unsigned 32-bit subtraction `a - b` with wraparound. -/
def sub32 (a b : Nat) : Nat := (a + (2 ^ 32 - b % 2 ^ 32)) % 2 ^ 32

/-- The C expression `b0 | (b1 << 8) | (b2 << 16) | (b3 << 24)` on four bytes,
as a `uint32_t`. -/
def le32 (b0 b1 b2 b3 : Nat) : Nat :=
  (b0 ||| (b1 <<< 8) ||| (b2 <<< 16) ||| (b3 <<< 24)) % 2 ^ 32

/-- The four stores `(uint8_t)x, (uint8_t)(x >> 8), (uint8_t)(x >> 16),
(uint8_t)(x >> 24)`. -/
def le32_bytes (x : Nat) : List Nat :=
  [x % 256, (x >>> 8) % 256, (x >>> 16) % 256, (x >>> 24) % 256]

/-- The four stores `(uint8_t)(x >> 24), ..., (uint8_t)x`. -/
def be32_bytes (x : Nat) : List Nat :=
  [(x >>> 24) % 256, (x >>> 16) % 256, (x >>> 8) % 256, x % 256]

/-- The cast `(int)x` of a `uint32_t`. -/
def toInt32 (x : Nat) : Int :=
  if x % 2 ^ 32 < 2 ^ 31 then ((x % 2 ^ 32 : Nat) : Int) else ((x % 2 ^ 32 : Nat) : Int) - 2 ^ 32

/-- The value of a 64-bit pattern as the signed C type `off_t`. -/
def toInt64 (x : Nat) : Int :=
  if x % 2 ^ 64 < 2 ^ 63 then (x % 2 ^ 64 : Nat) else ((x % 2 ^ 64 : Nat) : Int) - 2 ^ 64

/-! ## Memory and files -/

/-- The `n` bytes found at offset `off` of a buffer. -/
def bytes_at (m : List Nat) (off n : Nat) : List Nat :=
  (List.range n).map (fun i => m.getD (off + i) 0)

/-- Store the bytes `bs` at offset `off` of a buffer. -/
def write_at (m : List Nat) (off : Nat) (bs : List Nat) : List Nat :=
  (m.take off ++ List.replicate (off - m.length) 0) ++ bs ++ m.drop (off + bs.length)

/-- A fresh block of `n` bytes holding whatever `junk` was there. -/
def malloc (junk : List Nat) (n : Nat) : List Nat :=
  (List.range n).map (fun i => junk.getD i 0 % 256)

/-- The C function `memcpy(dst + doff, src + soff, n)`. -/
def memcpy (dst : List Nat) (doff : Nat) (src : List Nat) (soff n : Nat) : List Nat :=
  write_at dst doff (bytes_at src soff n)

/-- What a call that stores through a pointer into a heap block it has
allocated does: it returns `v`, or one of its stores runs past the end of the
block, which is undefined behaviour. `size` is the size of the block and
`store_end` the offset just past the last byte of the first such store. -/
inductive heap_result (α : Type) where
  | ret (v : α)
  | overrun (size store_end : Nat)
deriving DecidableEq

/-- An open file descriptor: the bytes of the file and the current offset. -/
structure File where
  data : List Nat
  pos : Nat
deriving DecidableEq

/-- The C function `lseek(fd, off, SEEK_SET)`. -/
def lseek (fd : File) (off : Nat) : File := { fd with pos := off }

/-- The C function `read(fd, buf, n)`: the bytes read (fewer than `n` at the end of the
data) and the advanced descriptor. -/
def read (fd : File) (n : Nat) : List Nat × File :=
  let bs := (fd.data.drop fd.pos).take n
  (bs, { fd with pos := fd.pos + bs.length })

/-- The C function `write(fd, buf, n)` with `bs` the `n` bytes at `buf`; a write past the end
of the data leaves a hole that reads as zeros. -/
def write (fd : File) (bs : List Nat) : File :=
  { data := write_at fd.data fd.pos bs, pos := fd.pos + bs.length }

/-- How the two system calls of `pad_file` end: both succeed, the `lseek` to
the padding byte fails, or the `write` of the padding byte fails. -/
inductive pad_io where
  | ok
  | lseek_fails
  | write_fails
deriving DecidableEq

/-- The C function `pad_file(fd, boundary)` of `AFS-write.c` and `GSL-write.c`: the
`off_t` it returns and the descriptor. `~(boundary - 1)`, an `int` widened to
the 64-bit `off_t`, is the mask `2^64 - boundary`. The argument `o` says how
the `lseek` and the `write` end (when it is left out, both succeed); when one
fails the function returns `(off_t)-1`, the pattern `2^64 - 1`. -/
def pad_file (fd : File) (boundary : Nat) (o : pad_io := pad_io.ok) : Nat × File :=
  let pos := fd.pos
  if boundary = 0 then (pos, fd)
  else
    let pos := (pos &&& (2 ^ 64 - boundary)) + boundary
    match o with
    | pad_io.lseek_fails => (2 ^ 64 - 1, fd)
    | pad_io.write_fails => (2 ^ 64 - 1, lseek fd (pos - 1))
    | pad_io.ok =>
      let fd := lseek fd (pos - 1)
      let fd := write fd [0]
      (pos, fd)

/-! ## PRSD-crypt.c -/

/-- The C type `struct prsd_crypt_cxt`: `stream` has 56 slots. -/
structure prsd_crypt_cxt where
  stream : List Nat
  key : Nat
  pos : Nat
deriving DecidableEq

/-- First loop of `mix_stream`: `i` iterations of `*ptr -= *(ptr + 31)`, the
pointer starting at slot `p` and moving up. -/
def mix_loop1 : Nat → Nat → List Nat → List Nat
  | 0, _, s => s
  | i + 1, p, s => mix_loop1 i (p + 1) (s.set p (sub32 (s.getD p 0) (s.getD (p + 31) 0)))

/-- Second loop of `mix_stream`: `i` iterations of `*ptr -= *(ptr - 24)`. -/
def mix_loop2 : Nat → Nat → List Nat → List Nat
  | 0, _, s => s
  | i + 1, p, s => mix_loop2 i (p + 1) (s.set p (sub32 (s.getD p 0) (s.getD (p - 24) 0)))

/-- The C function `mix_stream`. -/
def mix_stream (cxt : prsd_crypt_cxt) : prsd_crypt_cxt :=
  { cxt with stream := mix_loop2 31 25 (mix_loop1 24 1 cxt.stream) }

/-- The seeding loop of `pso_prsd_crypt_init`:
`for(i = 0x15; i <= 0x46E; i += 0x15)`, with the loop variables
`(i, key, tmp, stream)` threaded through; `fuel` bounds the iterations. -/
def crypt_init_loop : Nat → Nat → Nat → Nat → List Nat → Nat × Nat × List Nat
  | 0, _, key, tmp, s => (key, tmp, s)
  | fuel + 1, i, key, tmp, s =>
    if i ≤ 0x46E then
      let idx := i % 55
      let key1 := sub32 key tmp
      let s1 := s.set idx tmp
      crypt_init_loop fuel ((i + 0x15) % 2 ^ 32) (s1.getD idx 0) key1 s1
    else (key, tmp, s)

/-- The C function `pso_prsd_crypt_init`: the context passed in is whatever
the caller's (stack) memory held. -/
def pso_prsd_crypt_init (cxt : prsd_crypt_cxt) (key : Nat) : prsd_crypt_cxt :=
  let s0 := cxt.stream.set 55 key
  let r := crypt_init_loop 0x46E 0x15 key 1 s0
  let c1 : prsd_crypt_cxt := { stream := r.2.2, key := key, pos := cxt.pos }
  { mix_stream (mix_stream (mix_stream (mix_stream c1))) with pos := 56 }

/-- The C function `crypt_dword`: returns the advanced context and the
transformed word. -/
def crypt_dword (cxt : prsd_crypt_cxt) (data : Nat) : prsd_crypt_cxt × Nat :=
  let c := if cxt.pos = 56 then { mix_stream cxt with pos := 1 } else cxt
  ({ c with pos := (c.pos + 1) % 2 ^ 32 }, (data ^^^ c.stream.getD c.pos 0) % 2 ^ 32)

/-- The `while(len > 0)` loop of `pso_prsd_crypt` on the bytes at `data`; each
round reads one little-endian word (`LE32(*data)`), stores the transformed
word back (`*data++ = LE32(tmp)`) and subtracts 4 from `len`. Bytes the
buffer does not hold read as 0. -/
def crypt_loop : Nat → prsd_crypt_cxt → List Nat → Nat → prsd_crypt_cxt × List Nat
  | 0, c, d, _ => (c, d)
  | fuel + 1, c, d, len =>
    if len > 0 then
      let r := crypt_dword c (le32 (d.getD 0 0) (d.getD 1 0) (d.getD 2 0) (d.getD 3 0))
      let rest := crypt_loop fuel r.1 (d.drop 4) (len - 4)
      (rest.1, le32_bytes r.2 ++ rest.2)
    else (c, d)

/-- The C function `pso_prsd_crypt`: the length, a `uint32_t`, is first
rounded up to a multiple of 4 in 32-bit arithmetic. -/
def pso_prsd_crypt (cxt : prsd_crypt_cxt) (d : List Nat) (len : Nat) :
    prsd_crypt_cxt × List Nat :=
  let len1 := ((len % 2 ^ 32 + 3) % 2 ^ 32) &&& 0xFFFFFFFC
  crypt_loop len1 cxt d len1

/-- A context as the compiler lays it out before initialisation; any contents
would do. -/
def cxt0 : prsd_crypt_cxt := { stream := List.replicate 56 0, key := 0, pos := 0 }

/-! ## PRSD-comp.c, PRSD-decomp.c -/

/-- Modelled from the spec: `PRS.h` and the PRS compressor are not among the
sources; the spec lists them as an external collaborator with the contracts
`compress(bytes) -> bytes` (may fail), `decompress(bytes) -> bytes` (may fail)
and `decompress_into(bytes, dst_buffer, dst_capacity) -> length`.
Each function returns the C `int` result and the buffer it hands back.
* `pso_prs_compress src src_len`: result and `*dst`;
* `pso_prs_decompress_buf src src_len`: result and `*dst`;
* `pso_prs_decompress_buf2 src dst src_len dst_len`: result and the contents
  of `dst` afterwards. -/
structure prs_lib where
  pso_prs_compress : List Nat → Nat → Int × List Nat
  pso_prs_decompress_buf : List Nat → Nat → Int × Option (List Nat)
  pso_prs_decompress_buf2 : List Nat → List Nat → Nat → Nat → Int × List Nat

/-- The C function `pso_prsd_compress(src, dst, src_len, key)`. `cxt` is the
uninitialised stack context, `junk` the contents of the fresh block `db2`,
which is allocated with `(rv + 3) & 0xFFFFFFFC` bytes. `dst` is `none` for a
null pointer and `some v` for a pointer to a slot holding `v`; the second
component of a returned value is the slot afterwards. The stores into `db2`
are, in the order of the code: `memcpy(db2 + 8, db, rv)`, the words that
`pso_prsd_crypt(&ccxt, db2 + 8, rv)` rewrites (the length rounded up to a
multiple of 4 in 32 bits), and the header bytes `db2[0..7]`; the first of them
that stores at least one byte and ends past the block ends the call with
`heap_result.overrun`. -/
def pso_prsd_compress (prs : prs_lib) (cxt : prsd_crypt_cxt) (junk : List Nat)
    (src : Option (List Nat)) (dst : Option (Option (List Nat))) (src_len key : Nat) :
    heap_result (Int × Option (List Nat)) :=
  match src, dst with
  | none, _ => .ret (PSOARCHIVE_EFAULT, dst.join)
  | _, none => .ret (PSOARCHIVE_EFAULT, none)
  | some src, some d0 =>
    if src_len = 0 then .ret (PSOARCHIVE_EINVAL, d0)
    else
      let r := prs.pso_prs_compress src src_len
      let rv := r.1
      let db := r.2
      if rv < 0 then .ret (rv, d0)
      else
        let size := ((rv + 3) % 2 ^ 32).toNat &&& 0xFFFFFFFC
        let db2 := malloc junk size
        if rv.toNat ≠ 0 ∧ size < 8 + rv.toNat then .overrun size (8 + rv.toNat)
        else
          let db2 := memcpy db2 8 db 0 rv.toNat
          let ccxt := pso_prsd_crypt_init cxt key
          let clen := ((rv.toNat % 2 ^ 32 + 3) % 2 ^ 32) &&& 0xFFFFFFFC
          if clen ≠ 0 ∧ size < 8 + clen then .overrun size (8 + clen)
          else
            let db2 := db2.take 8 ++ (pso_prsd_crypt ccxt (db2.drop 8) rv.toNat).2
            if size < 8 then .overrun size 8
            else
              let db2 := write_at db2 0 (le32_bytes src_len)
              let db2 := write_at db2 4 (le32_bytes key)
              .ret (rv + 8, some db2)

/-- The C function `pso_prsd_max_compressed_size(len)`, whose whole body is
`return pso_prsd_max_compressed_size(len) + 8;`. `fuel` bounds the depth of
the nested calls; `none` says the call has not returned within that depth. -/
def pso_prsd_max_compressed_size : Nat → Nat → Option Nat
  | 0, _ => none
  | fuel + 1, len => (pso_prsd_max_compressed_size fuel len).map (fun r => (r + 8) % 2 ^ 64)

/-- The C function `pso_prsd_archive(src, dst, src_len, key)`; `none` says
the call has not returned within `fuel` nested calls of
`pso_prsd_max_compressed_size`. The argument `pso_prs_archive2` stands for the
function of that name of the PRS library, which is not among the sources: it
is given `src`, the block at `db + 8`, `src_len` and `dl - 8`, and yields its
`int` result and the block afterwards. -/
def pso_prsd_archive (fuel : Nat)
    (pso_prs_archive2 : List Nat → List Nat → Nat → Nat → Int × List Nat)
    (cxt : prsd_crypt_cxt) (junk : List Nat)
    (src : Option (List Nat)) (dst : Option (Option (List Nat))) (src_len key : Nat) :
    Option (Int × Option (List Nat)) :=
  match src, dst with
  | none, _ => some (PSOARCHIVE_EFAULT, dst.join)
  | _, none => some (PSOARCHIVE_EFAULT, none)
  | some src, some d0 =>
    if src_len = 0 then some (PSOARCHIVE_EINVAL, d0)
    else
      match pso_prsd_max_compressed_size fuel src_len with
      | none => none
      | some dl =>
        let db := malloc junk ((dl + 3) &&& 0xFFFFFFFC)
        let r := pso_prs_archive2 src (db.drop 8) src_len ((dl + (2 ^ 64 - 8)) % 2 ^ 64)
        if r.1 < 0 then some (r.1, d0)
        else
          let db := db.take 8 ++ r.2
          let ccxt := pso_prsd_crypt_init cxt key
          let db := db.take 8 ++
            (pso_prsd_crypt ccxt (db.drop 8) ((dl + (2 ^ 64 - 8)) % 2 ^ 64 % 2 ^ 32)).2
          let db := write_at db 0 (le32_bytes src_len)
          let db := write_at db 4 (le32_bytes key)
          some (r.1 + 8, some db)

/-- The block common to the three decompression entry points, from "Allocate
space for the compressed/encrypted data" to "Decrypt the file data":
`cmp_buf = malloc((src_len + 3) & 0xFFFFFFFC)`, `memcpy(cmp_buf, src + 8,
src_len)`, `pso_prsd_crypt_init(&ccxt, key)`, `pso_prsd_crypt(&ccxt, cmp_buf,
src_len)`, with `src_len` already reduced by 8. The result is the `src_len`
bytes at `cmp_buf` that the decompressor is then handed. -/
def prsd_decrypt_body (cxt : prsd_crypt_cxt) (junk src : List Nat) (src_len key : Nat) :
    List Nat :=
  let cmp_buf := malloc junk ((src_len + 3) &&& 0xFFFFFFFC)
  let cmp_buf := memcpy cmp_buf 0 src 8 src_len
  let ccxt := pso_prsd_crypt_init cxt key
  let cmp_buf := (pso_prsd_crypt ccxt cmp_buf src_len).2
  bytes_at cmp_buf 0 src_len

/-- The C function `pso_prsd_decompress_buf(src, dst, src_len)`. -/
def pso_prsd_decompress_buf (prs : prs_lib) (cxt : prsd_crypt_cxt) (junk : List Nat)
    (src : Option (List Nat)) (dst : Option (Option (List Nat))) (src_len : Nat) :
    Int × Option (List Nat) :=
  match src, dst with
  | none, _ => (PSOARCHIVE_EFAULT, dst.join)
  | _, none => (PSOARCHIVE_EFAULT, none)
  | some src, some d0 =>
    if src_len < 11 then (PSOARCHIVE_EBADMSG, d0)
    else
      let unc_len := le32 (src.getD 0 0) (src.getD 1 0) (src.getD 2 0) (src.getD 3 0)
      let key := le32 (src.getD 4 0) (src.getD 5 0) (src.getD 6 0) (src.getD 7 0)
      let src_len := src_len - 8
      let cmp_buf := prsd_decrypt_body cxt junk src src_len key
      let r := prs.pso_prs_decompress_buf cmp_buf src_len
      if r.1 < 0 then (r.1, none)
      else if r.1 ≠ toInt32 unc_len then (PSOARCHIVE_EFATAL, none)
      else (r.1, r.2)

/-- The C function `pso_prsd_decompress_buf2(src, dst, src_len, dst_len)`; the second
component of the result is the contents of `dst` afterwards. -/
def pso_prsd_decompress_buf2 (prs : prs_lib) (cxt : prsd_crypt_cxt) (junk : List Nat)
    (src : Option (List Nat)) (dst : Option (List Nat)) (src_len dst_len : Nat) :
    Int × Option (List Nat) :=
  match src, dst with
  | none, _ => (PSOARCHIVE_EFAULT, dst)
  | _, none => (PSOARCHIVE_EFAULT, none)
  | some src, some d0 =>
    if src_len < 11 then (PSOARCHIVE_EBADMSG, some d0)
    else
      let unc_len := le32 (src.getD 0 0) (src.getD 1 0) (src.getD 2 0) (src.getD 3 0)
      let key := le32 (src.getD 4 0) (src.getD 5 0) (src.getD 6 0) (src.getD 7 0)
      let src_len := src_len - 8
      if dst_len < unc_len then (PSOARCHIVE_ENOSPC, some d0)
      else
        let cmp_buf := prsd_decrypt_body cxt junk src src_len key
        let r := prs.pso_prs_decompress_buf2 cmp_buf d0 src_len dst_len
        if r.1 < 0 then (r.1, some r.2)
        else if r.1 ≠ toInt32 unc_len then (PSOARCHIVE_EFATAL, some r.2)
        else (r.1, some r.2)

/-- The C function `pso_prsd_decompress_size(src, src_len)`. -/
def pso_prsd_decompress_size (src : Option (List Nat)) (src_len : Nat) : Int :=
  match src with
  | none => PSOARCHIVE_EFAULT
  | some src =>
    if src_len < 11 then PSOARCHIVE_EBADMSG
    else toInt32 (le32 (src.getD 0 0) (src.getD 1 0) (src.getD 2 0) (src.getD 3 0))

/-- A stand-in compressor for examples: it stores the input behind a length
byte, and accepts on decompression exactly the buffers whose first byte is
the number of bytes that follow. -/
def toy_prs : prs_lib where
  pso_prs_compress := fun src n => (((n + 1 : Nat) : Int), n % 256 :: bytes_at src 0 n)
  pso_prs_decompress_buf := fun src n =>
    if src.getD 0 0 + 1 = n then (((n - 1 : Nat) : Int), some (bytes_at src 1 (n - 1)))
    else (PSOARCHIVE_EBADMSG, none)
  pso_prs_decompress_buf2 := fun src dst n dn =>
    if src.getD 0 0 + 1 = n then
      if dn < n - 1 then (PSOARCHIVE_ENOSPC, dst)
      else (((n - 1 : Nat) : Int), write_at dst 0 (bytes_at src 1 (n - 1)))
    else (PSOARCHIVE_EBADMSG, dst)

/-! ## AFS-read.c -/

/-- The C type `struct afs_file`. -/
structure afs_file where
  offset : Nat
  size : Nat
deriving DecidableEq

/-- The C type `struct pso_afs_read`; `fd` is the stream the handle owns. -/
structure pso_afs_read where
  fd : File
  files : List afs_file
  file_count : Nat
  flags : Nat
deriving DecidableEq

/-- The loop `for(i = 0; i < files; ++i)` of `pso_afs_read_open_fd`, with
`k` entries still to read and `acc` the entries read so far. -/
def afs_read_entries : Nat → File → Nat → List afs_file → Except pso_error_t (List afs_file × File)
  | 0, fd, _, acc => .ok (acc, fd)
  | k + 1, fd, len, acc =>
    let r := read fd 8
    let buf := r.1
    if buf.length ≠ 8 then .error PSOARCHIVE_EIO
    else
      let offset := le32 (buf.getD 0 0) (buf.getD 1 0) (buf.getD 2 0) (buf.getD 3 0)
      let size := le32 (buf.getD 4 0) (buf.getD 5 0) (buf.getD 6 0) (buf.getD 7 0)
      if (offset + size) % 2 ^ 32 > len then .error PSOARCHIVE_ERANGE
      else afs_read_entries k r.2 len (acc ++ [{ offset := offset, size := size }])

/-- The C function `pso_afs_read_open_fd(fd, len, flags, err)`: `.error e` is the `NULL`
return with `*err = e`, `.ok h` the handle with `*err = PSOARCHIVE_OK`. -/
def pso_afs_read_open_fd (fd : File) (len flags : Nat) : Except pso_error_t pso_afs_read :=
  let r := read fd 8
  let buf := r.1
  if buf.length ≠ 8 then .error PSOARCHIVE_NOARCHIVE
  else if buf.getD 0 0 ≠ 0x41 ∨ buf.getD 1 0 ≠ 0x46 ∨ buf.getD 2 0 ≠ 0x53 ∨ buf.getD 3 0 ≠ 0x00
  then .error PSOARCHIVE_NOARCHIVE
  else
    let files := le32 (buf.getD 4 0) (buf.getD 5 0) (buf.getD 6 0) (buf.getD 7 0)
    if files > 65535 then .error PSOARCHIVE_EFATAL
    else
      match afs_read_entries files r.2 len [] with
      | .error e => .error e
      | .ok (tab, fd1) => .ok { fd := fd1, files := tab, file_count := files, flags := flags }

/-- The C function `pso_afs_read_open(fn, flags, err)`. `fd` is the value
the call `open(fn, O_RDONLY)` returned, and `os` maps a descriptor to the file
it refers to: `none` for a descriptor that is not open, on which `lseek`
returns `-1`. -/
def pso_afs_read_open (fd : Int) (os : Int → Option File) (flags : Nat) :
    Except pso_error_t pso_afs_read :=
  if fd = 0 then .error PSOARCHIVE_EFILE
  else
    match os fd with
    | none => .error PSOARCHIVE_EIO
    | some f =>
      let total := f.data.length
      pso_afs_read_open_fd (lseek f 0) (total % 2 ^ 32) flags

/-- The C function `pso_afs_file_count`. -/
def pso_afs_file_count (a : Option pso_afs_read) : Nat :=
  match a with
  | none => 0
  | some a => a.file_count

/-- Modelled from the spec: `PSOARCHIVE_HND_INVALID` is declared in the
absent `psoarchive-error.h`; the spec calls it the invalid sentinel that a
lookup returns instead of a 32-bit index. -/
def PSOARCHIVE_HND_INVALID : Nat := 0xFFFFFFFF

/-- The C function `pso_afs_file_lookup`. -/
def pso_afs_file_lookup (_a : Option pso_afs_read) (_fn : List Nat) : Nat :=
  PSOARCHIVE_HND_INVALID

/-- The decimal digits of `n` as character codes, most significant first;
`fuel` bounds the number of digits. -/
def dec_digits : Nat → Nat → List Nat
  | 0, _ => []
  | fuel + 1, n => if n < 10 then [48 + n] else dec_digits fuel (n / 10) ++ [48 + n % 10]

/-- The characters the C library prints for the format `"%05" PRIu32 ".bin"`
and the 32-bit value `hnd`: its decimal digits (at most 10), filled up on the
left with the character `0` to a width of 5, then `.bin`. -/
def fmt_05u_bin (hnd : Nat) : List Nat :=
  let ds := dec_digits 10 hnd
  List.replicate (5 - ds.length) 48 ++ ds ++ [46, 98, 105, 110]

/-- The C library call `snprintf(fn, len, "%05" PRIu32 ".bin", hnd)`: at most
`len - 1` characters of the output are stored at `fn`, followed by a zero
byte; nothing is stored when `len` is 0. -/
def snprintf_05u_bin (fn : List Nat) (len hnd : Nat) : List Nat :=
  if len = 0 then fn else write_at fn 0 ((fmt_05u_bin hnd).take (len - 1) ++ [0])

/-- The C function `pso_afs_file_name(a, hnd, fn, len)`: the result code and
the buffer `fn` afterwards. -/
def pso_afs_file_name (a : Option pso_afs_read) (hnd : Nat) (fn : List Nat) (len : Nat) :
    pso_error_t × List Nat :=
  match a with
  | none => (PSOARCHIVE_EFATAL, fn)
  | some a =>
    if hnd ≥ a.file_count then (PSOARCHIVE_EFATAL, fn)
    else (PSOARCHIVE_OK, snprintf_05u_bin fn len hnd)

/-- The C function `pso_afs_file_size`. -/
def pso_afs_file_size (a : Option pso_afs_read) (hnd : Nat) : Int :=
  match a with
  | none => -1
  | some a =>
    if hnd ≥ a.file_count then -1
    else
      match a.files.get? hnd with
      | none => -1
      | some f => (f.size : Int)

/-- What a blob read does: it returns `rv` having left `buf` in the caller's
buffer, or it indexes the entry table at `hnd`, past its last entry. -/
inductive file_read_result where
  | ret (rv : Int) (buf : Option (List Nat))
  | table_overrun (hnd : Nat)
deriving DecidableEq

/-- The C function `pso_afs_file_read(a, hnd, buf, len)`. -/
def pso_afs_file_read (a : Option pso_afs_read) (hnd : Nat) (buf : Option (List Nat))
    (len : Nat) : file_read_result :=
  match a, buf with
  | none, _ => .ret (-1) buf
  | _, none => .ret (-1) none
  | some a, some b =>
    if hnd > a.file_count ∨ len = 0 then .ret (-1) buf
    else
      match a.files.get? hnd with
      | none => .table_overrun hnd
      | some f =>
        let fd := lseek a.fd f.offset
        let len := if f.size < len then f.size else len
        let r := read fd len
        if r.1.length ≠ len then .ret (-1) (some (write_at b 0 r.1))
        else .ret (len : Int) (some (write_at b 0 r.1))

/-! ## AFS-write.c -/

/-- The C type `struct pso_afs_write`. -/
structure pso_afs_write where
  fd : File
  ftab_used : Nat
  flags : Nat
  ftab_pos : Nat
  data_pos : Nat
deriving DecidableEq

/-- The C function `pso_afs_new_fd(fd, flags, err)`. -/
def pso_afs_new_fd (fd : File) (flags : Nat) : Except pso_error_t pso_afs_write :=
  .ok { fd := fd, ftab_used := 0, ftab_pos := 8, data_pos := 0x80000, flags := flags }

/-- The C function `pso_afs_write_add(a, fn, data, len)`: the result code and the handle
afterwards. The result of `pad_file` is stored in `data_pos` unchecked; `o`
says how the system calls of `pad_file` end (when it is left out, they
succeed). -/
def pso_afs_write_add (a : Option pso_afs_write) (_fn : List Nat) (data : List Nat) (len : Nat)
    (o : pad_io := pad_io.ok) : pso_error_t × Option pso_afs_write :=
  match a with
  | none => (PSOARCHIVE_EFATAL, none)
  | some a =>
    let fd := lseek a.fd a.ftab_pos
    let buf := le32_bytes a.data_pos ++ le32_bytes len
    let fd := write fd buf
    let ftab_pos := a.ftab_pos + 8
    let ftab_used := a.ftab_used + 1
    let fd := lseek fd a.data_pos
    let fd := write fd (bytes_at data 0 len)
    let r := pad_file fd 2048 o
    (PSOARCHIVE_OK, some { a with fd := r.2, ftab_pos := ftab_pos, ftab_used := ftab_used,
                                  data_pos := r.1 })

/-- The C function `pso_afs_write_close(a)`: the result code and the closed file. -/
def pso_afs_write_close (a : Option pso_afs_write) : pso_error_t × Option File :=
  match a with
  | none => (PSOARCHIVE_EFATAL, none)
  | some a =>
    let fd := lseek a.fd 0
    let buf := [0x41, 0x46, 0x53, 0x00] ++ le32_bytes a.ftab_used
    let fd := write fd buf
    (PSOARCHIVE_OK, some fd)

/-! ## GSL-common.h, GSL-read.c -/

def PSO_GSL_BIG_ENDIAN : Nat := 1 <<< 0
def PSO_GSL_LITTLE_ENDIAN : Nat := 1 <<< 1
def GSL_ENDIANNESS : Nat := PSO_GSL_BIG_ENDIAN ||| PSO_GSL_LITTLE_ENDIAN
def GSL_FILENAME_LEN : Nat := 32

/-- The C type `struct gsl_file`. -/
structure gsl_file where
  filename : List Nat
  offset : Nat
  size : Nat
deriving DecidableEq

/-- The C type `struct pso_gsl_read`. -/
structure pso_gsl_read where
  fd : File
  files : List gsl_file
  file_count : Nat
  flags : Nat
deriving DecidableEq

/-- The big-endian reading of the offset and size fields of a 48-byte entry. -/
def gsl_decode_be (buf : List Nat) : Nat × Nat :=
  (le32 (buf.getD 35 0) (buf.getD 34 0) (buf.getD 33 0) (buf.getD 32 0),
   le32 (buf.getD 39 0) (buf.getD 38 0) (buf.getD 37 0) (buf.getD 36 0))

/-- The little-endian reading of the offset and size fields. -/
def gsl_decode_le (buf : List Nat) : Nat × Nat :=
  (le32 (buf.getD 32 0) (buf.getD 33 0) (buf.getD 34 0) (buf.getD 35 0),
   le32 (buf.getD 36 0) (buf.getD 37 0) (buf.getD 38 0) (buf.getD 39 0))

/-- The loop `for(i = 1; i < maxfiles; ++i)` of `pso_gsl_read_open_fd`; it
returns the table and the final `i`. `fuel` bounds the iterations. The
capacity doubling of the table (`allocd`) only matters to allocation and is
not tracked. -/
def gsl_read_entries : Nat → Nat → Nat → File → Nat → Nat → List gsl_file →
    Except pso_error_t (List gsl_file × Nat × File)
  | 0, i, _, fd, _, _, files => .ok (files, i, fd)
  | fuel + 1, i, maxfiles, fd, len, flags, files =>
    if i < maxfiles then
      let r := read fd 48
      let buf := r.1
      if buf.length ≠ 48 then .error PSOARCHIVE_EIO
      else if buf.getD 0 0 = 0 then .ok (files, i, r.2)
      else
        let os := if flags &&& PSO_GSL_BIG_ENDIAN ≠ 0 then gsl_decode_be buf else gsl_decode_le buf
        let f : gsl_file :=
          { filename := buf.take 32, offset := (os.1 * 2048) % 2 ^ 32, size := os.2 }
        if (f.offset + f.size) % 2 ^ 32 > len then .error PSOARCHIVE_ERANGE
        else gsl_read_entries fuel (i + 1) maxfiles r.2 len flags (files ++ [f])
    else .ok (files, i, fd)

/-- The decoding of the first entry in `pso_gsl_read_open_fd`: offset (in
blocks), size and the updated flags, or the range error of the guess. -/
def gsl_first_entry (buf : List Nat) (len flags : Nat) : Except pso_error_t (Nat × Nat × Nat) :=
  if flags &&& GSL_ENDIANNESS = 0 then
    let os := gsl_decode_be buf
    let flags := flags ||| PSO_GSL_BIG_ENDIAN
    if os.1 > len ∨ (os.1 * 2048) % 2 ^ 32 > len ∨ os.2 > len then
      let os := gsl_decode_le buf
      let flags := flags ||| PSO_GSL_LITTLE_ENDIAN
      if (os.1 * 2048) % 2 ^ 32 > len ∨ os.2 > len then .error PSOARCHIVE_ERANGE
      else .ok (os.1, os.2, flags)
    else .ok (os.1, os.2, flags)
  else if flags &&& PSO_GSL_BIG_ENDIAN ≠ 0 then
    let os := gsl_decode_be buf
    .ok (os.1, os.2, flags)
  else
    let os := gsl_decode_le buf
    .ok (os.1, os.2, flags)

/-- The C function `pso_gsl_read_open_fd(fd, len, flags, err)`. -/
def pso_gsl_read_open_fd (fd : File) (len flags : Nat) : Except pso_error_t pso_gsl_read :=
  let r := read fd 48
  let buf := r.1
  if buf.length ≠ 48 then .error PSOARCHIVE_NOARCHIVE
  else if buf.getD 0 0 = 0 then .error PSOARCHIVE_EMPTY
  else
    match gsl_first_entry buf len flags with
    | .error e => .error e
    | .ok (offset, size, flags) =>
      let f0 : gsl_file :=
        { filename := buf.take 32, offset := (offset * 2048) % 2 ^ 32, size := size }
      let maxfiles := f0.offset / 48
      match gsl_read_entries maxfiles 1 maxfiles r.2 len flags [f0] with
      | .error e => .error e
      | .ok (files, i, fd1) =>
        .ok { fd := fd1, files := files, file_count := i, flags := flags }

/-- The value of the variable `allocd` of `pso_gsl_read_open_fd` when entry
`i` is stored: 256 for entry 0, and each round `i >= 1` of the loop doubles it
first when `i == allocd`. -/
def gsl_allocd : Nat → Nat
  | 0 => 256
  | i + 1 => if i + 1 = gsl_allocd i then (gsl_allocd i * 2) % 2 ^ 32 else gsl_allocd i

/-- The C function `pso_gsl_read_open(fn, flags, err)`, with `fd` and `os`
as for `pso_afs_read_open`. -/
def pso_gsl_read_open (fd : Int) (os : Int → Option File) (flags : Nat) :
    Except pso_error_t pso_gsl_read :=
  if fd = 0 then .error PSOARCHIVE_EFILE
  else
    match os fd with
    | none => .error PSOARCHIVE_EIO
    | some f =>
      let total := f.data.length
      pso_gsl_read_open_fd (lseek f 0) (total % 2 ^ 32) flags

/-- The C function `pso_gsl_file_count`. -/
def pso_gsl_file_count (a : Option pso_gsl_read) : Nat :=
  match a with
  | none => 0
  | some a => a.file_count

/-- The C library function `strncmp(s1, s2, n)` on byte strings: the first
`n` characters are compared, up to and including the first zero byte. A list
that ends before a position reads as its terminating zero byte there. -/
def strncmp : List Nat → List Nat → Nat → Int
  | _, _, 0 => 0
  | s1, s2, n + 1 =>
    let c1 := s1.headD 0
    let c2 := s2.headD 0
    if c1 ≠ c2 then (c1 : Int) - (c2 : Int)
    else if c1 = 0 then 0
    else strncmp s1.tail s2.tail n

/-- The loop `for(i = 0; i < a->file_count; ++i)` of `pso_gsl_file_lookup`
from index `i` on; `fuel` bounds the iterations. An index past the stored
table, which no handle made by `pso_gsl_read_open_fd` has below its
`file_count`, ends the search. -/
def gsl_lookup_loop : Nat → pso_gsl_read → List Nat → Nat → Nat
  | 0, _, _, _ => PSOARCHIVE_HND_INVALID
  | fuel + 1, a, fn, i =>
    if i < a.file_count then
      match a.files.get? i with
      | none => PSOARCHIVE_HND_INVALID
      | some f =>
        if strncmp fn f.filename 32 = 0 then i
        else gsl_lookup_loop fuel a fn (i + 1)
    else PSOARCHIVE_HND_INVALID

/-- The C function `pso_gsl_file_lookup(a, fn)`. -/
def pso_gsl_file_lookup (a : Option pso_gsl_read) (fn : Option (List Nat)) : Nat :=
  match a, fn with
  | none, _ => PSOARCHIVE_HND_INVALID
  | _, none => PSOARCHIVE_HND_INVALID
  | some a, some fn => gsl_lookup_loop a.file_count a fn 0

/-- The C function `pso_gsl_file_size`. -/
def pso_gsl_file_size (a : Option pso_gsl_read) (hnd : Nat) : Int :=
  match a with
  | none => -1
  | some a =>
    if hnd ≥ a.file_count then -1
    else
      match a.files.get? hnd with
      | none => -1
      | some f => (f.size : Int)

/-- The C function `pso_gsl_file_read(a, hnd, buf, len)`. -/
def pso_gsl_file_read (a : Option pso_gsl_read) (hnd : Nat) (buf : Option (List Nat))
    (len : Nat) : file_read_result :=
  match a, buf with
  | none, _ => .ret (-1) buf
  | _, none => .ret (-1) none
  | some a, some b =>
    if hnd > a.file_count ∨ len = 0 then .ret (-1) buf
    else
      match a.files.get? hnd with
      | none => .table_overrun hnd
      | some f =>
        let fd := lseek a.fd f.offset
        let len := if f.size < len then f.size else len
        let r := read fd len
        if r.1.length ≠ len then .ret (-1) (some (write_at b 0 r.1))
        else .ret (len : Int) (some (write_at b 0 r.1))

/-! ## GSL-write.c -/

/-- The C type `struct pso_gsl_write`. -/
structure pso_gsl_write where
  fd : File
  ftab_entries : Int
  ftab_used : Nat
  flags : Nat
  ftab_pos : Nat
  data_pos : Nat
deriving DecidableEq

/-- The C function `pso_gsl_new_fd(fd, flags, err)`. -/
def pso_gsl_new_fd (fd : File) (flags : Nat) : Except pso_error_t pso_gsl_write :=
  if flags &&& GSL_ENDIANNESS = 0 ∨ flags &&& GSL_ENDIANNESS = GSL_ENDIANNESS then
    .error PSOARCHIVE_EFATAL
  else
    .ok { fd := fd, ftab_entries := 256, ftab_used := 0, ftab_pos := 0, data_pos := 256 * 48,
          flags := flags }

/-- The C function `pso_gsl_write_close(a)`. -/
def pso_gsl_write_close (a : Option pso_gsl_write) : pso_error_t × Option File :=
  match a with
  | none => (PSOARCHIVE_EFATAL, none)
  | some a => (PSOARCHIVE_OK, some a.fd)

/-- The C function `pso_gsl_write_set_ftab_size(a, ents)`. -/
def pso_gsl_write_set_ftab_size (a : Option pso_gsl_write) (ents : Nat) :
    pso_error_t × Option pso_gsl_write :=
  match a with
  | none => (PSOARCHIVE_EFATAL, none)
  | some a =>
    if a.ftab_used ≠ 0 then (PSOARCHIVE_EFATAL, some a)
    else
      let ents := if ents < 256 then 256 else ents
      let ftab_entries := toInt32 ents
      let data_pos := (ents * 48) % 2 ^ 32
      if data_pos &&& 0x7FF ≠ 0 then
        let data_pos := (data_pos + 0x800) &&& 0xFFFFF800
        (PSOARCHIVE_OK, some { a with ftab_entries := toInt32 (data_pos / 48),
                                      data_pos := data_pos })
      else
        (PSOARCHIVE_OK, some { a with ftab_entries := ftab_entries, data_pos := data_pos })

/-- The C function `strncpy(buf, fn, n)`: the characters of the C string `fn` (up to its
first zero byte), cut or zero-padded to `n` bytes. -/
def strncpy (fn : List Nat) (n : Nat) : List Nat :=
  let s := fn.takeWhile (fun ch => ch ≠ 0)
  s.take n ++ List.replicate (n - s.length) 0

/-- The C function `pso_gsl_file_name(a, hnd, fn, len)`: the result code and
the buffer `fn` afterwards. `after` holds the bytes that follow the name
field in memory, which `strncpy` goes on to read when the field holds no
zero byte and `len` is above 32. -/
def pso_gsl_file_name (a : Option pso_gsl_read) (hnd : Nat) (fn : List Nat) (len : Nat)
    (after : List Nat) : pso_error_t × List Nat :=
  match a with
  | none => (PSOARCHIVE_EFATAL, fn)
  | some a =>
    if hnd ≥ a.file_count then (PSOARCHIVE_EFATAL, fn)
    else
      match a.files.get? hnd with
      | none => (PSOARCHIVE_EFATAL, fn)
      | some f => (PSOARCHIVE_OK, write_at fn 0 (strncpy (f.filename ++ after) len))

/-- The 48-byte table entry `pso_gsl_write_add` builds in `buf`. -/
def gsl_entry (flags : Nat) (fn : List Nat) (data_pos len : Nat) : List Nat :=
  let tmp := (data_pos >>> 11) % 2 ^ 32
  strncpy fn 32 ++
    (if flags &&& PSO_GSL_BIG_ENDIAN ≠ 0 then be32_bytes tmp ++ be32_bytes len
     else le32_bytes tmp ++ le32_bytes len) ++
    [0, 0, 0, 0, 0, 0, 0, 0]

/-- The C function `pso_gsl_write_add(a, fn, data, len)`. The result of
`pad_file` is stored in `data_pos` unchecked; `o` says how the system calls of
`pad_file` end (when it is left out, they succeed). -/
def pso_gsl_write_add (a : Option pso_gsl_write) (fn : List Nat) (data : List Nat) (len : Nat)
    (o : pad_io := pad_io.ok) : pso_error_t × Option pso_gsl_write :=
  match a with
  | none => (PSOARCHIVE_EFATAL, none)
  | some a =>
    if (a.ftab_used : Int) = a.ftab_entries - 1 then (PSOARCHIVE_EFATAL, some a)
    else
      let fd := lseek a.fd a.ftab_pos
      let buf := gsl_entry a.flags fn a.data_pos len
      let fd := write fd buf
      let ftab_pos := a.ftab_pos + 48
      let ftab_used := a.ftab_used + 1
      let fd := lseek fd a.data_pos
      let fd := write fd (bytes_at data 0 len)
      let r := pad_file fd 2048 o
      (PSOARCHIVE_OK, some { a with fd := r.2, ftab_pos := ftab_pos, ftab_used := ftab_used,
                                    data_pos := r.1 })

/-- The loop `while(len)` of `pso_gsl_write_add_fd`: pieces of at most 512
bytes are read from `src` and written to `dst`. The first component is
`false` when a read came up short (the `PSOARCHIVE_EIO` return); the
descriptors are as the loop left them. `fuel` bounds the iterations. -/
def gsl_copy_loop : Nat → File → File → Nat → Bool × File × File
  | 0, src, dst, _ => (true, src, dst)
  | fuel + 1, src, dst, len =>
    if len = 0 then (true, src, dst)
    else
      let bytes := if len > 512 then 512 else len
      let r := read src bytes
      if r.1.length ≠ bytes then (false, r.2, dst)
      else gsl_copy_loop fuel r.2 (write dst r.1) (len - bytes)

/-- The C function `pso_gsl_write_add_fd(a, fn, fd, len)`: the result code,
the handle afterwards and the source descriptor afterwards. The result of
`pad_file` is stored in `data_pos` unchecked; `o` says how the system calls of
`pad_file` end (when it is left out, they succeed). -/
def pso_gsl_write_add_fd (a : Option pso_gsl_write) (fn : List Nat) (fd : File) (len : Nat)
    (o : pad_io := pad_io.ok) : pso_error_t × Option pso_gsl_write × File :=
  match a with
  | none => (PSOARCHIVE_EFATAL, none, fd)
  | some a =>
    if (a.ftab_used : Int) = a.ftab_entries - 1 then (PSOARCHIVE_EFATAL, some a, fd)
    else
      let afd := lseek a.fd a.ftab_pos
      let buf := gsl_entry a.flags fn a.data_pos len
      let afd := write afd buf
      let ftab_pos := a.ftab_pos + 48
      let ftab_used := a.ftab_used + 1
      let afd := lseek afd a.data_pos
      let c := gsl_copy_loop len fd afd len
      if c.1 = false then
        let a1 : pso_gsl_write :=
          { a with fd := c.2.2, ftab_pos := ftab_pos, ftab_used := ftab_used }
        ( PSOARCHIVE_EIO, some a1, c.2.1)
      else
        let r := pad_file c.2.2 2048 o
        (PSOARCHIVE_OK, some { a with fd := r.2, ftab_pos := ftab_pos, ftab_used := ftab_used,
                                      data_pos := r.1 }, c.2.1)

/-- The write handles a caller can arrive at: `pso_gsl_new_fd`, then any
calls of `pso_gsl_write_set_ftab_size` whose `ents` satisfies `P`, of
`pso_gsl_write_add` and of `pso_gsl_write_add_fd`, whatever result code they
return, the system calls of `pad_file` succeeding. -/
inductive gsl_write_reach (P : Nat → Prop) : pso_gsl_write → Prop where
  | new_fd (fd : File) (flags : Nat) (a : pso_gsl_write) :
      pso_gsl_new_fd fd flags = .ok a → gsl_write_reach P a
  | set_ftab_size (a a1 : pso_gsl_write) (ents : Nat) (c : pso_error_t) :
      gsl_write_reach P a → P ents →
      pso_gsl_write_set_ftab_size (some a) ents = (c, some a1) → gsl_write_reach P a1
  | add (a a1 : pso_gsl_write) (fn data : List Nat) (len : Nat) (c : pso_error_t) :
      gsl_write_reach P a →
      pso_gsl_write_add (some a) fn data len = (c, some a1) → gsl_write_reach P a1
  | add_fd (a a1 : pso_gsl_write) (fn : List Nat) (fd fd1 : File) (len : Nat) (c : pso_error_t) :
      gsl_write_reach P a →
      pso_gsl_write_add_fd (some a) fn fd len = (c, some a1, fd1) → gsl_write_reach P a1

/-- The Container A write handles a caller can arrive at: `pso_afs_new_fd` on
any descriptor, then any calls of `pso_afs_write_add`, whatever result code
they return, the system calls of `pad_file` succeeding. -/
inductive afs_write_reach : pso_afs_write → Prop where
  | new_fd (fd : File) (flags : Nat) (a : pso_afs_write) :
      pso_afs_new_fd fd flags = .ok a → afs_write_reach a
  | add (a a1 : pso_afs_write) (fn data : List Nat) (len : Nat) (c : pso_error_t) :
      afs_write_reach a →
      pso_afs_write_add (some a) fn data len = (c, some a1) → afs_write_reach a1

/-- The Container A write handles reached from `pso_afs_new_fd` on an empty
file by successful calls of `pso_afs_write_add` whose blob ends below file
offset `2^64` (the offsets the 64-bit `off_t` arithmetic of `pad_file` is
modelled for). -/
inductive afs_write_run : pso_afs_write → Prop where
  | new_fd (flags : Nat) (a : pso_afs_write) :
      pso_afs_new_fd ⟨[], 0⟩ flags = .ok a → afs_write_run a
  | add (a a1 : pso_afs_write) (fn data : List Nat) (len : Nat) :
      afs_write_run a → a.data_pos + len < 2 ^ 64 →
      pso_afs_write_add (some a) fn data len = (PSOARCHIVE_OK, some a1) → afs_write_run a1

/-- The Container B write handles reached from `pso_gsl_new_fd` on an empty
file by calls of `pso_gsl_write_set_ftab_size` that return `PSOARCHIVE_OK`
(which they only do before the first append) with `ents` satisfying `P`, and
by successful calls of `pso_gsl_write_add` whose blob ends below file offset
`2^64`. The index is the data cursor the handle had before its first append:
the start of the data region. -/
inductive gsl_write_run (P : Nat → Prop) : Nat → pso_gsl_write → Prop where
  | new_fd (flags : Nat) (a : pso_gsl_write) :
      pso_gsl_new_fd ⟨[], 0⟩ flags = .ok a → gsl_write_run P a.data_pos a
  | set_ftab_size (ds : Nat) (a a1 : pso_gsl_write) (ents : Nat) :
      gsl_write_run P ds a → P ents →
      pso_gsl_write_set_ftab_size (some a) ents = (PSOARCHIVE_OK, some a1) →
      gsl_write_run P a1.data_pos a1
  | add (ds : Nat) (a a1 : pso_gsl_write) (fn data : List Nat) (len : Nat) :
      gsl_write_run P ds a → a.data_pos + len < 2 ^ 64 →
      pso_gsl_write_add (some a) fn data len = (PSOARCHIVE_OK, some a1) →
      gsl_write_run P ds a1

/-! ## Example inputs -/

/-- A 16-byte Container A image: magic, count 1, one entry with offset
`0xFFFFFFF0` and size `0x20`. -/
def afs_wrap_image : List Nat :=
  [0x41, 0x46, 0x53, 0x00, 1, 0, 0, 0, 0xF0, 0xFF, 0xFF, 0xFF, 0x20, 0, 0, 0]

/-- A 48-byte Container B entry: the name, then the 8 bytes of the offset and
size fields, then 8 reserved zero bytes. -/
def gsl_raw_entry (name : List Nat) (fields : List Nat) : List Nat :=
  strncpy name 32 ++ fields ++ List.replicate 8 0

/-- A 48-byte Container B image: one entry `a`, little-endian block offset 0
and size 100. -/
def gsl_first_unchecked_image : List Nat :=
  gsl_raw_entry [97] [0, 0, 0, 0, 100, 0, 0, 0]

/-- A 4096-byte Container B image: one entry `a`, big-endian block offset 1
and size 4000, then zeros. -/
def gsl_guess_sum_image : List Nat :=
  gsl_raw_entry [97] [0, 0, 0, 1, 0, 0, 0x0F, 0xA0] ++ List.replicate (4096 - 48) 0

/-- A 6144-byte little-endian Container B image: entry `a` at block 1 with
size 1, entry `b` at block 2 with size 1, then zeros. -/
def gsl_le_two_image : List Nat :=
  gsl_raw_entry [97] [1, 0, 0, 0, 1, 0, 0, 0] ++ gsl_raw_entry [98] [2, 0, 0, 0, 1, 0, 0, 0] ++
    List.replicate (6144 - 96) 0

/-- The handle `pso_gsl_new_fd` returns for an empty file and
`PSO_GSL_BIG_ENDIAN`. -/
def gsl_fresh_be : pso_gsl_write :=
  { fd := ⟨[], 0⟩, ftab_entries := 256, ftab_used := 0, ftab_pos := 0, data_pos := 256 * 48,
    flags := PSO_GSL_BIG_ENDIAN }

/-- Two blobs, of 10 and 20 bytes. -/
def example_blobs : List (List Nat) :=
  [[0, 1, 2, 3, 4, 5, 6, 7, 8, 9],
   [10, 11, 12, 13, 14, 15, 16, 17, 18, 19, 20, 21, 22, 23, 24, 25, 26, 27, 28, 29]]

/-- The handle `pso_afs_new_fd` returns for an empty file and flags 0. -/
def afs_fresh : pso_afs_write :=
  { fd := ⟨[], 0⟩, ftab_used := 0, ftab_pos := 8, data_pos := 0x80000, flags := 0 }

/-- Two named blobs: `a.bin` with 10 bytes, and a 20-byte blob whose 33
character name does not fit the name field. -/
def example_named_blobs : List (List Nat × List Nat) :=
  [([97, 46, 98, 105, 110], [0, 1, 2, 3, 4, 5, 6, 7, 8, 9]),
   ([98, 98, 98, 98, 98, 98, 98, 98, 98, 98, 98, 98, 98, 98, 98, 98, 98, 98, 98, 98, 98, 98,
     98, 98, 98, 98, 98, 98, 98, 98, 98, 98, 99],
    [10, 11, 12, 13, 14, 15, 16, 17, 18, 19, 20, 21, 22, 23, 24, 25, 26, 27, 28, 29])]

/-- The handle `pso_gsl_new_fd` returns for an empty file and
`PSO_GSL_LITTLE_ENDIAN`. -/
def gsl_fresh_le : pso_gsl_write :=
  { fd := ⟨[], 0⟩, ftab_entries := 256, ftab_used := 0, ftab_pos := 0, data_pos := 256 * 48,
    flags := PSO_GSL_LITTLE_ENDIAN }

/-- Successive calls of `pso_gsl_write_add`, one per (name, blob) pair, each
on the handle the previous call left; the result codes in call order and the
final handle. -/
def gsl_write_all : Option pso_gsl_write → List (List Nat × List Nat) →
    List pso_error_t × Option pso_gsl_write
  | a, [] => ([], a)
  | a, nb :: rest =>
    let r := pso_gsl_write_add a nb.1 nb.2 nb.2.length
    let rs := gsl_write_all r.2 rest
    (r.1 :: rs.1, rs.2)

/-! ## Layout of a written archive -/

/-- Successive calls of `pso_afs_write_add`, one per blob, each on the handle
the previous call left; the result codes in call order and the final handle. -/
def afs_write_all : Option pso_afs_write → List (List Nat) →
    List pso_error_t × Option pso_afs_write
  | a, [] => ([], a)
  | a, b :: rest =>
    let r := pso_afs_write_add a [] b b.length
    let rs := afs_write_all r.2 rest
    (r.1 :: rs.1, rs.2)

/-- The first multiple of 2048 after the end `dp + len` of a blob written at
`dp`. -/
def next_data_pos (dp len : Nat) : Nat := (dp + len) / 2048 * 2048 + 2048

/-- The data cursor after appending blobs of the given lengths from cursor
`dp`, each followed by its padding: the padded total. -/
def padded_end : Nat → List Nat → Nat
  | dp, [] => dp
  | dp, len :: rest => padded_end (next_data_pos dp len) rest

/-- The data cursor at which blob `i` of a sequence of blobs of the given
lengths is written. -/
def padded_off : Nat → List Nat → Nat → Nat
  | dp, _, 0 => dp
  | dp, [], _ + 1 => dp
  | dp, len :: rest, i + 1 => padded_off (next_data_pos dp len) rest i

/-- File contents after one append: the table entry at `tp`, the blob at `dp`
and the padding byte before the next data position. -/
def add_data (D : List Nat) (tp : Nat) (entry : List Nat) (dp : Nat) (blob : List Nat) :
    List Nat :=
  write_at (write_at (write_at D tp entry) dp blob) (next_data_pos dp blob.length - 1) [0]

/-- File contents after a sequence of appends; an item is the table entry as
a function of the data cursor, and the blob; `E` is the size of an entry. -/
def layout_data (E : Nat) : List Nat → Nat → Nat → List ((Nat → List Nat) × List Nat) → List Nat
  | D, _, _, [] => D
  | D, tp, dp, x :: xs =>
    layout_data E (add_data D tp (x.1 dp) dp x.2) (tp + E) (next_data_pos dp x.2.length) xs

/-- The table entry and blob `pso_afs_write_add` writes for a blob. -/
def afs_item (b : List Nat) : (Nat → List Nat) × List Nat :=
  (fun dp => le32_bytes dp ++ le32_bytes b.length, b)

/-- The table entry and blob `pso_gsl_write_add` writes for a named blob. -/
def gsl_item (flags : Nat) (nb : List Nat × List Nat) : (Nat → List Nat) × List Nat :=
  (fun dp => gsl_entry flags nb.1 dp nb.2.length, nb.2)

/-- The Container A table entry stored at offset `p` of the bytes `D`. -/
def afs_entry_at (D : List Nat) (p : Nat) : afs_file :=
  { offset := le32 (D.getD p 0) (D.getD (p + 1) 0) (D.getD (p + 2) 0) (D.getD (p + 3) 0),
    size := le32 (D.getD (p + 4) 0) (D.getD (p + 5) 0) (D.getD (p + 6) 0) (D.getD (p + 7) 0) }

/-- The bytes of the file after `pso_afs_new_fd` on an empty file, one
`pso_afs_write_add` per blob and `pso_afs_write_close`. -/
def afs_image (blobs : List (List Nat)) : List Nat :=
  write_at (layout_data 8 [] 8 0x80000 (blobs.map afs_item)) 0
    ([0x41, 0x46, 0x53, 0x00] ++ le32_bytes blobs.length)

/-- The bytes of the file after `pso_gsl_new_fd` on an empty file and one
`pso_gsl_write_add` per named blob (`pso_gsl_write_close` writes nothing). -/
def gsl_image (flags : Nat) (blobs : List (List Nat × List Nat)) : List Nat :=
  layout_data 48 [] 0 (256 * 48) (blobs.map (gsl_item flags))

/-- The table entry `pso_gsl_read_open_fd` stores for the 48 bytes `buf` when
the byte order is given by `flags`. -/
def gsl_file_of_buf (flags : Nat) (buf : List Nat) : gsl_file :=
  let os := if flags &&& PSO_GSL_BIG_ENDIAN ≠ 0 then gsl_decode_be buf else gsl_decode_le buf
  { filename := buf.take 32, offset := (os.1 * 2048) % 2 ^ 32, size := os.2 }

/-- The handle `pso_gsl_write_set_ftab_size(a, 89478485)` leaves when `a` is
the fresh big-endian handle of an empty file: capacity 0, data cursor 0. -/
def gsl_zero_capacity : pso_gsl_write :=
  { fd := ⟨[], 0⟩, ftab_entries := 0, ftab_used := 0, ftab_pos := 0, data_pos := 0,
    flags := PSO_GSL_BIG_ENDIAN }

/-- A 20-byte Container A image: magic, count 1, the entry (offset 16, size
4) and the blob `9, 8, 7, 6`. -/
def afs_small_image : List Nat :=
  [0x41, 0x46, 0x53, 0x00, 1, 0, 0, 0, 16, 0, 0, 0, 4, 0, 0, 0, 9, 8, 7, 6]

/-- The handle `pso_afs_read_open_fd` makes for `afs_small_image`. -/
def afs_small_handle : pso_afs_read :=
  { fd := ⟨afs_small_image, 16⟩, files := [{ offset := 16, size := 4 }], file_count := 1,
    flags := 0 }

/-- The handle `pso_gsl_read_open_fd` makes for `gsl_le_two_image` when told
the byte order is little-endian. -/
def gsl_le_two_handle : pso_gsl_read :=
  { fd := ⟨gsl_le_two_image, 144⟩,
    files := [{ filename := strncpy [97] 32, offset := 2048, size := 1 },
              { filename := strncpy [98] 32, offset := 4096, size := 1 }],
    file_count := 2, flags := PSO_GSL_LITTLE_ENDIAN }

/-- One round of the seeding loop of `pso_prsd_crypt_init` for the counter
value `i`, on the loop variables `(key, tmp, stream)`. -/
def crypt_init_body (st : Nat × Nat × List Nat) (i : Nat) : Nat × Nat × List Nat :=
  let idx := i % 55
  let key1 := sub32 st.1 st.2.1
  let s1 := st.2.2.set idx st.2.1
  (s1.getD idx 0, key1, s1)

/-- The counter values for which the seeding loop runs its body, in order. -/
def crypt_init_counters : Nat → Nat → List Nat
  | 0, _ => []
  | fuel + 1, i => if i ≤ 0x46E then i :: crypt_init_counters fuel ((i + 0x15) % 2 ^ 32) else []

/-- The update the claim about `mix_stream` describes: `state[i] := state[i] -
state[i+31] (mod 2^32)` for `i = 1..24` in increasing order, then `state[i] :=
state[i] - state[i-24] (mod 2^32)` for `i = 25..55` in increasing order, each
step on the state the previous one left. -/
def mix_stream_steps (s : List Nat) : List Nat :=
  let s1 := (List.range' 1 24).foldl
    (fun t i => t.set i ((((t.getD i 0 : Int) - (t.getD (i + 31) 0 : Int)) % 2 ^ 32).toNat)) s
  (List.range' 25 31).foldl
    (fun t i => t.set i ((((t.getD i 0 : Int) - (t.getD (i - 24) 0 : Int)) % 2 ^ 32).toNat)) s1

/-- The state after `n` calls of `mix_stream`. -/
def mix_n : Nat → prsd_crypt_cxt → prsd_crypt_cxt
  | 0, c => c
  | n + 1, c => mix_stream (mix_n n c)

/-- The context `pso_prsd_crypt_init` has built when its seeding loop ends,
before the four calls of `mix_stream`: the key-scheduled state. -/
def crypt_scheduled (cxt : prsd_crypt_cxt) (key : Nat) : prsd_crypt_cxt :=
  let s0 := cxt.stream.set 55 key
  let r := crypt_init_loop 0x46E 0x15 key 1 s0
  { stream := r.2.2, key := key, pos := cxt.pos }

/-- The context after `n` calls of `crypt_dword`; the data words do not
influence it. -/
def crypt_dwords : prsd_crypt_cxt → Nat → prsd_crypt_cxt
  | c, 0 => c
  | c, n + 1 => (crypt_dword (crypt_dwords c n) 0).1

/-- A 2 MiB Container B image: one entry `a` whose offset field holds the
bytes `00 20 00 00` (block `0x200000` when read big-endian) and whose size
field is 0, then zeros. -/
def gsl_wrap_be_image : List Nat :=
  gsl_raw_entry [97] [0, 0x20, 0, 0, 0, 0, 0, 0] ++ List.replicate (0x200000 - 48) 0

/-- A 2 MiB Container B image: one entry `a` whose offset field holds the
bytes `00 00 20 00` (block `0x2000` when read big-endian, block `0x200000` when
read little-endian) and whose size field is 0, then zeros. -/
def gsl_wrap_le_image : List Nat :=
  gsl_raw_entry [97] [0, 0, 0x20, 0, 0, 0, 0, 0] ++ List.replicate (0x200000 - 48) 0

/-- A list of 65535 blobs: one byte `1`, then 65534 empty blobs. -/
def afs_many_blobs : List (List Nat) := [1] :: List.replicate 65534 []

/-- The fresh big-endian handle of an empty file after one `pso_gsl_write_add`
of the blob `1` under the name `a`. -/
def gsl_after_one : pso_gsl_write :=
  { fd := ⟨add_data [] 0 (gsl_entry PSO_GSL_BIG_ENDIAN [97] (256 * 48) 1) (256 * 48) [1],
           next_data_pos (256 * 48) 1⟩,
    ftab_entries := 256, ftab_used := 1, flags := PSO_GSL_BIG_ENDIAN, ftab_pos := 48,
    data_pos := next_data_pos (256 * 48) 1 }

/-- The contents of a file that already holds 20000 zero bytes. -/
def gsl_old_bytes : List Nat := List.replicate 20000 0

/-- The handle `pso_gsl_new_fd` returns for `PSO_GSL_BIG_ENDIAN` and a
descriptor of a file that already holds the bytes `gsl_old_bytes`. -/
def gsl_on_old_file : pso_gsl_write :=
  { fd := ⟨gsl_old_bytes, 0⟩, ftab_entries := 256, ftab_used := 0, ftab_pos := 0,
    data_pos := 256 * 48, flags := PSO_GSL_BIG_ENDIAN }

/-- One named blob, `c` with the bytes 7, 7: what is appended after the blob
with the empty name in the example of an empty name. -/
def gsl_empty_name_tail : List (List Nat × List Nat) := [([99], [7, 7])]

/-- Two 56-slot streams hold the same words in slots 1..55, the slots the
cipher uses. -/
def stream_agree (s t : List Nat) : Prop :=
  s.length = 56 ∧ t.length = 56 ∧ ∀ i, 1 ≤ i → i < 56 → s.getD i 0 = t.getD i 0

/-- Two contexts with the same cursor, in range, and agreeing streams. -/
def cxt_agree (c1 c2 : prsd_crypt_cxt) : Prop :=
  c1.pos = c2.pos ∧ 1 ≤ c1.pos ∧ c1.pos ≤ 56 ∧ stream_agree c1.stream c2.stream

/-- The slots the seeding loop stores to, latest first. -/
def crypt_init_written : Nat → Nat → List Nat
  | 0, _ => []
  | fuel + 1, i =>
    if i ≤ 0x46E then crypt_init_written fuel ((i + 0x15) % 2 ^ 32) ++ [i % 55] else []

/-- The context after `crypt_dword` and the key word it XORs in. -/
def crypt_next (cxt : prsd_crypt_cxt) : prsd_crypt_cxt × Nat :=
  let c := if cxt.pos = 56 then { mix_stream cxt with pos := 1 } else cxt
  ({ c with pos := (c.pos + 1) % 2 ^ 32 }, c.stream.getD c.pos 0)

/-- The `i`-th key word drawn from a context. -/
def keystream_word : prsd_crypt_cxt → Nat → Nat
  | c, 0 => (crypt_next c).2
  | c, i + 1 => keystream_word (crypt_next c).1 i

/-- The `j`-th key byte drawn from a context: byte `j % 4` (little-endian) of
key word `j / 4`. -/
def keystream_byte (c : prsd_crypt_cxt) (j : Nat) : Nat :=
  (keystream_word c (j / 4) >>> (8 * (j % 4))) % 256

/-! ## Machine-word lemmas -/

theorem or_shift_eq_add (a b k : Nat) (h : a < 2 ^ k) : a ||| (b <<< k) = a + 2 ^ k * b := by
  rw [Nat.shiftLeft_eq, Nat.mul_comm b, Nat.lor_comm, ← Nat.mul_add_lt_is_or h, Nat.add_comm]

theorem le32_eq_add (b0 b1 b2 b3 : Nat) (h0 : b0 < 256) (h1 : b1 < 256) (h2 : b2 < 256)
    (h3 : b3 < 256) : le32 b0 b1 b2 b3 = b0 + 256 * b1 + 65536 * b2 + 16777216 * b3 := by
  unfold le32
  rw [or_shift_eq_add b0 b1 8 (by omega), or_shift_eq_add _ b2 16 (by omega),
    or_shift_eq_add _ b3 24 (by omega)]
  omega

theorem le32_lt (b0 b1 b2 b3 : Nat) : le32 b0 b1 b2 b3 < 2 ^ 32 :=
  Nat.mod_lt _ (by norm_num)

theorem le32_bytes_le32 (b0 b1 b2 b3 : Nat) (h0 : b0 < 256) (h1 : b1 < 256) (h2 : b2 < 256)
    (h3 : b3 < 256) : le32_bytes (le32 b0 b1 b2 b3) = [b0, b1, b2, b3] := by
  rw [le32_eq_add b0 b1 b2 b3 h0 h1 h2 h3]
  simp only [le32_bytes, Nat.shiftRight_eq_div_pow]
  congr 1
  · omega
  congr 1
  · omega
  congr 1
  · omega
  congr 1
  omega

theorem le32_le32_bytes (x : Nat) :
    le32 (x % 256) ((x >>> 8) % 256) ((x >>> 16) % 256) ((x >>> 24) % 256) = x % 2 ^ 32 := by
  rw [le32_eq_add _ _ _ _ (Nat.mod_lt _ (by norm_num)) (Nat.mod_lt _ (by norm_num))
    (Nat.mod_lt _ (by norm_num)) (Nat.mod_lt _ (by norm_num))]
  simp only [Nat.shiftRight_eq_div_pow]
  omega

theorem and_fffffffc (x : Nat) (h : x < 2 ^ 32) : x &&& 0xFFFFFFFC = x / 4 * 4 := by
  apply Nat.eq_of_testBit_eq
  intro i
  have e1 : (0xFFFFFFFC : Nat) = 2 ^ 2 * (2 ^ 30 - 1) := by norm_num
  have e2 : x / 4 * 4 = 2 ^ 2 * (x / 2 ^ 2) := by norm_num [Nat.mul_comm]
  rw [Nat.testBit_and, e1, e2, Nat.testBit_mul_pow_two, Nat.testBit_mul_pow_two,
    Nat.testBit_two_pow_sub_one, ← Nat.shiftRight_eq_div_pow, Nat.testBit_shiftRight]
  by_cases h2 : 2 ≤ i
  · have e3 : 2 + (i - 2) = i := by omega
    rw [e3]
    by_cases h3 : i < 32
    · have : i - 2 < 30 := by omega
      simp [h2, this]
    · have hx : x.testBit i = false :=
        Nat.testBit_lt_two_pow (Nat.lt_of_lt_of_le h (Nat.pow_le_pow_right (by norm_num) (by omega)))
      simp [hx]
  · simp [h2]

theorem xor_byte (w k s : Nat) (hs : s + 8 ≤ 32) :
    (((w ^^^ k) % 2 ^ 32) >>> s) % 256 = ((w >>> s) % 256) ^^^ ((k >>> s) % 256) := by
  apply Nat.eq_of_testBit_eq
  intro i
  have e : (256 : Nat) = 2 ^ 8 := by norm_num
  rw [e]
  simp only [Nat.testBit_mod_two_pow, Nat.testBit_xor, Nat.testBit_shiftRight]
  by_cases h : i < 8
  · have : s + i < 32 := by omega
    simp [h, this]
  · simp [h]

theorem le32_bytes_xor (b0 b1 b2 b3 k : Nat) (h0 : b0 < 256) (h1 : b1 < 256) (h2 : b2 < 256)
    (h3 : b3 < 256) :
    le32_bytes ((le32 b0 b1 b2 b3 ^^^ k) % 2 ^ 32) =
      [b0 ^^^ (k % 256), b1 ^^^ ((k >>> 8) % 256), b2 ^^^ ((k >>> 16) % 256),
        b3 ^^^ ((k >>> 24) % 256)] := by
  have hb := le32_bytes_le32 b0 b1 b2 b3 h0 h1 h2 h3
  simp only [le32_bytes, List.cons.injEq, and_true] at hb
  obtain ⟨e0, e1, e2, e3⟩ := hb
  have x0 := xor_byte (le32 b0 b1 b2 b3) k 0 (by omega)
  have x1 := xor_byte (le32 b0 b1 b2 b3) k 8 (by omega)
  have x2 := xor_byte (le32 b0 b1 b2 b3) k 16 (by omega)
  have x3 := xor_byte (le32 b0 b1 b2 b3) k 24 (by omega)
  simp only [Nat.shiftRight_zero] at x0
  rw [e0] at x0
  rw [e1] at x1
  rw [e2] at x2
  rw [e3] at x3
  simp only [le32_bytes, x0, x1, x2, x3]

/-! ## List lemmas -/

theorem ext_getD (l1 l2 : List Nat) (hl : l1.length = l2.length)
    (h : ∀ i, i < l1.length → l1.getD i 0 = l2.getD i 0) : l1 = l2 := by
  apply List.ext_getElem hl
  intro i h1 h2
  have := h i h1
  rwa [List.getD_eq_getElem _ _ h1, List.getD_eq_getElem _ _ h2] at this

theorem getD_drop (l : List Nat) (k i : Nat) : (l.drop k).getD i 0 = l.getD (k + i) 0 := by
  simp [List.getD_eq_getElem?_getD, List.getElem?_drop]

theorem getD_take (l : List Nat) (k i : Nat) :
    (l.take k).getD i 0 = if i < k then l.getD i 0 else 0 := by
  simp only [List.getD_eq_getElem?_getD, List.getElem?_take]
  by_cases h : i < k <;> simp [h]

theorem getD_append_if (l1 l2 : List Nat) (i : Nat) :
    (l1 ++ l2).getD i 0 = if i < l1.length then l1.getD i 0 else l2.getD (i - l1.length) 0 := by
  by_cases h : i < l1.length
  · rw [List.getD_append _ _ _ _ h, if_pos h]
  · rw [List.getD_append_right _ _ _ _ (Nat.le_of_not_lt h), if_neg h]

theorem getD_lt_of_forall (l : List Nat) (h : ∀ b ∈ l, b < 256) (i : Nat) : l.getD i 0 < 256 := by
  by_cases hi : i < l.length
  · rw [List.getD_eq_getElem _ _ hi]
    exact h _ (List.getElem_mem hi)
  · rw [List.getD_eq_default _ _ (Nat.le_of_not_lt hi)]
    norm_num

/-! ## Cipher lemmas -/

theorem getD_set (s : List Nat) (p i v : Nat) :
    (s.set p v).getD i 0 = if p = i ∧ p < s.length then v else s.getD i 0 := by
  simp only [List.getD_eq_getElem?_getD, List.getElem?_set]
  by_cases h : p = i
  · subst h
    by_cases h2 : p < s.length
    · simp [h2]
    · simp [h2, List.getElem?_eq_none (Nat.le_of_not_lt h2)]
  · simp [h]

theorem stream_agree_set (s t : List Nat) (p v : Nat) (h : stream_agree s t) :
    stream_agree (s.set p v) (t.set p v) := by
  obtain ⟨hs, ht, hst⟩ := h
  refine ⟨by simp [hs], by simp [ht], ?_⟩
  intro i h1 h2
  rw [getD_set, getD_set, hs, ht, hst i h1 h2]

theorem mix_loop1_agree (n : Nat) : ∀ (p : Nat) (s t : List Nat), 1 ≤ p → p + n ≤ 25 →
    stream_agree s t → stream_agree (mix_loop1 n p s) (mix_loop1 n p t) := by
  induction n with
  | zero => intro p s t _ _ h; exact h
  | succ n ih =>
    intro p s t hp hn h
    simp only [mix_loop1]
    apply ih (p + 1) _ _ (by omega) (by omega)
    rw [h.2.2 p hp (by omega), h.2.2 (p + 31) (by omega) (by omega)]
    exact stream_agree_set s t p _ h

theorem mix_loop2_agree (n : Nat) : ∀ (p : Nat) (s t : List Nat), 25 ≤ p → p + n ≤ 56 →
    stream_agree s t → stream_agree (mix_loop2 n p s) (mix_loop2 n p t) := by
  induction n with
  | zero => intro p s t _ _ h; exact h
  | succ n ih =>
    intro p s t hp hn h
    simp only [mix_loop2]
    apply ih (p + 1) _ _ (by omega) (by omega)
    rw [h.2.2 p (by omega) (by omega), h.2.2 (p - 24) (by omega) (by omega)]
    exact stream_agree_set s t p _ h

theorem mix_stream_agree (c1 c2 : prsd_crypt_cxt) (h : stream_agree c1.stream c2.stream) :
    stream_agree (mix_stream c1).stream (mix_stream c2).stream := by
  simp only [mix_stream]
  exact mix_loop2_agree 31 25 _ _ (by omega) (by omega)
    (mix_loop1_agree 24 1 _ _ (by omega) (by omega) h)

theorem crypt_init_loop_agree (fuel : Nat) : ∀ (i key tmp : Nat) (s t M : List Nat),
    s.length = 56 → t.length = 56 → (∀ j ∈ M, s.getD j 0 = t.getD j 0) →
    (crypt_init_loop fuel i key tmp s).1 = (crypt_init_loop fuel i key tmp t).1 ∧
    (crypt_init_loop fuel i key tmp s).2.1 = (crypt_init_loop fuel i key tmp t).2.1 ∧
    (crypt_init_loop fuel i key tmp s).2.2.length = 56 ∧
    (crypt_init_loop fuel i key tmp t).2.2.length = 56 ∧
    ∀ j ∈ crypt_init_written fuel i ++ M,
      (crypt_init_loop fuel i key tmp s).2.2.getD j 0 =
        (crypt_init_loop fuel i key tmp t).2.2.getD j 0 := by
  induction fuel with
  | zero =>
    intro i key tmp s t M hs ht h
    simpa [crypt_init_loop, crypt_init_written, hs, ht] using h
  | succ fuel ih =>
    intro i key tmp s t M hs ht h
    simp only [crypt_init_loop, crypt_init_written]
    by_cases hi : i ≤ 0x46E
    · simp only [hi, if_true]
      have hidx : i % 55 < 56 := by omega
      have e1 : (s.set (i % 55) tmp).getD (i % 55) 0 = tmp := by rw [getD_set]; simp [hs, hidx]
      have e2 : (t.set (i % 55) tmp).getD (i % 55) 0 = tmp := by rw [getD_set]; simp [ht, hidx]
      rw [e1, e2]
      have := ih ((i + 0x15) % 2 ^ 32) tmp (sub32 key tmp) (s.set (i % 55) tmp)
        (t.set (i % 55) tmp) (i % 55 :: M) (by simp [hs]) (by simp [ht]) (by
          intro j hj
          rw [getD_set, getD_set, hs, ht]
          rcases List.mem_cons.1 hj with rfl | hj
          · simp [hidx]
          · rw [h j hj])
      refine ⟨this.1, this.2.1, this.2.2.1, this.2.2.2.1, ?_⟩
      intro j hj
      apply this.2.2.2.2 j
      simp only [List.mem_append, List.mem_cons, List.mem_singleton, List.not_mem_nil,
        or_false] at hj ⊢
      tauto
    · simp only [hi, if_false]
      simpa [hs, ht] using h

set_option maxRecDepth 100000 in
theorem crypt_init_written_all :
    ∀ j, j < 56 → 1 ≤ j → j ∈ crypt_init_written 0x46E 0x15 ++ [55] := by
  decide

theorem pso_prsd_crypt_init_pos (c : prsd_crypt_cxt) (key : Nat) :
    (pso_prsd_crypt_init c key).pos = 56 := rfl

theorem pso_prsd_crypt_init_stream (c : prsd_crypt_cxt) (key : Nat) :
    (pso_prsd_crypt_init c key).stream =
      (mix_stream (mix_stream (mix_stream (mix_stream
        { stream := (crypt_init_loop 0x46E 0x15 key 1 (c.stream.set 55 key)).2.2,
          key := key, pos := c.pos })))).stream := by
  simp only [pso_prsd_crypt_init]

theorem crypt_init_loop_stream_agree (s t : List Nat) (key : Nat)
    (h1 : s.length = 56) (h2 : t.length = 56) :
    stream_agree (crypt_init_loop 0x46E 0x15 key 1 (s.set 55 key)).2.2
      (crypt_init_loop 0x46E 0x15 key 1 (t.set 55 key)).2.2 := by
  have h := crypt_init_loop_agree 0x46E 0x15 key 1 (s.set 55 key)
    (t.set 55 key) [55] (by simp [h1]) (by simp [h2]) (by
      intro j hj
      rw [List.mem_singleton.1 hj, getD_set, getD_set, h1, h2]
      simp)
  generalize crypt_init_loop 0x46E 0x15 key 1 (s.set 55 key) = r1 at h ⊢
  generalize crypt_init_loop 0x46E 0x15 key 1 (t.set 55 key) = r2 at h ⊢
  have hall := crypt_init_written_all
  generalize crypt_init_written 0x46E 0x15 = w at h hall
  exact ⟨h.2.2.1, h.2.2.2.1, fun j hj1 hj2 => h.2.2.2.2 j (hall j hj2 hj1)⟩

theorem pso_prsd_crypt_init_agree (c1 c2 : prsd_crypt_cxt) (key : Nat)
    (h1 : c1.stream.length = 56) (h2 : c2.stream.length = 56) :
    cxt_agree (pso_prsd_crypt_init c1 key) (pso_prsd_crypt_init c2 key) := by
  refine ⟨by rw [pso_prsd_crypt_init_pos, pso_prsd_crypt_init_pos],
    by rw [pso_prsd_crypt_init_pos]; omega, by rw [pso_prsd_crypt_init_pos], ?_⟩
  rw [pso_prsd_crypt_init_stream, pso_prsd_crypt_init_stream]
  have h := crypt_init_loop_stream_agree c1.stream c2.stream key h1 h2
  generalize crypt_init_loop 0x46E 0x15 key 1 (c1.stream.set 55 key) = r1 at h ⊢
  generalize crypt_init_loop 0x46E 0x15 key 1 (c2.stream.set 55 key) = r2 at h ⊢
  apply mix_stream_agree
  apply mix_stream_agree
  apply mix_stream_agree
  apply mix_stream_agree
  exact h

theorem getD_replicate_zero (n i : Nat) : (List.replicate n 0).getD i 0 = 0 := by
  simp only [List.getD_eq_getElem?_getD, List.getElem?_replicate]
  split <;> rfl

theorem getD_ge (l : List Nat) (i : Nat) (h : l.length ≤ i) : l.getD i 0 = 0 :=
  List.getD_eq_default _ _ h

theorem length_write_at (m : List Nat) (off : Nat) (bs : List Nat) :
    (write_at m off bs).length = max m.length (off + bs.length) := by
  simp only [write_at, List.length_append, List.length_take, List.length_replicate,
    List.length_drop]
  omega

theorem getD_write_at (m : List Nat) (off : Nat) (bs : List Nat) (i : Nat) :
    (write_at m off bs).getD i 0 =
      if off ≤ i ∧ i < off + bs.length then bs.getD (i - off) 0 else m.getD i 0 := by
  unfold write_at
  rw [getD_append_if, getD_append_if, getD_append_if]
  simp only [List.length_append, List.length_take, List.length_replicate]
  have e : min off m.length + (off - m.length) = off := by omega
  rw [e]
  by_cases h1 : i < off
  · have c1 : i < off + bs.length := by omega
    have c2 : ¬ (off ≤ i ∧ i < off + bs.length) := by omega
    rw [if_pos c1, if_pos h1, if_neg c2]
    by_cases h2 : i < m.length
    · have c3 : i < min off m.length := by omega
      rw [if_pos c3, getD_take, if_pos h1]
    · have c3 : ¬ i < min off m.length := by omega
      rw [if_neg c3, getD_replicate_zero, getD_ge m i (by omega)]
  · by_cases h2 : i < off + bs.length
    · have c2 : off ≤ i ∧ i < off + bs.length := ⟨by omega, h2⟩
      rw [if_pos h2, if_neg h1, if_pos c2]
    · have c2 : ¬ (off ≤ i ∧ i < off + bs.length) := by omega
      rw [if_neg h2, if_neg c2, getD_drop]
      congr 1
      omega

theorem length_bytes_at (m : List Nat) (off n : Nat) : (bytes_at m off n).length = n := by
  simp [bytes_at]

theorem getD_bytes_at (m : List Nat) (off n i : Nat) :
    (bytes_at m off n).getD i 0 = if i < n then m.getD (off + i) 0 else 0 := by
  unfold bytes_at
  by_cases h : i < n
  · rw [if_pos h, List.getD_eq_getElem _ _ (by simpa using h)]
    simp
  · rw [if_neg h, getD_ge _ _ (by simpa using Nat.le_of_not_lt h)]

theorem bytes_at_eq (m l : List Nat) (off : Nat)
    (h : ∀ i, i < l.length → m.getD (off + i) 0 = l.getD i 0) : bytes_at m off l.length = l := by
  apply ext_getD
  · rw [length_bytes_at]
  · intro i hi
    rw [length_bytes_at] at hi
    rw [getD_bytes_at, if_pos hi, h i hi]

theorem getD_malloc_lt (junk : List Nat) (n j : Nat) : (malloc junk n).getD j 0 < 256 := by
  apply getD_lt_of_forall
  intro b hb
  simp only [malloc, List.mem_map, List.mem_range] at hb
  obtain ⟨i, _, rfl⟩ := hb
  exact Nat.mod_lt _ (by norm_num)

theorem crypt_dword_eq (c : prsd_crypt_cxt) (x : Nat) :
    crypt_dword c x = ((crypt_next c).1, (x ^^^ (crypt_next c).2) % 2 ^ 32) := rfl

theorem keystream_byte_succ (c : prsd_crypt_cxt) (j : Nat) (hj : 4 ≤ j) :
    keystream_byte c j = keystream_byte (crypt_next c).1 (j - 4) := by
  unfold keystream_byte
  have e1 : j / 4 = (j - 4) / 4 + 1 := by omega
  have e2 : j % 4 = (j - 4) % 4 := by omega
  rw [e1, e2, keystream_word]

theorem crypt_loop_getD (fuel : Nat) : ∀ (c : prsd_crypt_cxt) (d : List Nat) (n : Nat),
    n ≤ fuel → (∀ j, d.getD j 0 < 256) →
    (crypt_loop fuel c d (4 * n)).2.length = max d.length (4 * n) ∧
    ∀ j, (crypt_loop fuel c d (4 * n)).2.getD j 0 =
      if j < 4 * n then d.getD j 0 ^^^ keystream_byte c j else d.getD j 0 := by
  induction fuel with
  | zero =>
    intro c d n hn _
    have : n = 0 := by omega
    subst this
    simp [crypt_loop]
  | succ fuel ih =>
    intro c d n hn hd
    rcases Nat.eq_zero_or_pos n with h0 | hpos
    · subst h0
      simp [crypt_loop]
    · obtain ⟨m, rfl⟩ : ∃ m, n = m + 1 := ⟨n - 1, by omega⟩
      have hlen : 4 * (m + 1) > 0 := by omega
      have hsub : 4 * (m + 1) - 4 = 4 * m := by omega
      simp only [crypt_loop, hlen, if_true, hsub, crypt_dword_eq]
      have hd' : ∀ j, (d.drop 4).getD j 0 < 256 := by
        intro j
        rw [getD_drop]
        exact hd _
      obtain ⟨ihl, ihg⟩ := ih (crypt_next c).1 (d.drop 4) m (by omega) hd'
      rw [le32_bytes_xor _ _ _ _ _ (hd 0) (hd 1) (hd 2) (hd 3)]
      constructor
      · rw [List.length_append, ihl, List.length_drop]
        simp only [List.length_cons, List.length_nil]
        omega
      · intro j
        rw [getD_append_if]
        simp only [List.length_cons, List.length_nil]
        by_cases hj : j < 4
        · have hj2 : j < 4 * (m + 1) := by omega
          rw [if_pos (by omega), if_pos hj2]
          unfold keystream_byte
          interval_cases j <;> simp [keystream_word]
        · have hj4 : 4 ≤ j := by omega
          rw [if_neg (by omega), ihg, getD_drop]
          have e : 4 + (j - (0 + 1 + 1 + 1 + 1)) = j := by omega
          rw [e, keystream_byte_succ c j hj4]
          by_cases hj2 : j < 4 * (m + 1)
          · rw [if_pos (by omega), if_pos hj2]
          · rw [if_neg (by omega), if_neg hj2]

theorem crypt_next_agree (c1 c2 : prsd_crypt_cxt) (h : cxt_agree c1 c2) :
    cxt_agree (crypt_next c1).1 (crypt_next c2).1 ∧ (crypt_next c1).2 = (crypt_next c2).2 := by
  obtain ⟨hp, h1, h56, hs⟩ := h
  have hp2 : c2.pos = c1.pos := hp.symm
  unfold crypt_next
  by_cases h : c1.pos = 56
  · simp only [hp2, h, if_true]
    have hm := mix_stream_agree c1 c2 hs
    generalize mix_stream c1 = m1 at hm ⊢
    generalize mix_stream c2 = m2 at hm ⊢
    exact ⟨⟨rfl, by norm_num, by norm_num, hm⟩, hm.2.2 1 (by omega) (by omega)⟩
  · simp only [hp2, h, if_false]
    have hlt : c1.pos < 56 := by omega
    have e : (c1.pos + 1) % 2 ^ 32 = c1.pos + 1 := Nat.mod_eq_of_lt (by omega)
    exact ⟨⟨rfl, by simp only [e]; omega, by simp only [e]; omega, hs⟩, hs.2.2 c1.pos h1 hlt⟩

theorem keystream_word_agree (i : Nat) : ∀ (c1 c2 : prsd_crypt_cxt), cxt_agree c1 c2 →
    keystream_word c1 i = keystream_word c2 i := by
  induction i with
  | zero => intro c1 c2 h; exact (crypt_next_agree c1 c2 h).2
  | succ i ih => intro c1 c2 h; exact ih _ _ (crypt_next_agree c1 c2 h).1

theorem keystream_byte_agree (c1 c2 : prsd_crypt_cxt) (h : cxt_agree c1 c2) (j : Nat) :
    keystream_byte c1 j = keystream_byte c2 j := by
  unfold keystream_byte
  rw [keystream_word_agree _ c1 c2 h]

theorem keystream_byte_lt (c : prsd_crypt_cxt) (j : Nat) : keystream_byte c j < 256 :=
  Nat.mod_lt _ (by norm_num)

/-- The rounded length `(len + 3) & 0xFFFFFFFC` of `pso_prsd_crypt`, as a
number of words. -/
theorem crypt_round (len : Nat) :
    ((len % 2 ^ 32 + 3) % 2 ^ 32) &&& 0xFFFFFFFC = 4 * (((len % 2 ^ 32 + 3) % 2 ^ 32) / 4) := by
  rw [and_fffffffc _ (Nat.mod_lt _ (by norm_num)), Nat.mul_comm]

/-- Bytewise description of `pso_prsd_crypt`: with `n` the rounded length in
words, output byte `j < 4n` is input byte `j` XOR key byte `j`, later bytes
are unchanged. -/
theorem pso_prsd_crypt_getD (c : prsd_crypt_cxt) (d : List Nat) (len : Nat)
    (hd : ∀ j, d.getD j 0 < 256) :
    (pso_prsd_crypt c d len).2.length = max d.length (4 * (((len % 2 ^ 32 + 3) % 2 ^ 32) / 4)) ∧
    ∀ j, (pso_prsd_crypt c d len).2.getD j 0 =
      if j < 4 * (((len % 2 ^ 32 + 3) % 2 ^ 32) / 4) then d.getD j 0 ^^^ keystream_byte c j
      else d.getD j 0 := by
  unfold pso_prsd_crypt
  simp only [crypt_round]
  exact crypt_loop_getD _ c d _ (by omega) hd

theorem xor_xor_byte (a b : Nat) : a ^^^ b ^^^ b = a := Nat.xor_cancel_right b a

theorem pso_prsd_crypt_byte_lt (c : prsd_crypt_cxt) (d : List Nat) (len : Nat)
    (hd : ∀ j, d.getD j 0 < 256) (j : Nat) : (pso_prsd_crypt c d len).2.getD j 0 < 256 := by
  rw [(pso_prsd_crypt_getD c d len hd).2 j]
  split
  · have e : (256 : Nat) = 2 ^ 8 := by norm_num
    have h1 := hd j
    have h2 := keystream_byte_lt c j
    rw [e] at h1 h2 ⊢
    exact Nat.xor_lt_two_pow h1 h2
  · exact hd j

/-- Decrypting byte `j` of an encrypted buffer with an agreeing context gives
back byte `j` of the plain buffer, whatever the other bytes of the second
buffer are. -/
theorem pso_prsd_crypt_twice_getD (c1 c2 : prsd_crypt_cxt) (hc : cxt_agree c1 c2)
    (d e : List Nat) (len : Nat) (hd : ∀ j, d.getD j 0 < 256) (he : ∀ j, e.getD j 0 < 256)
    (j : Nat) (hj : j < 4 * (((len % 2 ^ 32 + 3) % 2 ^ 32) / 4))
    (hje : e.getD j 0 = (pso_prsd_crypt c1 d len).2.getD j 0) :
    (pso_prsd_crypt c2 e len).2.getD j 0 = d.getD j 0 := by
  rw [(pso_prsd_crypt_getD c2 e len he).2 j, if_pos hj, hje,
    (pso_prsd_crypt_getD c1 d len hd).2 j, if_pos hj, keystream_byte_agree c1 c2 hc j,
    xor_xor_byte]

/-! ## C1: the cipher is an involution -/

/-- C1. For every key and every buffer of whole 32-bit words (bytes below 256,
length a multiple of 4 and below 2^32): `pso_prsd_crypt_init(key)` then
`pso_prsd_crypt` over the buffer, then again `pso_prsd_crypt_init(key)` (on any
other context memory) and `pso_prsd_crypt` over the result with the same
length, gives back the original buffer. -/
theorem cipher_involution (c1 c2 : prsd_crypt_cxt) (key : Nat) (buf : List Nat)
    (hc1 : c1.stream.length = 56) (hc2 : c2.stream.length = 56)
    (hb : ∀ b ∈ buf, b < 256) (hw : buf.length % 4 = 0) (hl : buf.length < 2 ^ 32) :
    (pso_prsd_crypt (pso_prsd_crypt_init c2 key)
      (pso_prsd_crypt (pso_prsd_crypt_init c1 key) buf buf.length).2 buf.length).2 = buf := by
  have hc := pso_prsd_crypt_init_agree c1 c2 key hc1 hc2
  have hd := getD_lt_of_forall buf hb
  have hn : 4 * (((buf.length % 2 ^ 32 + 3) % 2 ^ 32) / 4) = buf.length := by omega
  have h1 := pso_prsd_crypt_getD (pso_prsd_crypt_init c1 key) buf buf.length hd
  have he := pso_prsd_crypt_byte_lt (pso_prsd_crypt_init c1 key) buf buf.length hd
  have h2 := pso_prsd_crypt_getD (pso_prsd_crypt_init c2 key) _ buf.length he
  have hlen1 : (pso_prsd_crypt (pso_prsd_crypt_init c1 key) buf buf.length).2.length
      = buf.length := by rw [h1.1, hn]; omega
  apply ext_getD
  · rw [h2.1, hlen1, hn]; omega
  · intro i hi
    rw [h2.1, hlen1, hn] at hi
    exact pso_prsd_crypt_twice_getD _ _ hc buf _ buf.length hd he i (by omega) rfl

/-- C1 at key `0x12345678` on the two words `01 02 03 04 05 06 07 08`. -/
theorem cipher_involution_witness :
    cxt0.stream.length = 56 ∧ (∀ b ∈ [1, 2, 3, 4, 5, 6, 7, 8], b < 256) ∧
    [1, 2, 3, 4, 5, 6, 7, 8].length % 4 = 0 ∧ [1, 2, 3, 4, 5, 6, 7, 8].length < 2 ^ 32 ∧
    (pso_prsd_crypt (pso_prsd_crypt_init cxt0 0x12345678)
      (pso_prsd_crypt (pso_prsd_crypt_init cxt0 0x12345678) [1, 2, 3, 4, 5, 6, 7, 8]
        [1, 2, 3, 4, 5, 6, 7, 8].length).2 [1, 2, 3, 4, 5, 6, 7, 8].length).2
      = [1, 2, 3, 4, 5, 6, 7, 8] :=
  ⟨by decide, by decide, by decide, by decide,
    cipher_involution cxt0 cxt0 0x12345678 [1, 2, 3, 4, 5, 6, 7, 8] (by decide) (by decide)
      (by decide) (by decide) (by decide)⟩

/-! ## C2: sealing then opening a payload -/

theorem le32_getD_le32_bytes (m : List Nat) (x : Nat)
    (h0 : m.getD 0 0 = (le32_bytes x).getD 0 0) (h1 : m.getD 1 0 = (le32_bytes x).getD 1 0)
    (h2 : m.getD 2 0 = (le32_bytes x).getD 2 0) (h3 : m.getD 3 0 = (le32_bytes x).getD 3 0) :
    le32 (m.getD 0 0) (m.getD 1 0) (m.getD 2 0) (m.getD 3 0) = x % 2 ^ 32 := by
  rw [h0, h1, h2, h3]
  exact le32_le32_bytes x

/-- Decrypting the payload part of a sealed buffer into a fresh block gives
back the compressed bytes, whatever the block held. -/
theorem decrypt_view (c1 c2 : prsd_crypt_cxt) (hc : cxt_agree c1 c2)
    (D src c junk : List Nat) (cap : Nat) (hD : ∀ j, D.getD j 0 < 256)
    (hDc : ∀ j, j < c.length → D.getD j 0 = c.getD j 0)
    (hsrc : ∀ j, src.getD (8 + j) 0 = (pso_prsd_crypt c1 D c.length).2.getD j 0) :
    bytes_at (pso_prsd_crypt c2 (memcpy (malloc junk cap) 0 src 8 c.length) c.length).2 0
      c.length = c := by
  have hE : ∀ j, (memcpy (malloc junk cap) 0 src 8 c.length).getD j 0 < 256 := by
    intro j
    rw [memcpy, getD_write_at]
    split
    · rw [getD_bytes_at]
      split
      · rw [hsrc]
        exact pso_prsd_crypt_byte_lt c1 D c.length hD _
      · norm_num
    · exact getD_malloc_lt _ _ _
  have hEj : ∀ j, j < c.length →
      (memcpy (malloc junk cap) 0 src 8 c.length).getD j 0 = src.getD (8 + j) 0 := by
    intro j hj
    rw [memcpy, getD_write_at, length_bytes_at, if_pos ⟨by omega, by omega⟩, getD_bytes_at,
      if_pos (by omega)]
    congr 1
  generalize memcpy (malloc junk cap) 0 src 8 c.length = E at hE hEj
  apply bytes_at_eq
  intro j hj
  rw [Nat.zero_add]
  by_cases h4 : j < 4 * (((c.length % 2 ^ 32 + 3) % 2 ^ 32) / 4)
  · rw [pso_prsd_crypt_twice_getD c1 c2 hc D E c.length hD hE j h4 (by rw [hEj j hj, hsrc]),
      hDc j hj]
  · rw [(pso_prsd_crypt_getD c2 E c.length hE).2 j, if_neg h4, hEj j hj, hsrc,
      (pso_prsd_crypt_getD c1 D c.length hD).2 j, if_neg h4, hDc j hj]

theorem toInt32_of_lt (n : Nat) (h : n < 2 ^ 31) : toInt32 (n % 2 ^ 32) = (n : Int) := by
  unfold toInt32
  have e : n % 2 ^ 32 % 2 ^ 32 = n := by omega
  rw [e, if_pos h]

theorem prsd_compress_size_le (n : Nat) :
    (((n : Int) + 3) % 2 ^ 32).toNat &&& 0xFFFFFFFC ≤ n + 3 := by
  have e : (((n : Int) + 3) % 2 ^ 32).toNat = (n + 3) % 2 ^ 32 := by
    have : ((n : Int) + 3) % 2 ^ 32 = (((n + 3) % 2 ^ 32 : Nat) : Int) := by push_cast; rfl
    rw [this, Int.toNat_ofNat]
  rw [e]
  exact Nat.le_trans Nat.and_le_left (Nat.mod_le _ _)

/-- Past its argument checks and a compressor result `rv >= 0`,
`pso_prsd_compress` stores past the end of the block it has allocated. -/
theorem pso_prsd_compress_overrun (prs : prs_lib) (cxt : prsd_crypt_cxt) (junk src : List Nat)
    (d0 : Option (List Nat)) (src_len key : Nat) (hlen : src_len ≠ 0)
    (hrv : 0 ≤ (prs.pso_prs_compress src src_len).1) :
    ∃ size e, size < e ∧
      pso_prsd_compress prs cxt junk (some src) (some d0) src_len key
        = heap_result.overrun size e := by
  obtain ⟨n, hn⟩ := Int.eq_ofNat_of_zero_le hrv
  have hneg : ¬ ((n : Int) < 0) := by omega
  have htn : ((n : Int)).toNat = n := Int.toNat_natCast _
  have hsz := prsd_compress_size_le n
  by_cases h0 : n = 0
  · subst h0
    have z1 : (((0 : Nat) : Int) + 3) % 2 ^ 32 = 3 := by decide
    have z2 : (3 : Int).toNat &&& 0xFFFFFFFC = 0 := by decide
    have z3 : ((0 % 2 ^ 32 + 3) % 2 ^ 32) &&& 0xFFFFFFFC = 0 := by decide
    refine ⟨0, 8, by omega, ?_⟩
    simp only [pso_prsd_compress, if_neg hlen, hn, hneg, if_false, htn, z1, z2, z3, ne_eq,
      not_true_eq_false, false_and, Nat.pos_of_ne_zero, Nat.lt_add_one, if_true]
    rfl
  · have c : n ≠ 0 ∧ (((n : Int) + 3) % 2 ^ 32).toNat &&& 0xFFFFFFFC < 8 + n :=
      ⟨h0, by omega⟩
    refine ⟨_, 8 + n, c.2, ?_⟩
    simp only [pso_prsd_compress, if_neg hlen, hn, hneg, if_false, htn, if_pos c]

/-- C2, the code on every input and at a failing input. For every plaintext
of non-zero length on which the compressor succeeds (`rv >= 0`),
`pso_prsd_compress` stores past the end of the block of `(rv + 3) & 0xFFFFFFFC`
bytes it has allocated, so it hands back no sealed buffer that
`pso_prsd_decompress_buf` could be applied to: when it returns a value, that
value is `PSOARCHIVE_EINVAL` for length 0 or the negative result of the
compressor. On the plaintext `0a 14 1e 28 32` the stand-in compressor returns
`rv = 6`, the block has 8 bytes and `memcpy(db2 + 8, db, 6)` stores up to
offset 14. -/
theorem prsd_compress_overruns_block (prs : prs_lib) (cxt : prsd_crypt_cxt)
    (junk src : List Nat) (d0 : Option (List Nat)) (src_len key : Nat) :
    (src_len ≠ 0 → 0 ≤ (prs.pso_prs_compress src src_len).1 →
      ∃ size e, size < e ∧
        pso_prsd_compress prs cxt junk (some src) (some d0) src_len key
          = heap_result.overrun size e) ∧
    (∀ v, pso_prsd_compress prs cxt junk (some src) (some d0) src_len key
        = heap_result.ret v →
      (src_len = 0 ∧ v = (PSOARCHIVE_EINVAL, d0)) ∨ v.1 < 0) ∧
    (toy_prs.pso_prs_compress [10, 20, 30, 40, 50] 5).1 = 6 ∧
    pso_prsd_compress toy_prs cxt0 [9, 9, 9] (some [10, 20, 30, 40, 50]) (some none) 5
      0xDEADBEEF = heap_result.overrun 8 14 := by
  refine ⟨pso_prsd_compress_overrun prs cxt junk src d0 src_len key, ?_, by decide, by decide⟩
  intro v hv
  by_cases hlen : src_len = 0
  · left
    refine ⟨hlen, ?_⟩
    simp only [pso_prsd_compress, if_pos hlen] at hv
    exact (heap_result.ret.inj hv).symm
  · right
    by_cases hrv : (prs.pso_prs_compress src src_len).1 < 0
    · simp only [pso_prsd_compress, if_neg hlen, if_pos hrv] at hv
      rw [← heap_result.ret.inj hv]
      exact hrv
    · obtain ⟨size, e, _, h⟩ :=
        pso_prsd_compress_overrun prs cxt junk src d0 src_len key hlen (by omega)
      rw [h] at hv
      cases hv

/-! ## C8: the declared length is checked after decompression -/

theorem length_read (fd : File) (n : Nat) :
    (read fd n).1.length = min n (fd.data.length - fd.pos) := by
  simp [read]

theorem getD_read (fd : File) (n i : Nat) :
    (read fd n).1.getD i 0 = if i < n then fd.data.getD (fd.pos + i) 0 else 0 := by
  simp only [read]
  rw [getD_take]
  split
  · rw [getD_drop]
  · rfl

theorem read_snd (fd : File) (n : Nat) :
    (read fd n).2 = { data := fd.data, pos := fd.pos + min n (fd.data.length - fd.pos) } := by
  simp [read]

/-! ## C10: Container A header validation -/

theorem afs_read_entries_error (k : Nat) : ∀ (fd : File) (len : Nat) (acc : List afs_file)
    (e : pso_error_t), afs_read_entries k fd len acc = .error e →
    e = PSOARCHIVE_EIO ∨ e = PSOARCHIVE_ERANGE := by
  induction k with
  | zero => intro fd len acc e h; simp [afs_read_entries] at h
  | succ k ih =>
    intro fd len acc e h
    simp only [afs_read_entries] at h
    split at h
    · left
      exact (Except.error.inj h).symm
    · split at h
      · right
        exact (Except.error.inj h).symm
      · exact ih _ _ _ _ h

/-- C10. `pso_afs_read_open_fd` on any stream: when fewer than 8 bytes can be
read, or bytes 0-3 are not `'A','F','S',0`, it returns `NULL` with
`PSOARCHIVE_NOARCHIVE`; when the magic matches and the little-endian count in
bytes 4-7 exceeds 65535 it returns `NULL` with `PSOARCHIVE_EFATAL`; a count of
exactly 65535 gets past the header checks: the call then succeeds or fails
only while reading the table (`PSOARCHIVE_EIO`, `PSOARCHIVE_ERANGE`). -/
theorem afs_header_validation (fd : File) (len flags : Nat) :
    (fd.data.length < fd.pos + 8 →
      pso_afs_read_open_fd fd len flags = .error PSOARCHIVE_NOARCHIVE) ∧
    (fd.data.getD fd.pos 0 ≠ 0x41 ∨ fd.data.getD (fd.pos + 1) 0 ≠ 0x46 ∨
        fd.data.getD (fd.pos + 2) 0 ≠ 0x53 ∨ fd.data.getD (fd.pos + 3) 0 ≠ 0x00 →
      pso_afs_read_open_fd fd len flags = .error PSOARCHIVE_NOARCHIVE) ∧
    (fd.pos + 8 ≤ fd.data.length →
      fd.data.getD fd.pos 0 = 0x41 → fd.data.getD (fd.pos + 1) 0 = 0x46 →
      fd.data.getD (fd.pos + 2) 0 = 0x53 → fd.data.getD (fd.pos + 3) 0 = 0x00 →
      (le32 (fd.data.getD (fd.pos + 4) 0) (fd.data.getD (fd.pos + 5) 0)
          (fd.data.getD (fd.pos + 6) 0) (fd.data.getD (fd.pos + 7) 0) > 65535 →
        pso_afs_read_open_fd fd len flags = .error PSOARCHIVE_EFATAL) ∧
      (le32 (fd.data.getD (fd.pos + 4) 0) (fd.data.getD (fd.pos + 5) 0)
          (fd.data.getD (fd.pos + 6) 0) (fd.data.getD (fd.pos + 7) 0) = 65535 →
        (∃ h, pso_afs_read_open_fd fd len flags = .ok h ∧ h.file_count = 65535) ∨
        pso_afs_read_open_fd fd len flags = .error PSOARCHIVE_EIO ∨
        pso_afs_read_open_fd fd len flags = .error PSOARCHIVE_ERANGE)) := by
  have g : ∀ i, i < 8 → (read fd 8).1.getD i 0 = fd.data.getD (fd.pos + i) 0 := by
    intro i hi
    rw [getD_read, if_pos hi]
  have g0 := g 0 (by omega)
  have g1 := g 1 (by omega)
  have g2 := g 2 (by omega)
  have g3 := g 3 (by omega)
  have g4 := g 4 (by omega)
  have g5 := g 5 (by omega)
  have g6 := g 6 (by omega)
  have g7 := g 7 (by omega)
  rw [Nat.add_zero] at g0
  refine ⟨?_, ?_, ?_⟩
  · intro hshort
    have hl : (read fd 8).1.length ≠ 8 := by rw [length_read]; omega
    simp only [pso_afs_read_open_fd, hl, ne_eq, not_false_eq_true, if_true]
  · intro hmagic
    simp only [pso_afs_read_open_fd, g0, g1, g2, g3]
    split <;> rfl
  · intro hlong m0 m1 m2 m3
    have hl : (read fd 8).1.length = 8 := by rw [length_read]; omega
    have hm : ¬ (fd.data.getD fd.pos 0 ≠ 0x41 ∨ fd.data.getD (fd.pos + 1) 0 ≠ 0x46 ∨
        fd.data.getD (fd.pos + 2) 0 ≠ 0x53 ∨ fd.data.getD (fd.pos + 3) 0 ≠ 0x00) := by
      rintro (h | h | h | h)
      · exact h m0
      · exact h m1
      · exact h m2
      · exact h m3
    constructor
    · intro hbig
      simp only [pso_afs_read_open_fd, hl, ne_eq, not_true_eq_false, if_false, g0, g1, g2, g3,
        g4, g5, g6, g7]
      rw [if_neg hm, if_pos hbig]
    · intro heq
      simp only [pso_afs_read_open_fd, hl, ne_eq, not_true_eq_false, if_false, g0, g1, g2, g3,
        g4, g5, g6, g7]
      rw [if_neg hm, heq, if_neg (by omega)]
      cases hr : afs_read_entries 65535 (read fd 8).2 len [] with
      | error e =>
        rcases afs_read_entries_error _ _ _ _ _ hr with rfl | rfl
        · right; left; rfl
        · right; right; rfl
      | ok v =>
        left
        exact ⟨_, rfl, rfl⟩

/-- C10 on four streams: three bytes only; the magic `AFT\0`; the count
65536; the count 65535 with no table behind it. -/
theorem afs_header_validation_witness :
    pso_afs_read_open_fd ⟨[0x41, 0x46, 0x53], 0⟩ 3 0 = .error PSOARCHIVE_NOARCHIVE ∧
    pso_afs_read_open_fd ⟨[0x41, 0x46, 0x54, 0, 1, 0, 0, 0], 0⟩ 8 0
      = .error PSOARCHIVE_NOARCHIVE ∧
    pso_afs_read_open_fd ⟨[0x41, 0x46, 0x53, 0, 0, 0, 1, 0], 0⟩ 8 0 = .error PSOARCHIVE_EFATAL ∧
    ((∃ h, pso_afs_read_open_fd ⟨[0x41, 0x46, 0x53, 0, 0xFF, 0xFF, 0, 0], 0⟩ 8 0 = .ok h ∧
        h.file_count = 65535) ∨
      pso_afs_read_open_fd ⟨[0x41, 0x46, 0x53, 0, 0xFF, 0xFF, 0, 0], 0⟩ 8 0
        = .error PSOARCHIVE_EIO ∨
      pso_afs_read_open_fd ⟨[0x41, 0x46, 0x53, 0, 0xFF, 0xFF, 0, 0], 0⟩ 8 0
        = .error PSOARCHIVE_ERANGE) :=
  ⟨(afs_header_validation ⟨[0x41, 0x46, 0x53], 0⟩ 3 0).1 (by decide),
    (afs_header_validation ⟨[0x41, 0x46, 0x54, 0, 1, 0, 0, 0], 0⟩ 8 0).2.1 (by decide),
    ((afs_header_validation ⟨[0x41, 0x46, 0x53, 0, 0, 0, 1, 0], 0⟩ 8 0).2.2 (by decide)
      (by decide) (by decide) (by decide) (by decide)).1 (by decide),
    ((afs_header_validation ⟨[0x41, 0x46, 0x53, 0, 0xFF, 0xFF, 0, 0], 0⟩ 8 0).2.2 (by decide)
      (by decide) (by decide) (by decide) (by decide)).2 (by decide)⟩

/-! ## C5: the Container A bound check wraps -/

/-- C5, the code at a failing input. On the 16-byte image whose single entry
has offset `0xFFFFFFF0` and size `0x20`, `pso_afs_read_open_fd` with `len = 16`
returns a handle holding that entry, although offset + size = 2^32 + 16
exceeds 16: the 32-bit sum it compares with `len` has wrapped to 16. -/
theorem afs_open_accepts_wrapped_entry :
    pso_afs_read_open_fd ⟨afs_wrap_image, 0⟩ 16 0
      = .ok { fd := ⟨afs_wrap_image, 16⟩, files := [⟨0xFFFFFFF0, 0x20⟩], file_count := 1,
              flags := 0 } ∧
    0xFFFFFFF0 + 0x20 > 16 := by
  constructor
  · rfl
  · decide

/-! ## C6: the first Container B entry is not bounds-checked like the others -/

/-- C6, the code at two failing inputs. With `PSO_GSL_LITTLE_ENDIAN` given, the
48-byte image whose only entry has block offset 0 and size 100 opens with
`len = 48`, the handle holding an entry of 100 bytes: the first entry is not
checked at all on this path. With no flag given, the 4096-byte image whose
only entry has big-endian block offset 1 and size 4000 opens with
`len = 4096`: the guess checks offset and size separately, and
2048 + 4000 exceeds 4096. -/
theorem gsl_open_accepts_first_entry_out_of_range :
    (∃ h, pso_gsl_read_open_fd ⟨gsl_first_unchecked_image, 0⟩ 48 PSO_GSL_LITTLE_ENDIAN = .ok h ∧
      h.file_count = 1 ∧ (h.files.map (fun f => (f.offset, f.size))) = [(0, 100)] ∧
      0 * 2048 + 100 > 48) ∧
    (∃ h, pso_gsl_read_open_fd ⟨gsl_guess_sum_image, 0⟩ 4096 0 = .ok h ∧
      h.file_count = 1 ∧ (h.files.map (fun f => (f.offset, f.size))) = [(2048, 4000)] ∧
      1 * 2048 + 4000 > 4096) :=
  ⟨⟨_, rfl, rfl, rfl, by decide⟩, ⟨_, rfl, rfl, rfl, by decide⟩⟩

/-! ## C7: the guessed little-endian order is not used for later entries -/

/-- C7, the code at a failing input. The 6144-byte image holds two entries
that are in range when read little-endian (blocks 1 and 2, one byte each), and
its first entry fails the bound check when read big-endian. With
`PSO_GSL_LITTLE_ENDIAN` given the open succeeds with both entries; with no
flag it fails with `PSOARCHIVE_ERANGE`: the guess leaves both flag bits set,
so the second entry is decoded big-endian. -/
theorem gsl_guess_differs_from_little_endian :
    ((gsl_decode_be (gsl_le_two_image.take 48)).1 > 6144) ∧
    (∃ h, pso_gsl_read_open_fd ⟨gsl_le_two_image, 0⟩ 6144 PSO_GSL_LITTLE_ENDIAN = .ok h ∧
      h.file_count = 2 ∧
      (h.files.map (fun f => (f.offset, f.size))) = [(2048, 1), (4096, 1)]) ∧
    pso_gsl_read_open_fd ⟨gsl_le_two_image, 0⟩ 6144 0 = .error PSOARCHIVE_ERANGE :=
  ⟨by decide, ⟨_, rfl, rfl, rfl⟩, rfl⟩

/-! ## C9: capacity after `pso_gsl_write_set_ftab_size(a, 300)` -/

theorem pso_gsl_write_add_full (a : pso_gsl_write) (fn data : List Nat) (len : Nat)
    (h : (a.ftab_used : Int) = a.ftab_entries - 1) :
    pso_gsl_write_add (some a) fn data len = (PSOARCHIVE_EFATAL, some a) := by
  simp only [pso_gsl_write_add, h, if_true]

theorem pso_gsl_write_add_ok (a : pso_gsl_write) (fn data : List Nat) (len : Nat)
    (h : (a.ftab_used : Int) ≠ a.ftab_entries - 1) :
    ∃ a1, pso_gsl_write_add (some a) fn data len = (PSOARCHIVE_OK, some a1) ∧
      a1.ftab_used = a.ftab_used + 1 ∧ a1.ftab_entries = a.ftab_entries ∧
      a1.flags = a.flags := by
  simp only [pso_gsl_write_add, h, if_false]
  exact ⟨_, rfl, rfl, rfl, rfl⟩

/-- Result codes of successive appends on a handle of capacity `cap` with
`used` entries: `PSOARCHIVE_OK` until `cap - 1` entries are used, then
`PSOARCHIVE_EFATAL`. -/
theorem gsl_write_all_codes (blobs : List (List Nat × List Nat)) :
    ∀ (a : pso_gsl_write) (cap : Nat), a.ftab_entries = (cap : Int) → a.ftab_used + 1 ≤ cap →
    ∀ i, i < blobs.length →
      (gsl_write_all (some a) blobs).1.getD i 0 =
        if a.ftab_used + i + 1 < cap then PSOARCHIVE_OK else PSOARCHIVE_EFATAL := by
  induction blobs with
  | nil => intro a cap _ _ i hi; simp at hi
  | cons nb rest ih =>
    intro a cap hcap hused i hi
    simp only [gsl_write_all]
    by_cases hfull : (a.ftab_used : Int) = a.ftab_entries - 1
    · rw [pso_gsl_write_add_full a _ _ _ hfull]
      have hu : a.ftab_used + 1 = cap := by rw [hcap] at hfull; omega
      cases i with
      | zero =>
        rw [List.getD_cons_zero, if_neg (by omega)]
      | succ i =>
        rw [List.getD_cons_succ, ih a cap hcap hused i (by simpa using hi), if_neg (by omega),
          if_neg (by omega)]
    · obtain ⟨a1, hadd, hu1, hc1, _⟩ := pso_gsl_write_add_ok a nb.1 nb.2 nb.2.length hfull
      rw [hadd]
      have hlt : a.ftab_used + 1 < cap := by rw [hcap] at hfull; omega
      cases i with
      | zero =>
        rw [List.getD_cons_zero, if_pos (by omega)]
      | succ i =>
        rw [List.getD_cons_succ, ih a1 cap (by rw [hc1, hcap]) (by omega) i (by simpa using hi),
          hu1]
        have e : a.ftab_used + 1 + i + 1 = a.ftab_used + (i + 1) + 1 := by omega
        rw [e]

theorem pso_gsl_new_fd_ok (fd : File) (flags : Nat) (a : pso_gsl_write)
    (h : pso_gsl_new_fd fd flags = .ok a) :
    a = { fd := fd, ftab_entries := 256, ftab_used := 0, ftab_pos := 0, data_pos := 256 * 48,
          flags := flags } := by
  unfold pso_gsl_new_fd at h
  split at h
  · cases h
  · exact (Except.ok.inj h).symm

theorem pso_gsl_write_set_ftab_size_300 (a : pso_gsl_write) (h : a.ftab_used = 0) :
    pso_gsl_write_set_ftab_size (some a) 300
      = (PSOARCHIVE_OK, some { a with ftab_entries := 341, data_pos := 16384 }) := by
  have e1 : ¬ ((300 : Nat) < 256) := by decide
  have e2 : (300 * 48) % 2 ^ 32 &&& 0x7FF ≠ 0 := by decide
  have e3 : toInt32 (16384 / 48) = 341 := by decide
  have e4 : ((300 * 48) % 2 ^ 32 + 0x800) &&& 0xFFFFF800 = 16384 := by decide
  simp only [pso_gsl_write_set_ftab_size, h, ne_eq, not_true_eq_false, if_false, e1, e2,
    not_false_eq_true, if_true, e4, e3]

/-- C9 as amended. On a freshly created Container B write handle,
`pso_gsl_write_set_ftab_size(a, 300)` returns `PSOARCHIVE_OK` and leaves a
capacity of 341 entries (the data start 300*48 is rounded up to 16384);
of the following calls to `pso_gsl_write_add`, the first 340 return
`PSOARCHIVE_OK` and the 341st and every later one `PSOARCHIVE_EFATAL`. -/
theorem gsl_capacity_after_300 (fd : File) (flags : Nat) (a : pso_gsl_write)
    (blobs : List (List Nat × List Nat)) (h : pso_gsl_new_fd fd flags = .ok a) :
    (pso_gsl_write_set_ftab_size (some a) 300).1 = PSOARCHIVE_OK ∧
    (∃ a1, (pso_gsl_write_set_ftab_size (some a) 300).2 = some a1 ∧ a1.ftab_entries = 341) ∧
    ∀ i, i < blobs.length →
      (gsl_write_all (pso_gsl_write_set_ftab_size (some a) 300).2 blobs).1.getD i 0 =
        if i < 340 then PSOARCHIVE_OK else PSOARCHIVE_EFATAL := by
  have ha := pso_gsl_new_fd_ok fd flags a h
  have hu : a.ftab_used = 0 := by rw [ha]
  rw [pso_gsl_write_set_ftab_size_300 a hu]
  refine ⟨rfl, ⟨_, rfl, rfl⟩, ?_⟩
  intro i hi
  rw [gsl_write_all_codes blobs _ 341 rfl (by simp only [hu]; omega) i hi]
  simp only [hu]
  by_cases h340 : i < 340
  · rw [if_pos (by omega), if_pos h340]
  · rw [if_neg (by omega), if_neg h340]

/-- C9 as amended, on an empty file with `PSO_GSL_BIG_ENDIAN` and 342 appends
of a one-byte blob named `a`. -/
theorem gsl_capacity_after_300_witness :
    pso_gsl_new_fd ⟨[], 0⟩ PSO_GSL_BIG_ENDIAN = .ok gsl_fresh_be ∧
    ∀ i, i < (List.replicate 342 ([97], [1])).length →
      (gsl_write_all (pso_gsl_write_set_ftab_size (some gsl_fresh_be) 300).2
        (List.replicate 342 ([97], [1]))).1.getD i 0 =
        if i < 340 then PSOARCHIVE_OK else PSOARCHIVE_EFATAL :=
  ⟨rfl, (gsl_capacity_after_300 ⟨[], 0⟩ PSO_GSL_BIG_ENDIAN gsl_fresh_be
    (List.replicate 342 ([97], [1])) rfl).2.2⟩

/-- C9 as stated fails: after `pso_gsl_write_set_ftab_size(a, 300)` on a fresh
handle, the 301st call to `pso_gsl_write_add` returns `PSOARCHIVE_OK`, not
`PSOARCHIVE_EFATAL`. -/
theorem gsl_301st_add_succeeds :
    pso_gsl_new_fd ⟨[], 0⟩ PSO_GSL_BIG_ENDIAN = .ok gsl_fresh_be ∧
    (gsl_write_all (pso_gsl_write_set_ftab_size (some gsl_fresh_be) 300).2
      (List.replicate 301 ([97], [1]))).1.getD 300 0 = PSOARCHIVE_OK ∧
    PSOARCHIVE_OK ≠ PSOARCHIVE_EFATAL := by
  refine ⟨rfl, ?_, by decide⟩
  rw [pso_gsl_write_set_ftab_size_300 _ rfl,
    gsl_write_all_codes _ _ 341 rfl (by decide) 300 (by rw [List.length_replicate]; omega)]
  rfl

/-! ## Layout lemmas -/

theorem and_pad_mask (x : Nat) (h : x < 2 ^ 64) : x &&& (2 ^ 64 - 2048) = x / 2048 * 2048 := by
  apply Nat.eq_of_testBit_eq
  intro i
  have e1 : (2 ^ 64 - 2048 : Nat) = 2 ^ 11 * (2 ^ 53 - 1) := by norm_num
  have e2 : x / 2048 * 2048 = 2 ^ 11 * (x / 2 ^ 11) := by norm_num [Nat.mul_comm]
  rw [Nat.testBit_and, e1, e2, Nat.testBit_mul_pow_two, Nat.testBit_mul_pow_two,
    Nat.testBit_two_pow_sub_one, ← Nat.shiftRight_eq_div_pow, Nat.testBit_shiftRight]
  by_cases h2 : 11 ≤ i
  · have e3 : 11 + (i - 11) = i := by omega
    rw [e3]
    by_cases h3 : i < 64
    · have : i - 11 < 53 := by omega
      simp [h2, this]
    · have hx : x.testBit i = false :=
        Nat.testBit_lt_two_pow (Nat.lt_of_lt_of_le h (Nat.pow_le_pow_right (by norm_num) (by omega)))
      simp [hx]
  · simp [h2]

theorem next_data_pos_gt (dp len : Nat) : dp + len < next_data_pos dp len := by
  unfold next_data_pos
  omega

theorem next_data_pos_mod (dp len : Nat) : next_data_pos dp len % 2048 = 0 := by
  unfold next_data_pos
  omega

theorem padded_end_ge (lens : List Nat) : ∀ dp, dp ≤ padded_end dp lens := by
  induction lens with
  | nil => intro dp; exact Nat.le_refl _
  | cons len rest ih =>
    intro dp
    have h1 := next_data_pos_gt dp len
    have h2 := ih (next_data_pos dp len)
    simp only [padded_end]
    omega

theorem padded_off_ge (lens : List Nat) : ∀ dp i, dp ≤ padded_off dp lens i := by
  induction lens with
  | nil => intro dp i; cases i <;> simp [padded_off]
  | cons len rest ih =>
    intro dp i
    cases i with
    | zero => simp [padded_off]
    | succ i =>
      have h1 := next_data_pos_gt dp len
      have h2 := ih (next_data_pos dp len) i
      simp only [padded_off]
      omega

theorem padded_off_lt_end (lens : List Nat) : ∀ dp i, i < lens.length →
    padded_off dp lens i + lens.getD i 0 < padded_end dp lens := by
  induction lens with
  | nil => intro dp i hi; simp at hi
  | cons len rest ih =>
    intro dp i hi
    cases i with
    | zero =>
      have h1 := next_data_pos_gt dp len
      have h2 := padded_end_ge rest (next_data_pos dp len)
      simp only [padded_off, padded_end, List.getD_cons_zero]
      omega
    | succ i =>
      simp only [padded_off, padded_end, List.getD_cons_succ]
      exact ih _ i (by simpa using hi)

theorem padded_off_mod (lens : List Nat) : ∀ dp i, dp % 2048 = 0 →
    padded_off dp lens i % 2048 = 0 := by
  induction lens with
  | nil => intro dp i h; cases i <;> simpa [padded_off] using h
  | cons len rest ih =>
    intro dp i h
    cases i with
    | zero => simpa [padded_off] using h
    | succ i =>
      simp only [padded_off]
      exact ih _ i (next_data_pos_mod dp len)

theorem length_add_data (D : List Nat) (tp : Nat) (entry : List Nat) (dp : Nat) (blob : List Nat)
    (h : tp + entry.length ≤ dp) :
    (add_data D tp entry dp blob).length = max D.length (next_data_pos dp blob.length) := by
  have hn := next_data_pos_gt dp blob.length
  simp only [add_data, length_write_at, List.length_cons, List.length_nil]
  omega

theorem getD_add_data (D : List Nat) (tp : Nat) (entry : List Nat) (dp : Nat) (blob : List Nat)
    (h : tp + entry.length ≤ dp) (j : Nat) :
    (add_data D tp entry dp blob).getD j 0 =
      if tp ≤ j ∧ j < tp + entry.length then entry.getD (j - tp) 0
      else if dp ≤ j ∧ j < dp + blob.length then blob.getD (j - dp) 0
      else if j = next_data_pos dp blob.length - 1 then 0
      else D.getD j 0 := by
  have hn := next_data_pos_gt dp blob.length
  simp only [add_data, getD_write_at, List.length_cons, List.length_nil]
  split_ifs with c1 c2 c3 c4 c5 c6 c7 <;> first
    | (exfalso; omega)
    | (have e : j - (next_data_pos dp blob.length - 1) = 0 := by omega
       rw [e, List.getD_cons_zero])
    | rfl

/-- The contents of a file after a sequence of appends, given that the table
region `[tp, tp + E * n)` lies below the data cursor `dp`: the length, the
bytes left alone, the table entries and the blobs. -/
theorem layout_spec (E : Nat) (items : List ((Nat → List Nat) × List Nat)) :
    ∀ (D : List Nat) (tp dp : Nat),
    (∀ x ∈ items, ∀ d, (x.1 d).length = E) → tp + E * items.length ≤ dp →
    ((layout_data E D tp dp items).length =
      if items.length = 0 then D.length
      else max D.length (padded_end dp (items.map (fun x => x.2.length)))) ∧
    (∀ j, (j < tp ∨ (tp + E * items.length ≤ j ∧ j < dp)) →
      (layout_data E D tp dp items).getD j 0 = D.getD j 0) ∧
    (∀ i x, items.get? i = some x → ∀ k, k < E →
      (layout_data E D tp dp items).getD (tp + E * i + k) 0 =
        (x.1 (padded_off dp (items.map (fun x => x.2.length)) i)).getD k 0) ∧
    (∀ i x, items.get? i = some x → ∀ k, k < x.2.length →
      (layout_data E D tp dp items).getD
        (padded_off dp (items.map (fun x => x.2.length)) i + k) 0 = x.2.getD k 0) := by
  induction items with
  | nil =>
    intro D tp dp _ _
    refine ⟨by simp [layout_data], fun j _ => rfl, ?_, ?_⟩
    · intro i x hx; simp at hx
    · intro i x hx; simp at hx
  | cons x xs ih =>
    intro D tp dp hE htp
    have hEx : (x.1 dp).length = E := hE x (List.mem_cons_self _ _) dp
    have hmul : E * (x :: xs).length = E * xs.length + E := by
      rw [List.length_cons, Nat.mul_succ]
    rw [hmul] at htp
    have hgt := next_data_pos_gt dp x.2.length
    obtain ⟨ihl, ihf, ihe, ihd⟩ := ih (add_data D tp (x.1 dp) dp x.2) (tp + E)
      (next_data_pos dp x.2.length) (fun y hy => hE y (List.mem_cons_of_mem _ hy)) (by omega)
    have hg := getD_add_data D tp (x.1 dp) dp x.2 (by omega)
    have hl := length_add_data D tp (x.1 dp) dp x.2 (by omega)
    rw [hEx] at hg
    simp only [layout_data, List.map_cons, padded_end]
    refine ⟨?_, ?_, ?_, ?_⟩
    · rw [ihl, hl]
      have hge := padded_end_ge (xs.map (fun x => x.2.length)) (next_data_pos dp x.2.length)
      have hne : ¬ ((x :: xs).length = 0) := by simp
      rw [if_neg hne]
      by_cases hxs : xs.length = 0
      · rw [if_pos hxs]
        have hnil : xs = [] := List.length_eq_zero.1 hxs
        subst hnil
        simp only [List.map_nil, padded_end]
      · rw [if_neg hxs]
        omega
    · intro j hj
      rw [hmul] at hj
      rw [ihf j (by omega), hg j, if_neg (by omega), if_neg (by omega), if_neg (by omega)]
    · intro i y hy k hk
      cases i with
      | zero =>
        have hxy : x = y := by simpa using hy
        subst hxy
        rw [Nat.mul_zero, Nat.add_zero, ihf (tp + k) (Or.inl (by omega)), hg (tp + k),
          if_pos ⟨by omega, by omega⟩]
        simp only [padded_off]
        congr 1
        omega
      | succ i =>
        have hy2 : xs.get? i = some y := by simpa using hy
        have e : tp + E * (i + 1) + k = tp + E + E * i + k := by rw [Nat.mul_succ]; omega
        rw [e, ihe i y hy2 k hk]
        simp only [padded_off]
    · intro i y hy k hk
      cases i with
      | zero =>
        have hxy : x = y := by simpa using hy
        subst hxy
        simp only [padded_off]
        rw [ihf (dp + k) (Or.inr ⟨by omega, by omega⟩), hg (dp + k), if_neg (by omega),
          if_pos ⟨by omega, by omega⟩]
        congr 1
        omega
      | succ i =>
        have hy2 : xs.get? i = some y := by simpa using hy
        simp only [padded_off]
        exact ihd i y hy2 k hk

/-! ## The writers in terms of the layout -/

theorem bytes_at_self (b : List Nat) : bytes_at b 0 b.length = b :=
  bytes_at_eq b b 0 (fun i _ => by rw [Nat.zero_add])

theorem pad_file_2048 (fd : File) (h : fd.pos < 2 ^ 64) :
    pad_file fd 2048 = (fd.pos / 2048 * 2048 + 2048,
      { data := write_at fd.data (fd.pos / 2048 * 2048 + 2048 - 1) [0],
        pos := fd.pos / 2048 * 2048 + 2048 }) := by
  have e : ¬ ((2048 : Nat) = 0) := by decide
  simp only [pad_file, e, if_false, and_pad_mask fd.pos h, lseek, write, List.length_cons,
    List.length_nil]
  have e2 : fd.pos / 2048 * 2048 + 2048 - 1 + (0 + 1) = fd.pos / 2048 * 2048 + 2048 := by omega
  rw [e2]

theorem pso_afs_write_add_eq (a : pso_afs_write) (fn b : List Nat)
    (h : a.data_pos + b.length < 2 ^ 64) :
    pso_afs_write_add (some a) fn b b.length = (PSOARCHIVE_OK, some
      { fd := ⟨add_data a.fd.data a.ftab_pos ((afs_item b).1 a.data_pos) a.data_pos b,
               next_data_pos a.data_pos b.length⟩,
        ftab_used := a.ftab_used + 1, flags := a.flags, ftab_pos := a.ftab_pos + 8,
        data_pos := next_data_pos a.data_pos b.length }) := by
  simp only [pso_afs_write_add, bytes_at_self, lseek, write]
  rw [pad_file_2048 _ h]
  rfl

theorem afs_write_all_spec (blobs : List (List Nat)) : ∀ (a : pso_afs_write),
    padded_end a.data_pos (blobs.map List.length) < 2 ^ 64 →
    ∃ a1, afs_write_all (some a) blobs = (List.replicate blobs.length PSOARCHIVE_OK, some a1) ∧
      a1.fd.data = layout_data 8 a.fd.data a.ftab_pos a.data_pos (blobs.map afs_item) ∧
      a1.ftab_used = a.ftab_used + blobs.length ∧
      a1.ftab_pos = a.ftab_pos + 8 * blobs.length ∧
      a1.data_pos = padded_end a.data_pos (blobs.map List.length) ∧ a1.flags = a.flags := by
  induction blobs with
  | nil => intro a _; exact ⟨a, rfl, rfl, rfl, rfl, rfl, rfl⟩
  | cons b rest ih =>
    intro a h
    simp only [List.map_cons, padded_end] at h
    have h1 := next_data_pos_gt a.data_pos b.length
    have h2 := padded_end_ge (rest.map List.length) (next_data_pos a.data_pos b.length)
    obtain ⟨a1, e1, e2, e3, e4, e5, e6⟩ := ih
      { fd := ⟨add_data a.fd.data a.ftab_pos ((afs_item b).1 a.data_pos) a.data_pos b,
               next_data_pos a.data_pos b.length⟩,
        ftab_used := a.ftab_used + 1, flags := a.flags, ftab_pos := a.ftab_pos + 8,
        data_pos := next_data_pos a.data_pos b.length } h
    refine ⟨a1, ?_, ?_, ?_, ?_, ?_, ?_⟩
    · simp only [afs_write_all]
      rw [pso_afs_write_add_eq a [] b (by omega), e1]
      rfl
    · rw [e2]
      rfl
    · rw [e3, List.length_cons]
      simp only
      omega
    · rw [e4, List.length_cons]
      simp only
      omega
    · rw [e5]
      rfl
    · rw [e6]

/-! ## The Container A reader on a well-formed table -/

theorem read_full (fd : File) (n : Nat) (h : fd.pos + n ≤ fd.data.length) :
    (read fd n).1.length = n ∧ (read fd n).2 = ⟨fd.data, fd.pos + n⟩ ∧
    ∀ i, i < n → (read fd n).1.getD i 0 = fd.data.getD (fd.pos + i) 0 := by
  refine ⟨by rw [length_read]; omega, ?_, ?_⟩
  · rw [read_snd]
    have e : min n (fd.data.length - fd.pos) = n := by omega
    rw [e]
  · intro i hi
    rw [getD_read, if_pos hi]

theorem map_range_succ {β : Type} (f : Nat → β) (k : Nat) :
    (List.range (k + 1)).map f = f 0 :: (List.range k).map (fun i => f (i + 1)) := by
  rw [List.range_succ_eq_map, List.map_cons, List.map_map]
  rfl

theorem afs_read_entries_ok (k : Nat) : ∀ (fd : File) (len : Nat) (acc : List afs_file),
    fd.pos + 8 * k ≤ fd.data.length →
    (∀ i, i < k → ((afs_entry_at fd.data (fd.pos + 8 * i)).offset +
      (afs_entry_at fd.data (fd.pos + 8 * i)).size) % 2 ^ 32 ≤ len) →
    afs_read_entries k fd len acc =
      .ok (acc ++ (List.range k).map (fun i => afs_entry_at fd.data (fd.pos + 8 * i)),
        ⟨fd.data, fd.pos + 8 * k⟩) := by
  induction k with
  | zero =>
    intro fd len acc _ _
    simp [afs_read_entries]
  | succ k ih =>
    intro fd len acc hlen hb
    obtain ⟨r1, r2, r3⟩ := read_full fd 8 (by omega)
    have g0 := r3 0 (by omega)
    have g1 := r3 1 (by omega)
    have g2 := r3 2 (by omega)
    have g3 := r3 3 (by omega)
    have g4 := r3 4 (by omega)
    have g5 := r3 5 (by omega)
    have g6 := r3 6 (by omega)
    have g7 := r3 7 (by omega)
    have hb0 := hb 0 (by omega)
    simp only [Nat.mul_zero, Nat.add_zero, afs_entry_at] at hb0 g0
    have hr : ¬ ((le32 (fd.data.getD fd.pos 0) (fd.data.getD (fd.pos + 1) 0)
        (fd.data.getD (fd.pos + 2) 0) (fd.data.getD (fd.pos + 3) 0) +
        le32 (fd.data.getD (fd.pos + 4) 0) (fd.data.getD (fd.pos + 5) 0)
        (fd.data.getD (fd.pos + 6) 0) (fd.data.getD (fd.pos + 7) 0)) % 2 ^ 32 > len) := by
      omega
    simp only [afs_read_entries, r1, ne_eq, not_true_eq_false, if_false, g0, g1, g2, g3, g4,
      g5, g6, g7, hr, r2]
    rw [ih ⟨fd.data, fd.pos + 8⟩ len _ (by simp only; omega) (by
      intro i hi
      have := hb (i + 1) (by omega)
      have e : fd.pos + 8 * (i + 1) = fd.pos + 8 + 8 * i := by omega
      rw [e] at this
      exact this)]
    have e1 : fd.pos + 8 + 8 * k = fd.pos + 8 * (k + 1) := by omega
    have hfun : (fun i => afs_entry_at fd.data (fd.pos + 8 + 8 * i)) =
        (fun i => afs_entry_at fd.data (fd.pos + 8 * (i + 1))) := by
      funext i
      congr 1
      omega
    rw [map_range_succ, ← hfun, List.append_assoc, e1]
    rfl

theorem take_drop_eq (D b : List Nat) (off : Nat) (hlen : off + b.length ≤ D.length)
    (h : ∀ k, k < b.length → D.getD (off + k) 0 = b.getD k 0) :
    (D.drop off).take b.length = b := by
  apply ext_getD
  · rw [List.length_take, List.length_drop]
    omega
  · intro i hi
    rw [List.length_take, List.length_drop] at hi
    rw [getD_take, if_pos (by omega), getD_drop, h i (by omega)]

theorem take_drop_eq_len (D b : List Nat) (off n : Nat) (hn : b.length = n)
    (hlen : off + n ≤ D.length) (h : ∀ k, k < n → D.getD (off + k) 0 = b.getD k 0) :
    (D.drop off).take n = b := by
  subst hn
  exact take_drop_eq D b off hlen h

theorem write_at_full (buf b : List Nat) (h : buf.length = b.length) : write_at buf 0 b = b := by
  apply ext_getD
  · rw [length_write_at]
    omega
  · intro i hi
    rw [length_write_at] at hi
    rw [getD_write_at, if_pos ⟨by omega, by omega⟩, Nat.sub_zero]

theorem afs_entry_at_written (D : List Nat) (p x y : Nat) (hx : x < 2 ^ 32) (hy : y < 2 ^ 32)
    (h : ∀ k, k < 8 → D.getD (p + k) 0 = (le32_bytes x ++ le32_bytes y).getD k 0) :
    afs_entry_at D p = ⟨x, y⟩ := by
  have h0 := h 0 (by omega)
  have h1 := h 1 (by omega)
  have h2 := h 2 (by omega)
  have h3 := h 3 (by omega)
  have h4 := h 4 (by omega)
  have h5 := h 5 (by omega)
  have h6 := h 6 (by omega)
  have h7 := h 7 (by omega)
  simp only [Nat.add_zero, le32_bytes, List.cons_append, List.nil_append, List.getD_cons_zero,
    List.getD_cons_succ] at h0 h1 h2 h3 h4 h5 h6 h7
  simp only [afs_entry_at, h0, h1, h2, h3, h4, h5, h6, h7, le32_le32_bytes,
    Nat.mod_eq_of_lt hx, Nat.mod_eq_of_lt hy]

/-! ## C3: Container A round trip -/

theorem afs_item_lens (blobs : List (List Nat)) :
    (blobs.map afs_item).map (fun x => x.2.length) = blobs.map List.length := by
  rw [List.map_map]
  rfl

theorem getD_map_length (blobs : List (List Nat)) (i : Nat) (b : List Nat)
    (h : blobs.get? i = some b) : (blobs.map List.length).getD i 0 = b.length := by
  rw [List.getD_eq_getElem?_getD, List.getElem?_map, ← List.get?_eq_getElem?, h]
  rfl

theorem get?_lt {β : Type} (l : List β) (i : Nat) (b : β) (h : l.get? i = some b) :
    i < l.length := by
  by_contra hc
  rw [List.get?_eq_none.2 (Nat.le_of_not_lt hc)] at h
  cases h

/-- The image the Container A writer produces: its length, its header, its
table entries and its blobs. -/
theorem afs_image_spec (blobs : List (List Nat)) (hn1 : 1 ≤ blobs.length)
    (hn2 : blobs.length ≤ 65535) (htot : padded_end 0x80000 (blobs.map List.length) < 2 ^ 32) :
    (afs_image blobs).length = padded_end 0x80000 (blobs.map List.length) ∧
    (∀ k, k < 8 → (afs_image blobs).getD k 0 =
      ([0x41, 0x46, 0x53, 0x00] ++ le32_bytes blobs.length).getD k 0) ∧
    (∀ i b, blobs.get? i = some b →
      afs_entry_at (afs_image blobs) (8 + 8 * i) =
        ⟨padded_off 0x80000 (blobs.map List.length) i, b.length⟩ ∧
      padded_off 0x80000 (blobs.map List.length) i + b.length <
        padded_end 0x80000 (blobs.map List.length) ∧
      ((afs_image blobs).drop (padded_off 0x80000 (blobs.map List.length) i)).take b.length
        = b) := by
  have hE : ∀ x ∈ blobs.map afs_item, ∀ d, (x.1 d).length = 8 := by
    intro x hx d
    obtain ⟨b, _, rfl⟩ := List.mem_map.1 hx
    rfl
  obtain ⟨hl, hf, he, hd⟩ := layout_spec 8 (blobs.map afs_item) [] 8 0x80000 hE
    (by rw [List.length_map]; omega)
  rw [afs_item_lens] at hl he hd
  have hne : ¬ ((blobs.map afs_item).length = 0) := by rw [List.length_map]; omega
  rw [if_neg hne] at hl
  have hge := padded_end_ge (blobs.map List.length) 0x80000
  have hhdr : ([0x41, 0x46, 0x53, 0x00] ++ le32_bytes blobs.length).length = 8 := rfl
  have hlen : (afs_image blobs).length = padded_end 0x80000 (blobs.map List.length) := by
    rw [afs_image, length_write_at, hl, hhdr]
    simp only [List.length_nil]
    omega
  have hget : ∀ j, 8 ≤ j → (afs_image blobs).getD j 0 =
      (layout_data 8 [] 8 0x80000 (blobs.map afs_item)).getD j 0 := by
    intro j hj
    rw [afs_image, getD_write_at, hhdr, if_neg (by omega)]
  refine ⟨hlen, ?_, ?_⟩
  · intro k hk
    rw [afs_image, getD_write_at, hhdr, if_pos ⟨by omega, by omega⟩, Nat.sub_zero]
  · intro i b hb
    have hi := get?_lt blobs i b hb
    have hitem : (blobs.map afs_item).get? i = some (afs_item b) := by
      rw [List.get?_eq_getElem?, List.getElem?_map, ← List.get?_eq_getElem?, hb]
      rfl
    have hoff := padded_off_lt_end (blobs.map List.length) 0x80000 i
      (by rw [List.length_map]; exact hi)
    rw [getD_map_length blobs i b hb] at hoff
    have hoge := padded_off_ge (blobs.map List.length) 0x80000 i
    refine ⟨?_, hoff, ?_⟩
    · apply afs_entry_at_written _ _ _ _ (by omega) (by omega)
      intro k hk
      rw [hget _ (by omega), he i (afs_item b) hitem k hk]
      rfl
    · apply take_drop_eq _ _ _ (by omega)
      intro k hk
      rw [hget _ (by omega)]
      exact hd i (afs_item b) hitem k hk

theorem afs_open_ok (img : List Nat) (n len flags : Nat) (hn : n ≤ 65535)
    (hlen : 8 + 8 * n ≤ img.length)
    (hhdr : ∀ k, k < 8 → img.getD k 0 = ([0x41, 0x46, 0x53, 0x00] ++ le32_bytes n).getD k 0)
    (hb : ∀ i, i < n → ((afs_entry_at img (8 + 8 * i)).offset +
      (afs_entry_at img (8 + 8 * i)).size) % 2 ^ 32 ≤ len) :
    pso_afs_read_open_fd ⟨img, 0⟩ len flags =
      .ok { fd := ⟨img, 8 + 8 * n⟩,
            files := (List.range n).map (fun i => afs_entry_at img (8 + 8 * i)),
            file_count := n, flags := flags } := by
  obtain ⟨r1, r2, r3⟩ := read_full ⟨img, 0⟩ 8 (by simp only; omega)
  have g : ∀ k, k < 8 → (read ⟨img, 0⟩ 8).1.getD k 0 =
      ([0x41, 0x46, 0x53, 0x00] ++ le32_bytes n).getD k 0 := by
    intro k hk
    rw [r3 k hk]
    simp only [Nat.zero_add]
    exact hhdr k hk
  have g0 := g 0 (by omega)
  have g1 := g 1 (by omega)
  have g2 := g 2 (by omega)
  have g3 := g 3 (by omega)
  have g4 := g 4 (by omega)
  have g5 := g 5 (by omega)
  have g6 := g 6 (by omega)
  have g7 := g 7 (by omega)
  simp only [le32_bytes, List.cons_append, List.nil_append, List.getD_cons_zero,
    List.getD_cons_succ] at g0 g1 g2 g3 g4 g5 g6 g7
  have hcount : le32 (n % 256) ((n >>> 8) % 256) ((n >>> 16) % 256) ((n >>> 24) % 256) = n := by
    rw [le32_le32_bytes]
    omega
  have hm : ¬ (False ∨ False ∨ False ∨ False) := by simp
  have hbig : ¬ (n > 65535) := by omega
  have hent := afs_read_entries_ok n ⟨img, 0 + 8⟩ len [] (by simp only; omega) (by
    intro i hi
    simp only [Nat.zero_add]
    exact hb i hi)
  simp only [Nat.zero_add, List.nil_append] at hent
  simp only [pso_afs_read_open_fd, r1, ne_eq, not_true_eq_false, if_false, g0, g1, g2, g3, g4,
    g5, g6, g7, hcount, r2, Nat.zero_add]
  rw [if_neg hm, if_neg hbig, hent]

theorem getElem?_map_range {β : Type} (f : Nat → β) (n i : Nat) (h : i < n) :
    ((List.range n).map f).get? i = some (f i) := by
  rw [List.get?_eq_getElem?, List.getElem?_map, List.getElem?_range h]
  rfl

/-- C3. For every sequence of `n` blobs with `1 <= n <= 65535` whose padded
total (the data cursor after the last append, `padded_end`) stays below 2^32:
`pso_afs_new_fd` on an empty file, one `pso_afs_write_add` per blob (each
returns `PSOARCHIVE_OK`) and `pso_afs_write_close` produce a file `f` on
which `pso_afs_read_open_fd` (from offset 0, `len` = the file length)
succeeds with `pso_afs_file_count = n`; for every `i`, `pso_afs_file_size(i)`
is the length of blob `i`, and for a non-empty blob `pso_afs_file_read(i)`
into a buffer of the blob's size returns that size and leaves exactly the
bytes of blob `i` in the buffer. -/
theorem afs_round_trip (blobs : List (List Nat)) (wflags rflags : Nat) (a : pso_afs_write)
    (hn1 : 1 ≤ blobs.length) (hn2 : blobs.length ≤ 65535)
    (htot : padded_end 0x80000 (blobs.map List.length) < 2 ^ 32)
    (hnew : pso_afs_new_fd ⟨[], 0⟩ wflags = .ok a) :
    ∃ a1 f h,
      afs_write_all (some a) blobs = (List.replicate blobs.length PSOARCHIVE_OK, some a1) ∧
      pso_afs_write_close (some a1) = (PSOARCHIVE_OK, some f) ∧
      pso_afs_read_open_fd ⟨f.data, 0⟩ f.data.length rflags = .ok h ∧
      pso_afs_file_count (some h) = blobs.length ∧
      ∀ i b, blobs.get? i = some b →
        pso_afs_file_size (some h) i = (b.length : Int) ∧
        (b ≠ [] → ∀ buf : List Nat, buf.length = b.length →
          pso_afs_file_read (some h) i (some buf) b.length
            = .ret (b.length : Int) (some b)) := by
  have ha : a = { fd := ⟨[], 0⟩, ftab_used := 0, ftab_pos := 8, data_pos := 0x80000,
                  flags := wflags } := (Except.ok.inj hnew).symm
  subst ha
  obtain ⟨a1, w1, w2, w3, w4, w5, w6⟩ := afs_write_all_spec blobs
    { fd := ⟨[], 0⟩, ftab_used := 0, ftab_pos := 8, data_pos := 0x80000, flags := wflags }
    (by simp only; omega)
  simp only [Nat.zero_add] at w2 w3
  obtain ⟨s1, s2, s3⟩ := afs_image_spec blobs hn1 hn2 htot
  have hge := padded_end_ge (blobs.map List.length) 0x80000
  have hclose : pso_afs_write_close (some a1) = (PSOARCHIVE_OK, some ⟨afs_image blobs, 8⟩) := by
    simp only [pso_afs_write_close, lseek, write, w2, w3, afs_image]
    rfl
  have hopen := afs_open_ok (afs_image blobs) blobs.length (afs_image blobs).length rflags hn2
    (by rw [s1]; omega) s2 (by
      intro i hi
      obtain ⟨b, hb⟩ : ∃ b, blobs.get? i = some b := ⟨blobs.get ⟨i, hi⟩, List.get?_eq_get hi⟩
      obtain ⟨e1, e2, _⟩ := s3 i b hb
      rw [e1, s1]
      simp only
      omega)
  refine ⟨a1, ⟨afs_image blobs, 8⟩, _, w1, hclose, hopen, rfl, ?_⟩
  intro i b hb
  have hi := get?_lt blobs i b hb
  obtain ⟨e1, e2, e3⟩ := s3 i b hb
  have hfile : ((List.range blobs.length).map
      (fun i => afs_entry_at (afs_image blobs) (8 + 8 * i))).get? i
      = some ⟨padded_off 0x80000 (blobs.map List.length) i, b.length⟩ := by
    rw [getElem?_map_range _ _ _ hi, e1]
  constructor
  · simp only [pso_afs_file_size, ge_iff_le, Nat.not_le.2 hi, if_false, hfile]
  · intro hne buf hbuf
    have hlen0 : ¬ (b.length = 0) := fun h0 => hne (List.length_eq_zero.1 h0)
    have hcond : ¬ (i > blobs.length ∨ b.length = 0) := by omega
    have hrd : (read (lseek ⟨afs_image blobs, 8 + 8 * blobs.length⟩
        (padded_off 0x80000 (blobs.map List.length) i)) b.length).1 = b := by
      simp only [read, lseek]
      exact e3
    simp only [pso_afs_file_read, hcond, if_false, hfile, lt_irrefl, hrd, ne_eq,
      not_true_eq_false, write_at_full buf b hbuf]

/-- C3 on two blobs of 10 and 20 bytes. -/
theorem afs_round_trip_witness :
    1 ≤ example_blobs.length ∧ example_blobs.length ≤ 65535 ∧
    padded_end 0x80000 (example_blobs.map List.length) < 2 ^ 32 ∧
    pso_afs_new_fd ⟨[], 0⟩ 0 = .ok afs_fresh ∧
    ∃ a1 f h,
      afs_write_all (some afs_fresh) example_blobs
        = (List.replicate example_blobs.length PSOARCHIVE_OK, some a1) ∧
      pso_afs_write_close (some a1) = (PSOARCHIVE_OK, some f) ∧
      pso_afs_read_open_fd ⟨f.data, 0⟩ f.data.length 0 = .ok h ∧
      pso_afs_file_count (some h) = example_blobs.length ∧
      ∀ i b, example_blobs.get? i = some b →
        pso_afs_file_size (some h) i = (b.length : Int) ∧
        (b ≠ [] → ∀ buf : List Nat, buf.length = b.length →
          pso_afs_file_read (some h) i (some buf) b.length
            = .ret (b.length : Int) (some b)) :=
  ⟨by decide, by decide, by decide, rfl,
    afs_round_trip example_blobs 0 0 afs_fresh (by decide) (by decide) (by decide) rfl⟩

/-! ## The Container B writer in terms of the layout -/

theorem length_strncpy (fn : List Nat) (n : Nat) : (strncpy fn n).length = n := by
  simp only [strncpy, List.length_append, List.length_take, List.length_replicate]
  omega

theorem takeWhile_nonzero (fn : List Nat) (h : ∀ c ∈ fn, c ≠ 0) :
    fn.takeWhile (fun ch => ch ≠ 0) = fn := by
  induction fn with
  | nil => rfl
  | cons c rest ih =>
    have hc : c ≠ 0 := h c (List.mem_cons_self _ _)
    rw [List.takeWhile_cons, ih (fun d hd => h d (List.mem_cons_of_mem _ hd))]
    simp [hc]

theorem strncpy_nonzero (fn : List Nat) (n : Nat) (h : ∀ c ∈ fn, c ≠ 0) :
    strncpy fn n = fn.take n ++ List.replicate (n - fn.length) 0 := by
  simp only [strncpy, takeWhile_nonzero fn h]

theorem length_gsl_entry (flags : Nat) (fn : List Nat) (dp len : Nat) :
    (gsl_entry flags fn dp len).length = 48 := by
  simp only [gsl_entry, List.length_append, length_strncpy]
  split <;> rfl

theorem pso_gsl_write_add_eq (a : pso_gsl_write) (fn b : List Nat)
    (hcap : (a.ftab_used : Int) ≠ a.ftab_entries - 1) (h : a.data_pos + b.length < 2 ^ 64) :
    pso_gsl_write_add (some a) fn b b.length = (PSOARCHIVE_OK, some
      { fd := ⟨add_data a.fd.data a.ftab_pos ((gsl_item a.flags (fn, b)).1 a.data_pos)
                 a.data_pos b, next_data_pos a.data_pos b.length⟩,
        ftab_entries := a.ftab_entries, ftab_used := a.ftab_used + 1, flags := a.flags,
        ftab_pos := a.ftab_pos + 48, data_pos := next_data_pos a.data_pos b.length }) := by
  simp only [pso_gsl_write_add, hcap, if_false, bytes_at_self, lseek, write]
  rw [pad_file_2048 _ h]
  rfl

theorem gsl_write_all_spec (blobs : List (List Nat × List Nat)) : ∀ (a : pso_gsl_write),
    (a.ftab_used : Int) + blobs.length ≤ a.ftab_entries - 1 →
    padded_end a.data_pos (blobs.map (fun nb => nb.2.length)) < 2 ^ 64 →
    ∃ a1, gsl_write_all (some a) blobs = (List.replicate blobs.length PSOARCHIVE_OK, some a1) ∧
      a1.fd.data = layout_data 48 a.fd.data a.ftab_pos a.data_pos
        (blobs.map (gsl_item a.flags)) ∧
      a1.ftab_used = a.ftab_used + blobs.length ∧
      a1.ftab_pos = a.ftab_pos + 48 * blobs.length ∧
      a1.data_pos = padded_end a.data_pos (blobs.map (fun nb => nb.2.length)) ∧
      a1.flags = a.flags ∧ a1.ftab_entries = a.ftab_entries := by
  induction blobs with
  | nil => intro a _ _; exact ⟨a, rfl, rfl, rfl, rfl, rfl, rfl, rfl⟩
  | cons nb rest ih =>
    intro a hcap h
    simp only [List.map_cons, padded_end] at h
    simp only [List.length_cons, Nat.cast_add, Nat.cast_one] at hcap
    have h1 := next_data_pos_gt a.data_pos nb.2.length
    have h2 := padded_end_ge (rest.map (fun nb => nb.2.length))
      (next_data_pos a.data_pos nb.2.length)
    obtain ⟨a1, e1, e2, e3, e4, e5, e6, e7⟩ := ih
      { fd := ⟨add_data a.fd.data a.ftab_pos ((gsl_item a.flags (nb.1, nb.2)).1 a.data_pos)
                 a.data_pos nb.2, next_data_pos a.data_pos nb.2.length⟩,
        ftab_entries := a.ftab_entries, ftab_used := a.ftab_used + 1, flags := a.flags,
        ftab_pos := a.ftab_pos + 48, data_pos := next_data_pos a.data_pos nb.2.length }
      (by simp only [Nat.cast_add, Nat.cast_one]; omega) h
    refine ⟨a1, ?_, ?_, ?_, ?_, ?_, ?_, ?_⟩
    · simp only [gsl_write_all]
      rw [pso_gsl_write_add_eq a nb.1 nb.2 (by omega) (by omega), e1]
      rfl
    · rw [e2]
      rfl
    · rw [e3, List.length_cons]
      simp only
      omega
    · rw [e4, List.length_cons]
      simp only
      omega
    · rw [e5]
      rfl
    · rw [e6]
    · rw [e7]

/-! ## The Container B reader on a well-formed table -/

theorem gsl_read_entries_ok (m : Nat) : ∀ (fuel i maxfiles : Nat) (fd : File) (len flags : Nat)
    (files : List gsl_file),
    fd.pos = 48 * i → m + 1 ≤ fuel → i + m < maxfiles → 48 * (i + m) + 48 ≤ fd.data.length →
    (∀ k, k < m → fd.data.getD (48 * (i + k)) 0 ≠ 0 ∧
      ((gsl_file_of_buf flags ((fd.data.drop (48 * (i + k))).take 48)).offset +
        (gsl_file_of_buf flags ((fd.data.drop (48 * (i + k))).take 48)).size) % 2 ^ 32 ≤ len) →
    fd.data.getD (48 * (i + m)) 0 = 0 →
    gsl_read_entries fuel i maxfiles fd len flags files =
      .ok (files ++ (List.range m).map
          (fun k => gsl_file_of_buf flags ((fd.data.drop (48 * (i + k))).take 48)),
        i + m, ⟨fd.data, 48 * (i + m) + 48⟩) := by
  induction m with
  | zero =>
    intro fuel i maxfiles fd len flags files hpos hfuel hmax hlen _ hzero
    obtain ⟨f, rfl⟩ : ∃ f, fuel = f + 1 := ⟨fuel - 1, by omega⟩
    simp only [Nat.add_zero] at hmax hlen hzero
    obtain ⟨r1, r2, r3⟩ := read_full fd 48 (by omega)
    have g0 := r3 0 (by omega)
    rw [Nat.add_zero, hpos, hzero] at g0
    simp only [gsl_read_entries, hmax, if_true, r1, ne_eq, not_true_eq_false, if_false, g0, r2,
      hpos, List.range_zero, List.map_nil, List.append_nil, Nat.add_zero]
  | succ m ih =>
    intro fuel i maxfiles fd len flags files hpos hfuel hmax hlen hent hzero
    obtain ⟨f, rfl⟩ : ∃ f, fuel = f + 1 := ⟨fuel - 1, by omega⟩
    have hi : i < maxfiles := by omega
    obtain ⟨r1, r2, r3⟩ := read_full fd 48 (by omega)
    have g0 := r3 0 (by omega)
    obtain ⟨hnz, hb⟩ := hent 0 (by omega)
    rw [Nat.add_zero] at hnz hb g0
    rw [hpos] at g0
    have hbuf : (read fd 48).1 = (fd.data.drop (48 * i)).take 48 := by
      simp only [read, hpos]
    have hnz2 : ¬ ((read fd 48).1.getD 0 0 = 0) := by rw [g0]; exact hnz
    have hb2 : ¬ (((gsl_file_of_buf flags ((fd.data.drop (48 * i)).take 48)).offset +
        (gsl_file_of_buf flags ((fd.data.drop (48 * i)).take 48)).size) % 2 ^ 32 > len) := by
      omega
    have hstep : gsl_read_entries (f + 1) i maxfiles fd len flags files =
        gsl_read_entries f (i + 1) maxfiles (read fd 48).2 len flags
          (files ++ [gsl_file_of_buf flags ((fd.data.drop (48 * i)).take 48)]) := by
      rw [← hbuf] at hb2 ⊢
      simp only [gsl_read_entries, hi, if_true, r1, ne_eq, not_true_eq_false, if_false, hnz2]
      simp only [gsl_file_of_buf] at hb2
      rw [if_neg hb2]
      rfl
    rw [hstep, r2, ih f (i + 1) maxfiles ⟨fd.data, fd.pos + 48⟩ len flags _
      (by simp only; omega) (by omega) (by omega) (by simp only; omega) (by
        intro k hk
        have := hent (k + 1) (by omega)
        have e : i + (k + 1) = i + 1 + k := by omega
        rw [e] at this
        exact this) (by
        have e : i + (m + 1) = i + 1 + m := by omega
        rw [e] at hzero
        exact hzero)]
    have e1 : i + 1 + m = i + (m + 1) := by omega
    have hfun : (fun k => gsl_file_of_buf flags ((fd.data.drop (48 * (i + 1 + k))).take 48)) =
        (fun k => gsl_file_of_buf flags ((fd.data.drop (48 * (i + (k + 1)))).take 48)) := by
      funext k
      have e : i + 1 + k = i + (k + 1) := by omega
      rw [e]
    rw [map_range_succ, ← hfun, List.append_assoc, e1]
    rfl

theorem getD_append_32 (S R : List Nat) (hS : S.length = 32) (k : Nat) :
    (S ++ R).getD (32 + k) 0 = R.getD k 0 := by
  rw [getD_append_if, hS, if_neg (by omega)]
  congr 1
  omega

theorem block_offset (off : Nat) (hmod : off % 2048 = 0) (ho : off < 2 ^ 32) :
    ((off >>> 11) % 2 ^ 32 % 2 ^ 32 * 2048) % 2 ^ 32 = off := by
  rw [Nat.shiftRight_eq_div_pow]
  omega

/-- Reading back, in the writer's byte order, the table entry the writer
builds gives the name field, the data offset and the length. -/
theorem gsl_file_of_entry (E : Nat) (fn : List Nat) (off len : Nat)
    (hE : E = PSO_GSL_BIG_ENDIAN ∨ E = PSO_GSL_LITTLE_ENDIAN)
    (hmod : off % 2048 = 0) (ho : off < 2 ^ 32) (hl : len < 2 ^ 32) :
    gsl_file_of_buf E (gsl_entry E fn off len) = ⟨strncpy fn 32, off, len⟩ := by
  have hS := length_strncpy fn 32
  have hlen : len % 2 ^ 32 = len := Nat.mod_eq_of_lt hl
  rcases hE with rfl | rfl
  · have c : PSO_GSL_BIG_ENDIAN &&& PSO_GSL_BIG_ENDIAN ≠ 0 := by decide
    simp only [gsl_file_of_buf, gsl_entry, if_pos c, List.append_assoc, List.take_left' hS,
      gsl_decode_be, be32_bytes]
    have g : ∀ k R, (strncpy fn 32 ++ R).getD (32 + k) 0 = R.getD k 0 :=
      fun k R => getD_append_32 _ R hS k
    have g0 := g 0
    have g1 := g 1
    have g2 := g 2
    have g3 := g 3
    have g4 := g 4
    have g5 := g 5
    have g6 := g 6
    have g7 := g 7
    simp only [Nat.reduceAdd] at g0 g1 g2 g3 g4 g5 g6 g7
    simp only [g0, g1, g2, g3, g4, g5, g6, g7, List.cons_append, List.nil_append,
      List.getD_cons_zero, List.getD_cons_succ, le32_le32_bytes, block_offset off hmod ho, hlen]
  · have c : ¬ (PSO_GSL_LITTLE_ENDIAN &&& PSO_GSL_BIG_ENDIAN ≠ 0) := by decide
    simp only [gsl_file_of_buf, gsl_entry, if_neg c, List.append_assoc, List.take_left' hS,
      gsl_decode_le, le32_bytes]
    have g : ∀ k R, (strncpy fn 32 ++ R).getD (32 + k) 0 = R.getD k 0 :=
      fun k R => getD_append_32 _ R hS k
    have g0 := g 0
    have g1 := g 1
    have g2 := g 2
    have g3 := g 3
    have g4 := g 4
    have g5 := g 5
    have g6 := g 6
    have g7 := g 7
    simp only [Nat.reduceAdd] at g0 g1 g2 g3 g4 g5 g6 g7
    simp only [g0, g1, g2, g3, g4, g5, g6, g7, List.cons_append, List.nil_append,
      List.getD_cons_zero, List.getD_cons_succ, le32_le32_bytes, block_offset off hmod ho, hlen]

theorem gsl_first_entry_explicit (E : Nat) (buf : List Nat) (len : Nat)
    (hE : E = PSO_GSL_BIG_ENDIAN ∨ E = PSO_GSL_LITTLE_ENDIAN) :
    gsl_first_entry buf len E =
      .ok ((if E &&& PSO_GSL_BIG_ENDIAN ≠ 0 then gsl_decode_be buf else gsl_decode_le buf).1,
           (if E &&& PSO_GSL_BIG_ENDIAN ≠ 0 then gsl_decode_be buf else gsl_decode_le buf).2,
           E) := by
  rcases hE with rfl | rfl
  · have c1 : ¬ (PSO_GSL_BIG_ENDIAN &&& GSL_ENDIANNESS = 0) := by decide
    have c2 : PSO_GSL_BIG_ENDIAN &&& PSO_GSL_BIG_ENDIAN ≠ 0 := by decide
    simp only [gsl_first_entry, if_neg c1, if_pos c2]
  · have c1 : ¬ (PSO_GSL_LITTLE_ENDIAN &&& GSL_ENDIANNESS = 0) := by decide
    have c2 : ¬ (PSO_GSL_LITTLE_ENDIAN &&& PSO_GSL_BIG_ENDIAN ≠ 0) := by decide
    simp only [gsl_first_entry, if_neg c1, if_neg c2]

/-- The call `pso_gsl_read_open_fd` with an explicit byte order on a table of `n`
non-empty entries followed by a zero entry, all inside the table region the
first entry announces and all in range. -/
theorem gsl_open_ok (img : List Nat) (E n len : Nat)
    (hE : E = PSO_GSL_BIG_ENDIAN ∨ E = PSO_GSL_LITTLE_ENDIAN) (hn : 1 ≤ n)
    (hmax : n < (gsl_file_of_buf E ((img.drop (48 * 0)).take 48)).offset / 48)
    (hlen : 48 * n + 48 ≤ img.length)
    (hent : ∀ k, k < n → img.getD (48 * k) 0 ≠ 0 ∧
      ((gsl_file_of_buf E ((img.drop (48 * k)).take 48)).offset +
        (gsl_file_of_buf E ((img.drop (48 * k)).take 48)).size) % 2 ^ 32 ≤ len)
    (hzero : img.getD (48 * n) 0 = 0) :
    pso_gsl_read_open_fd ⟨img, 0⟩ len E =
      .ok { fd := ⟨img, 48 * n + 48⟩,
            files := (List.range n).map
              (fun k => gsl_file_of_buf E ((img.drop (48 * k)).take 48)),
            file_count := n, flags := E } := by
  obtain ⟨m, rfl⟩ : ∃ m, n = m + 1 := ⟨n - 1, by omega⟩
  obtain ⟨r1, r2, r3⟩ := read_full ⟨img, 0⟩ 48 (by simp only; omega)
  have hbuf : (read ⟨img, 0⟩ 48).1 = (img.drop (48 * 0)).take 48 := rfl
  have g0 := r3 0 (by omega)
  simp only [Nat.add_zero] at g0
  have hnz : ¬ ((read ⟨img, 0⟩ 48).1.getD 0 0 = 0) := by
    rw [g0]
    exact (hent 0 (by omega)).1
  have hloop := gsl_read_entries_ok m
    ((gsl_file_of_buf E ((img.drop (48 * 0)).take 48)).offset / 48) 1
    ((gsl_file_of_buf E ((img.drop (48 * 0)).take 48)).offset / 48) ⟨img, 0 + 48⟩ len E
    [gsl_file_of_buf E ((img.drop (48 * 0)).take 48)] (by simp only) (by omega) (by omega)
    (by simp only; omega) (by
      intro k hk
      have := hent (1 + k) (by omega)
      exact this) (by
      have e : 1 + m = m + 1 := by omega
      rw [e]
      exact hzero)
  simp only [pso_gsl_read_open_fd, r1, ne_eq, not_true_eq_false, if_false, hnz,
    gsl_first_entry_explicit E _ len hE, r2]
  rw [hbuf]
  have hfun : (fun k => gsl_file_of_buf E ((img.drop (48 * (1 + k))).take 48)) =
      (fun k => gsl_file_of_buf E ((img.drop (48 * (k + 1))).take 48)) := by
    funext k
    have e : 1 + k = k + 1 := by omega
    rw [e]
  have e1 : 1 + m = m + 1 := by omega
  simp only [Nat.zero_add, hfun, e1, List.singleton_append] at hloop
  rw [map_range_succ]
  simp only [gsl_file_of_buf, ne_eq] at hloop ⊢
  rw [hloop]

/-! ## C4: Container B round trip -/

theorem gsl_item_lens (E : Nat) (blobs : List (List Nat × List Nat)) :
    (blobs.map (gsl_item E)).map (fun x => x.2.length) = blobs.map (fun nb => nb.2.length) := by
  rw [List.map_map]
  rfl

theorem getD_map_length2 (blobs : List (List Nat × List Nat)) (i : Nat) (nb : List Nat × List Nat)
    (h : blobs.get? i = some nb) :
    (blobs.map (fun nb => nb.2.length)).getD i 0 = nb.2.length := by
  rw [List.getD_eq_getElem?_getD, List.getElem?_map, ← List.get?_eq_getElem?, h]
  rfl

theorem gsl_entry_first (E : Nat) (fn : List Nat) (off len : Nat) (hne : fn ≠ [])
    (hnz : ∀ c ∈ fn, c ≠ 0) : (gsl_entry E fn off len).getD 0 0 ≠ 0 := by
  obtain ⟨c, rest, rfl⟩ := List.exists_cons_of_ne_nil hne
  have hc : c ≠ 0 := hnz c (List.mem_cons_self _ _)
  simp only [gsl_entry, strncpy_nonzero _ 32 hnz, List.take_succ_cons, List.cons_append,
    List.getD_cons_zero]
  exact hc

/-- The image the Container B writer produces: its length, the zero byte
that ends the table, its table entries and its blobs. -/
theorem gsl_image_spec (E : Nat) (blobs : List (List Nat × List Nat))
    (hn1 : 1 ≤ blobs.length) (hn2 : blobs.length ≤ 255) :
    (gsl_image E blobs).length = padded_end (256 * 48) (blobs.map (fun nb => nb.2.length)) ∧
    (gsl_image E blobs).getD (48 * blobs.length) 0 = 0 ∧
    (∀ i nb, blobs.get? i = some nb →
      ((gsl_image E blobs).drop (48 * i)).take 48 =
        gsl_entry E nb.1 (padded_off (256 * 48) (blobs.map (fun nb => nb.2.length)) i)
          nb.2.length ∧
      padded_off (256 * 48) (blobs.map (fun nb => nb.2.length)) i + nb.2.length <
        padded_end (256 * 48) (blobs.map (fun nb => nb.2.length)) ∧
      padded_off (256 * 48) (blobs.map (fun nb => nb.2.length)) i % 2048 = 0 ∧
      ((gsl_image E blobs).drop
        (padded_off (256 * 48) (blobs.map (fun nb => nb.2.length)) i)).take nb.2.length
        = nb.2) := by
  have hE : ∀ x ∈ blobs.map (gsl_item E), ∀ d, (x.1 d).length = 48 := by
    intro x hx d
    obtain ⟨nb, _, rfl⟩ := List.mem_map.1 hx
    exact length_gsl_entry E nb.1 d nb.2.length
  obtain ⟨hl, hf, he, hd⟩ := layout_spec 48 (blobs.map (gsl_item E)) [] 0 (256 * 48) hE
    (by rw [List.length_map]; omega)
  rw [gsl_item_lens] at hl he hd
  rw [List.length_map] at hf
  have hne : ¬ ((blobs.map (gsl_item E)).length = 0) := by rw [List.length_map]; omega
  rw [if_neg hne] at hl
  have hge := padded_end_ge (blobs.map (fun nb => nb.2.length)) (256 * 48)
  have hlen : (gsl_image E blobs).length =
      padded_end (256 * 48) (blobs.map (fun nb => nb.2.length)) := by
    rw [gsl_image, hl]
    simp only [List.length_nil]
    omega
  refine ⟨hlen, ?_, ?_⟩
  · rw [gsl_image, hf (48 * blobs.length) (Or.inr ⟨by omega, by omega⟩)]
    rfl
  · intro i nb hb
    have hi := get?_lt blobs i nb hb
    have hitem : (blobs.map (gsl_item E)).get? i = some (gsl_item E nb) := by
      rw [List.get?_eq_getElem?, List.getElem?_map, ← List.get?_eq_getElem?, hb]
      rfl
    have hoff := padded_off_lt_end (blobs.map (fun nb => nb.2.length)) (256 * 48) i
      (by rw [List.length_map]; exact hi)
    rw [getD_map_length2 blobs i nb hb] at hoff
    have hoge := padded_off_ge (blobs.map (fun nb => nb.2.length)) (256 * 48) i
    refine ⟨?_, hoff, padded_off_mod _ _ _ (by decide), ?_⟩
    · have h48 := length_gsl_entry E nb.1
        (padded_off (256 * 48) (blobs.map (fun nb => nb.2.length)) i) nb.2.length
      apply take_drop_eq_len _ _ _ 48 h48 (by rw [hlen]; omega)
      intro k hk
      have := he i (gsl_item E nb) hitem k hk
      rw [Nat.zero_add] at this
      rw [gsl_image, this]
      rfl
    · apply take_drop_eq _ _ _ (by rw [hlen]; omega)
      intro k hk
      exact hd i (gsl_item E nb) hitem k hk

theorem getD_zero_take_drop (D : List Nat) (p n : Nat) (hn : 0 < n) :
    ((D.drop p).take n).getD 0 0 = D.getD p 0 := by
  rw [getD_take, if_pos hn, getD_drop, Nat.add_zero]

/-- C4. For a byte-order flag `E` that is `PSO_GSL_BIG_ENDIAN` or
`PSO_GSL_LITTLE_ENDIAN` and every sequence of `n >= 1` named blobs, the names
non-empty C strings, `n` at most the table capacity minus 1 and the padded
total below 2^32: `pso_gsl_new_fd(E)` on an empty file, one
`pso_gsl_write_add` per blob (each returns `PSOARCHIVE_OK`) and
`pso_gsl_write_close` produce a file on which `pso_gsl_read_open_fd` with
the same flag `E` (from offset 0, `len` = the file length) succeeds with
`pso_gsl_file_count = n`; for every `i` the 32-byte name field of entry `i` is
the written name cut or zero-padded to 32 bytes, `pso_gsl_file_size(i)` is the
blob's length, and `pso_gsl_file_read(i)` with any `len > 0` that is at least
the blob's length returns that length and puts exactly the blob's bytes at the
start of the buffer. -/
theorem gsl_round_trip (E : Nat) (blobs : List (List Nat × List Nat)) (a : pso_gsl_write)
    (hE : E = PSO_GSL_BIG_ENDIAN ∨ E = PSO_GSL_LITTLE_ENDIAN)
    (hnew : pso_gsl_new_fd ⟨[], 0⟩ E = .ok a)
    (hn1 : 1 ≤ blobs.length) (hn2 : (blobs.length : Int) ≤ a.ftab_entries - 1)
    (hnames : ∀ nb ∈ blobs, nb.1 ≠ [] ∧ ∀ c ∈ nb.1, c ≠ 0)
    (htot : padded_end (256 * 48) (blobs.map (fun nb => nb.2.length)) < 2 ^ 32) :
    ∃ a1 f h,
      gsl_write_all (some a) blobs = (List.replicate blobs.length PSOARCHIVE_OK, some a1) ∧
      pso_gsl_write_close (some a1) = (PSOARCHIVE_OK, some f) ∧
      pso_gsl_read_open_fd ⟨f.data, 0⟩ f.data.length E = .ok h ∧
      pso_gsl_file_count (some h) = blobs.length ∧
      ∀ i nb, blobs.get? i = some nb →
        (∃ e, h.files.get? i = some e ∧
          e.filename = nb.1.take 32 ++ List.replicate (32 - nb.1.length) 0) ∧
        pso_gsl_file_size (some h) i = (nb.2.length : Int) ∧
        (∀ (buf : List Nat) (len : Nat), 0 < len → nb.2.length ≤ len →
          pso_gsl_file_read (some h) i (some buf) len
            = .ret (nb.2.length : Int) (some (write_at buf 0 nb.2))) := by
  have ha := pso_gsl_new_fd_ok ⟨[], 0⟩ E a hnew
  subst ha
  simp only at hn2
  have hn3 : blobs.length ≤ 255 := by omega
  obtain ⟨a1, w1, w2, w3, w4, w5, w6, w7⟩ := gsl_write_all_spec blobs
    { fd := ⟨[], 0⟩, ftab_entries := 256, ftab_used := 0, ftab_pos := 0, data_pos := 256 * 48,
      flags := E } (by simp only; omega) (by simp only; omega)
  simp only at w2
  obtain ⟨s1, s2, s3⟩ := gsl_image_spec E blobs hn1 hn3
  have himg : a1.fd.data = gsl_image E blobs := w2
  have hge := padded_end_ge (blobs.map (fun nb => nb.2.length)) (256 * 48)
  have hfile : ∀ i nb, blobs.get? i = some nb →
      gsl_file_of_buf E (((gsl_image E blobs).drop (48 * i)).take 48) =
        ⟨strncpy nb.1 32, padded_off (256 * 48) (blobs.map (fun nb => nb.2.length)) i,
          nb.2.length⟩ := by
    intro i nb hb
    obtain ⟨e1, e2, e3, _⟩ := s3 i nb hb
    rw [e1]
    exact gsl_file_of_entry E nb.1 _ nb.2.length hE e3 (by omega) (by omega)
  have hget : ∀ i, i < blobs.length → ∃ nb, blobs.get? i = some nb :=
    fun i hi => ⟨blobs.get ⟨i, hi⟩, List.get?_eq_get hi⟩
  have hopen := gsl_open_ok (gsl_image E blobs) E blobs.length (gsl_image E blobs).length hE hn1
    (by
      obtain ⟨nb, hb⟩ := hget 0 (by omega)
      rw [hfile 0 nb hb]
      simp only [padded_off]
      omega)
    (by rw [s1]; omega)
    (by
      intro k hk
      obtain ⟨nb, hb⟩ := hget k hk
      obtain ⟨e1, e2, e3, _⟩ := s3 k nb hb
      constructor
      · rw [← getD_zero_take_drop _ _ 48 (by omega), e1]
        exact gsl_entry_first E nb.1 _ _ (hnames nb (List.get?_mem hb)).1
          (hnames nb (List.get?_mem hb)).2
      · rw [hfile k nb hb, s1]
        simp only
        omega)
    s2
  refine ⟨a1, a1.fd, _, w1, rfl, (by rw [himg]; exact hopen), ?_, ?_⟩
  · rfl
  · intro i nb hb
    have hi := get?_lt blobs i nb hb
    obtain ⟨e1, e2, e3, e4⟩ := s3 i nb hb
    have hfi : ((List.range blobs.length).map
        (fun k => gsl_file_of_buf E (((gsl_image E blobs).drop (48 * k)).take 48))).get? i
        = some ⟨strncpy nb.1 32, padded_off (256 * 48) (blobs.map (fun nb => nb.2.length)) i,
            nb.2.length⟩ := by
      rw [getElem?_map_range _ _ _ hi, hfile i nb hb]
    refine ⟨⟨_, hfi, strncpy_nonzero nb.1 32 (hnames nb (List.get?_mem hb)).2⟩, ?_, ?_⟩
    · simp only [pso_gsl_file_size, ge_iff_le, Nat.not_le.2 hi, if_false, hfi]
    · intro buf len hlen hle
      have hcond : ¬ (i > blobs.length ∨ len = 0) := by omega
      have hmin : (if nb.2.length < len then nb.2.length else len) = nb.2.length := by
        split <;> omega
      have hrd : (read (lseek ⟨gsl_image E blobs, 48 * blobs.length + 48⟩
          (padded_off (256 * 48) (blobs.map (fun nb => nb.2.length)) i)) nb.2.length).1
          = nb.2 := by
        simp only [read, lseek]
        exact e4
      simp only [pso_gsl_file_read, hcond, if_false, hfi, hmin, hrd, ne_eq, not_true_eq_false]

/-- C4 with `PSO_GSL_LITTLE_ENDIAN` on two named blobs of 10 and 20 bytes, the
second name longer than the name field. -/
theorem gsl_round_trip_witness :
    (PSO_GSL_LITTLE_ENDIAN = PSO_GSL_BIG_ENDIAN ∨ PSO_GSL_LITTLE_ENDIAN = PSO_GSL_LITTLE_ENDIAN) ∧
    pso_gsl_new_fd ⟨[], 0⟩ PSO_GSL_LITTLE_ENDIAN = .ok gsl_fresh_le ∧
    1 ≤ example_named_blobs.length ∧
    (example_named_blobs.length : Int) ≤ gsl_fresh_le.ftab_entries - 1 ∧
    (∀ nb ∈ example_named_blobs, nb.1 ≠ [] ∧ ∀ c ∈ nb.1, c ≠ 0) ∧
    padded_end (256 * 48) (example_named_blobs.map (fun nb => nb.2.length)) < 2 ^ 32 ∧
    ∃ a1 f h,
      gsl_write_all (some gsl_fresh_le) example_named_blobs
        = (List.replicate example_named_blobs.length PSOARCHIVE_OK, some a1) ∧
      pso_gsl_write_close (some a1) = (PSOARCHIVE_OK, some f) ∧
      pso_gsl_read_open_fd ⟨f.data, 0⟩ f.data.length PSO_GSL_LITTLE_ENDIAN = .ok h ∧
      pso_gsl_file_count (some h) = example_named_blobs.length ∧
      ∀ i nb, example_named_blobs.get? i = some nb →
        (∃ e, h.files.get? i = some e ∧
          e.filename = nb.1.take 32 ++ List.replicate (32 - nb.1.length) 0) ∧
        pso_gsl_file_size (some h) i = (nb.2.length : Int) ∧
        (∀ (buf : List Nat) (len : Nat), 0 < len → nb.2.length ≤ len →
          pso_gsl_file_read (some h) i (some buf) len
            = .ret (nb.2.length : Int) (some (write_at buf 0 nb.2))) :=
  ⟨by decide, rfl, by decide, by decide, by decide, by decide,
    gsl_round_trip PSO_GSL_LITTLE_ENDIAN example_named_blobs gsl_fresh_le (by decide) rfl
      (by decide) (by decide) (by decide) (by decide)⟩

/-! ## C11: byte-order flags of `pso_gsl_new_fd` -/

theorem and_one_eq_mod (x : Nat) : x &&& 1 = x % 2 := by
  exact Nat.and_pow_two_sub_one_eq_mod x 1

theorem and_three_eq_mod (x : Nat) : x &&& 3 = x % 4 := by
  exact Nat.and_pow_two_sub_one_eq_mod x 2

theorem and_two_eq (x : Nat) : x &&& 2 = 2 * (x / 2 % 2) := by
  apply Nat.eq_of_testBit_eq
  intro i
  have e3 : 2 * (x / 2 % 2) = 2 ^ 1 * (x / 2 ^ 1 % 2 ^ 1) := by norm_num
  rw [Nat.testBit_and, e3, Nat.testBit_mul_pow_two, Nat.testBit_mod_two_pow,
    ← Nat.shiftRight_eq_div_pow, Nat.testBit_shiftRight]
  have t : Nat.testBit 2 i = decide (1 = i) := @Nat.testBit_two_pow 1 i
  rw [t]
  by_cases h : i = 1
  · subst h
    simp
  · have h1 : ¬ (1 = i) := fun e => h e.symm
    by_cases h0 : 1 ≤ i
    · have : ¬ (i - 1 < 1) := by omega
      simp [h1, this]
    · simp [h1, h0]

theorem gsl_flags_cases (flags : Nat) :
    (flags &&& GSL_ENDIANNESS = 0 ∨ flags &&& GSL_ENDIANNESS = GSL_ENDIANNESS) ↔
    ((flags &&& PSO_GSL_BIG_ENDIAN = 0 ∧ flags &&& PSO_GSL_LITTLE_ENDIAN = 0) ∨
     (flags &&& PSO_GSL_BIG_ENDIAN ≠ 0 ∧ flags &&& PSO_GSL_LITTLE_ENDIAN ≠ 0)) := by
  have e1 : GSL_ENDIANNESS = 3 := rfl
  have e2 : PSO_GSL_BIG_ENDIAN = 1 := rfl
  have e3 : PSO_GSL_LITTLE_ENDIAN = 2 := rfl
  rw [e1, e2, e3, and_three_eq_mod, and_one_eq_mod, and_two_eq]
  omega

/-- C11. The call `pso_gsl_new_fd(fd, flags)` fails with `PSOARCHIVE_EFATAL`
exactly when `flags` holds neither or both of `PSO_GSL_BIG_ENDIAN` and
`PSO_GSL_LITTLE_ENDIAN`; in every other case it returns the handle with
capacity 256, no used entries, table cursor 0 and data cursor 12288. -/
theorem gsl_new_fd_byte_order (fd : File) (flags : Nat) :
    (pso_gsl_new_fd fd flags = .error PSOARCHIVE_EFATAL ↔
      ((flags &&& PSO_GSL_BIG_ENDIAN = 0 ∧ flags &&& PSO_GSL_LITTLE_ENDIAN = 0) ∨
       (flags &&& PSO_GSL_BIG_ENDIAN ≠ 0 ∧ flags &&& PSO_GSL_LITTLE_ENDIAN ≠ 0))) ∧
    (¬ ((flags &&& PSO_GSL_BIG_ENDIAN = 0 ∧ flags &&& PSO_GSL_LITTLE_ENDIAN = 0) ∨
        (flags &&& PSO_GSL_BIG_ENDIAN ≠ 0 ∧ flags &&& PSO_GSL_LITTLE_ENDIAN ≠ 0)) →
      pso_gsl_new_fd fd flags =
        .ok { fd := fd, ftab_entries := 256, ftab_used := 0, flags := flags, ftab_pos := 0,
              data_pos := 12288 }) := by
  rw [← gsl_flags_cases]
  unfold pso_gsl_new_fd
  by_cases h : flags &&& GSL_ENDIANNESS = 0 ∨ flags &&& GSL_ENDIANNESS = GSL_ENDIANNESS
  · rw [if_pos h]
    exact ⟨⟨fun _ => h, fun _ => rfl⟩, fun hn => absurd h hn⟩
  · rw [if_neg h]
    refine ⟨⟨fun e => ?_, fun e => absurd e h⟩, fun _ => rfl⟩
    cases e

theorem gsl_new_fd_byte_order_witness :
    pso_gsl_new_fd ⟨[], 0⟩ PSO_GSL_LITTLE_ENDIAN =
      .ok { fd := ⟨[], 0⟩, ftab_entries := 256, ftab_used := 0, flags := PSO_GSL_LITTLE_ENDIAN,
            ftab_pos := 0, data_pos := 12288 } :=
  (gsl_new_fd_byte_order ⟨[], 0⟩ PSO_GSL_LITTLE_ENDIAN).2 (by decide)

/-! ## C12: no resizing after a write -/

/-- C12. On a write handle whose used count is above 0, the call
`pso_gsl_write_set_ftab_size(a, ents)` returns `PSOARCHIVE_EFATAL` for every
`ents` and leaves the handle as it was: capacity, both cursors, used count and
file. -/
theorem gsl_set_ftab_size_after_write (a : pso_gsl_write) (ents : Nat) (h : 0 < a.ftab_used) :
    pso_gsl_write_set_ftab_size (some a) ents = (PSOARCHIVE_EFATAL, some a) := by
  have h1 : a.ftab_used ≠ 0 := by omega
  simp only [pso_gsl_write_set_ftab_size, if_pos h1]

theorem gsl_set_ftab_size_after_write_witness :
    0 < ({ gsl_fresh_be with ftab_used := 1 } : pso_gsl_write).ftab_used ∧
    pso_gsl_write_set_ftab_size (some { gsl_fresh_be with ftab_used := 1 }) 1000 =
      (PSOARCHIVE_EFATAL, some { gsl_fresh_be with ftab_used := 1 }) :=
  ⟨by decide, gsl_set_ftab_size_after_write _ 1000 (by decide)⟩

/-! ## C14: capacity rounding -/

theorem and_7ff (x : Nat) : x &&& 0x7FF = x % 2048 :=
  Nat.and_pow_two_sub_one_eq_mod x 11

theorem and_fffff800 (x : Nat) (h : x < 2 ^ 32) : x &&& 0xFFFFF800 = x / 2048 * 2048 := by
  apply Nat.eq_of_testBit_eq
  intro i
  have e1 : (0xFFFFF800 : Nat) = 2 ^ 11 * (2 ^ 21 - 1) := by norm_num
  have e2 : x / 2048 * 2048 = 2 ^ 11 * (x / 2 ^ 11) := by norm_num [Nat.mul_comm]
  rw [Nat.testBit_and, e1, e2, Nat.testBit_mul_pow_two, Nat.testBit_mul_pow_two,
    Nat.testBit_two_pow_sub_one, ← Nat.shiftRight_eq_div_pow, Nat.testBit_shiftRight]
  by_cases h2 : 11 ≤ i
  · have e3 : 11 + (i - 11) = i := by omega
    rw [e3]
    by_cases h3 : i < 32
    · have : i - 11 < 21 := by omega
      simp [h2, this]
    · have hx : x.testBit i = false :=
        Nat.testBit_lt_two_pow (Nat.lt_of_lt_of_le h (Nat.pow_le_pow_right (by norm_num) (by omega)))
      simp [hx]
  · simp [h2]

theorem toInt32_small (n : Nat) (h : n < 2 ^ 31) : toInt32 n = (n : Int) := by
  unfold toInt32
  have e : n % 2 ^ 32 = n := by omega
  rw [e, if_pos h]

theorem pso_gsl_write_set_ftab_size_spec (a : pso_gsl_write) (ents : Nat) (hu : a.ftab_used = 0)
    (hb : max ents 256 * 48 + 2048 < 2 ^ 32) :
    pso_gsl_write_set_ftab_size (some a) ents =
      (PSOARCHIVE_OK, some { a with
        ftab_entries := (((max ents 256 * 48 + 2047) / 2048 * 2048 / 48 : Nat) : Int),
        data_pos := (max ents 256 * 48 + 2047) / 2048 * 2048 }) := by
  have he : (if ents < 256 then 256 else ents) = max ents 256 := by
    split <;> omega
  have h0 : ¬ (a.ftab_used ≠ 0) := by omega
  simp only [pso_gsl_write_set_ftab_size, if_neg h0, he]
  generalize max ents 256 = e at hb ⊢
  have hx : e * 48 % 2 ^ 32 = e * 48 := by omega
  rw [hx, and_7ff]
  by_cases hm : e * 48 % 2048 ≠ 0
  · rw [if_pos hm, and_fffff800 _ (by omega)]
    have e1a : (e * 48 + 2048) / 2048 = e * 48 / 2048 + 1 := by omega
    have e1b : (e * 48 + 2047) / 2048 = e * 48 / 2048 + 1 := by omega
    have e1 : (e * 48 + 2048) / 2048 * 2048 = (e * 48 + 2047) / 2048 * 2048 := by
      rw [e1a, e1b]
    rw [e1, toInt32_small _ (by omega)]
  · rw [if_neg hm]
    have e1 : (e * 48 + 2047) / 2048 * 2048 = e * 48 := by omega
    have e2 : e * 48 / 48 = e := by omega
    rw [e1, e2, toInt32_small _ (by omega)]

/-- C14. On a write handle with no used entries, as a fresh one is, and for
every `ents` with `max(ents,256)*48 + 2048 < 2^32`, the call
`pso_gsl_write_set_ftab_size(a, ents)` returns `PSOARCHIVE_OK`; the data
cursor becomes the smallest multiple of 2048 that is at least
`max(ents,256)*48`, the capacity becomes the data cursor divided by 48,
rounded down, which is at least `max(ents,256)`, and the rest of the handle
stays as it was. -/
theorem gsl_capacity_rounding (a : pso_gsl_write) (ents : Nat) (hu : a.ftab_used = 0)
    (hb : max ents 256 * 48 + 2048 < 2 ^ 32) :
    ∃ a1, pso_gsl_write_set_ftab_size (some a) ents = (PSOARCHIVE_OK, some a1) ∧
      a1.data_pos % 2048 = 0 ∧ max ents 256 * 48 ≤ a1.data_pos ∧
      (∀ m, m % 2048 = 0 → max ents 256 * 48 ≤ m → a1.data_pos ≤ m) ∧
      a1.ftab_entries = ((a1.data_pos / 48 : Nat) : Int) ∧
      max ents 256 ≤ a1.data_pos / 48 ∧
      a1.fd = a.fd ∧ a1.ftab_used = 0 ∧ a1.ftab_pos = a.ftab_pos ∧ a1.flags = a.flags := by
  refine ⟨_, pso_gsl_write_set_ftab_size_spec a ents hu hb, ?_, ?_, ?_, rfl, ?_, rfl, hu, rfl, rfl⟩
  · show (max ents 256 * 48 + 2047) / 2048 * 2048 % 2048 = 0
    omega
  · show max ents 256 * 48 ≤ (max ents 256 * 48 + 2047) / 2048 * 2048
    omega
  · intro m h1 h2
    show (max ents 256 * 48 + 2047) / 2048 * 2048 ≤ m
    omega
  · show max ents 256 ≤ (max ents 256 * 48 + 2047) / 2048 * 2048 / 48
    omega

/-- C14 on the fresh big-endian handle of an empty file with `ents = 300`:
the data cursor becomes 16384 and the capacity 341. -/
theorem gsl_capacity_rounding_witness :
    gsl_fresh_be.ftab_used = 0 ∧ max 300 256 * 48 + 2048 < 2 ^ 32 ∧
    ∃ a1, pso_gsl_write_set_ftab_size (some gsl_fresh_be) 300 = (PSOARCHIVE_OK, some a1) ∧
      a1.data_pos % 2048 = 0 ∧ max 300 256 * 48 ≤ a1.data_pos ∧
      (∀ m, m % 2048 = 0 → max 300 256 * 48 ≤ m → a1.data_pos ≤ m) ∧
      a1.ftab_entries = ((a1.data_pos / 48 : Nat) : Int) ∧
      max 300 256 ≤ a1.data_pos / 48 ∧
      a1.fd = gsl_fresh_be.fd ∧ a1.ftab_used = 0 ∧ a1.ftab_pos = gsl_fresh_be.ftab_pos ∧
      a1.flags = gsl_fresh_be.flags :=
  ⟨rfl, by decide, gsl_capacity_rounding gsl_fresh_be 300 rfl (by decide)⟩

/-! ## C13: a full table -/

theorem pso_gsl_write_add_fd_full (a : pso_gsl_write) (fn : List Nat) (fd : File) (len : Nat)
    (h : (a.ftab_used : Int) = a.ftab_entries - 1) :
    pso_gsl_write_add_fd (some a) fn fd len = (PSOARCHIVE_EFATAL, some a, fd) := by
  simp only [pso_gsl_write_add_fd, h, if_true]

theorem pso_gsl_write_add_fd_used (a : pso_gsl_write) (fn : List Nat) (fd : File) (len : Nat)
    (h : (a.ftab_used : Int) ≠ a.ftab_entries - 1) :
    ∃ c a1 fd1, pso_gsl_write_add_fd (some a) fn fd len = (c, some a1, fd1) ∧
      a1.ftab_used = a.ftab_used + 1 ∧ a1.ftab_entries = a.ftab_entries := by
  simp only [pso_gsl_write_add_fd, if_neg h]
  split
  · exact ⟨_, _, _, rfl, rfl, rfl⟩
  · exact ⟨_, _, _, rfl, rfl, rfl⟩

theorem gsl_write_reach_used (a : pso_gsl_write)
    (h : gsl_write_reach (fun ents => max ents 256 * 48 + 2048 < 2 ^ 32) a) :
    (a.ftab_used : Int) ≤ a.ftab_entries - 1 := by
  induction h with
  | new_fd fd flags a h =>
    rw [pso_gsl_new_fd_ok fd flags a h]
    show ((0 : Nat) : Int) ≤ 256 - 1
    omega
  | set_ftab_size a a1 ents c _ hP h ih =>
    by_cases hu : a.ftab_used = 0
    · rw [pso_gsl_write_set_ftab_size_spec a ents hu hP] at h
      have e : a1 = _ := (Option.some.inj (Prod.mk.inj h).2).symm
      rw [e]
      show ((a.ftab_used : Nat) : Int)
        ≤ (((max ents 256 * 48 + 2047) / 2048 * 2048 / 48 : Nat) : Int) - 1
      have : 1 ≤ (max ents 256 * 48 + 2047) / 2048 * 2048 / 48 := by omega
      omega
    · have e0 : pso_gsl_write_set_ftab_size (some a) ents = (PSOARCHIVE_EFATAL, some a) := by
        simp only [pso_gsl_write_set_ftab_size, if_pos hu]
      rw [e0] at h
      have e : a1 = a := (Option.some.inj (Prod.mk.inj h).2).symm
      rw [e]
      exact ih
  | add a a1 fn data len c _ h ih =>
    by_cases hf : (a.ftab_used : Int) = a.ftab_entries - 1
    · rw [pso_gsl_write_add_full a fn data len hf] at h
      have e : a1 = a := (Option.some.inj (Prod.mk.inj h).2).symm
      rw [e]
      exact ih
    · obtain ⟨a2, h2, hu, hc, _⟩ := pso_gsl_write_add_ok a fn data len hf
      rw [h2] at h
      have e : a1 = a2 := (Option.some.inj (Prod.mk.inj h).2).symm
      rw [e, hu, hc]
      push_cast
      omega
  | add_fd a a1 fn fd fd1 len c _ h ih =>
    by_cases hf : (a.ftab_used : Int) = a.ftab_entries - 1
    · rw [pso_gsl_write_add_fd_full a fn fd len hf] at h
      have e : a1 = a := (Option.some.inj (Prod.mk.inj (Prod.mk.inj h).2).1).symm
      rw [e]
      exact ih
    · obtain ⟨c2, a2, fd2, h2, hu, hc⟩ := pso_gsl_write_add_fd_used a fn fd len hf
      rw [h2] at h
      have e : a1 = a2 := (Option.some.inj (Prod.mk.inj (Prod.mk.inj h).2).1).symm
      rw [e, hu, hc]
      push_cast
      omega

/-- C13, the code at the failing input. From the fresh big-endian handle of
an empty file, `pso_gsl_write_set_ftab_size(a, 89478485)` returns
`PSOARCHIVE_OK` and leaves capacity 0 with data cursor 0: `89478485 * 48` is
`2^32 - 16`, and the rounding `(x + 0x800) & 0xFFFFF800` drops bit 32. In
that reachable state used = 0 is above capacity - 1 = -1, and the next
`pso_gsl_write_add` is not rejected. -/
theorem gsl_reach_used_above_capacity :
    gsl_write_reach (fun ents => ents < 2 ^ 32) gsl_zero_capacity ∧
    pso_gsl_write_set_ftab_size (some gsl_fresh_be) 89478485 =
      (PSOARCHIVE_OK, some gsl_zero_capacity) ∧
    ¬ ((gsl_zero_capacity.ftab_used : Int) ≤ gsl_zero_capacity.ftab_entries - 1) ∧
    (pso_gsl_write_add (some gsl_zero_capacity) [97] [1] 1).1 = PSOARCHIVE_OK := by
  have h : pso_gsl_write_set_ftab_size (some gsl_fresh_be) 89478485 =
      (PSOARCHIVE_OK, some gsl_zero_capacity) := by decide
  exact ⟨gsl_write_reach.set_ftab_size gsl_fresh_be gsl_zero_capacity 89478485 PSOARCHIVE_OK
    (gsl_write_reach.new_fd ⟨[], 0⟩ PSO_GSL_BIG_ENDIAN gsl_fresh_be rfl) (by decide) h,
    h, by decide, by decide⟩

/-- The part of C13 that holds, and its last part within the 32-bit range of
the table geometry. On a write handle `b` with used = capacity - 1,
`pso_gsl_write_add` and `pso_gsl_write_add_fd` return `PSOARCHIVE_EFATAL` and
leave the handle, with its file, and the source descriptor as they were.
In every state `a` reached from `pso_gsl_new_fd` by calls of
`pso_gsl_write_set_ftab_size` with `max(ents,256)*48 + 2048 < 2^32`, of
`pso_gsl_write_add` and of `pso_gsl_write_add_fd`, used is at most
capacity - 1. -/
theorem gsl_full_table_rejected (a b : pso_gsl_write) (fn data : List Nat) (fd : File)
    (len : Nat) (hfull : (b.ftab_used : Int) = b.ftab_entries - 1)
    (hreach : gsl_write_reach (fun ents => max ents 256 * 48 + 2048 < 2 ^ 32) a) :
    pso_gsl_write_add (some b) fn data len = (PSOARCHIVE_EFATAL, some b) ∧
    pso_gsl_write_add_fd (some b) fn fd len = (PSOARCHIVE_EFATAL, some b, fd) ∧
    (a.ftab_used : Int) ≤ a.ftab_entries - 1 :=
  ⟨pso_gsl_write_add_full b fn data len hfull, pso_gsl_write_add_fd_full b fn fd len hfull,
    gsl_write_reach_used a hreach⟩

/-- The rejection on the default handle with 255 used entries, which is full,
and the bound on the fresh handle of an empty file, which is reachable. -/
theorem gsl_full_table_rejected_witness :
    pso_gsl_write_add (some { gsl_fresh_be with ftab_used := 255 }) [97] [1] 1 =
      (PSOARCHIVE_EFATAL, some { gsl_fresh_be with ftab_used := 255 }) ∧
    pso_gsl_write_add_fd (some { gsl_fresh_be with ftab_used := 255 }) [97] ⟨[1], 0⟩ 1 =
      (PSOARCHIVE_EFATAL, some { gsl_fresh_be with ftab_used := 255 }, ⟨[1], 0⟩) ∧
    ((gsl_fresh_be.ftab_used : Nat) : Int) ≤ gsl_fresh_be.ftab_entries - 1 :=
  gsl_full_table_rejected gsl_fresh_be { gsl_fresh_be with ftab_used := 255 } [97] [1] ⟨[1], 0⟩ 1
    (by decide) (gsl_write_reach.new_fd ⟨[], 0⟩ PSO_GSL_BIG_ENDIAN gsl_fresh_be rfl)

/-! ## C15: the minimum payload length -/

/-- C15. With non-null pointers, a payload of fewer than 11 bytes makes
`pso_prsd_decompress_buf`, `pso_prsd_decompress_buf2` (for every destination
size) and `pso_prsd_decompress_size` return `PSOARCHIVE_EBADMSG`, leaving the
destination as it was. A payload of 11 or more bytes gets past that check:
`pso_prsd_decompress_size` returns the declared length, and the other two go
on to the header, the cipher and the decompressor, whose result decides. -/
theorem prsd_minimum_length (prs : prs_lib) (cxt : prsd_crypt_cxt) (junk src d : List Nat)
    (d0 : Option (List Nat)) (src_len dst_len : Nat) :
    (src_len < 11 →
      pso_prsd_decompress_buf prs cxt junk (some src) (some d0) src_len
        = (PSOARCHIVE_EBADMSG, d0) ∧
      pso_prsd_decompress_buf2 prs cxt junk (some src) (some d) src_len dst_len
        = (PSOARCHIVE_EBADMSG, some d) ∧
      pso_prsd_decompress_size (some src) src_len = PSOARCHIVE_EBADMSG) ∧
    (11 ≤ src_len →
      pso_prsd_decompress_size (some src) src_len
        = toInt32 (le32 (src.getD 0 0) (src.getD 1 0) (src.getD 2 0) (src.getD 3 0)) ∧
      pso_prsd_decompress_buf prs cxt junk (some src) (some d0) src_len
        = (let unc_len := le32 (src.getD 0 0) (src.getD 1 0) (src.getD 2 0) (src.getD 3 0)
           let key := le32 (src.getD 4 0) (src.getD 5 0) (src.getD 6 0) (src.getD 7 0)
           let r := prs.pso_prs_decompress_buf
             (prsd_decrypt_body cxt junk src (src_len - 8) key) (src_len - 8)
           if r.1 < 0 then (r.1, none)
           else if r.1 ≠ toInt32 unc_len then (PSOARCHIVE_EFATAL, none)
           else (r.1, r.2)) ∧
      pso_prsd_decompress_buf2 prs cxt junk (some src) (some d) src_len dst_len
        = (let unc_len := le32 (src.getD 0 0) (src.getD 1 0) (src.getD 2 0) (src.getD 3 0)
           let key := le32 (src.getD 4 0) (src.getD 5 0) (src.getD 6 0) (src.getD 7 0)
           if dst_len < unc_len then (PSOARCHIVE_ENOSPC, some d)
           else
             let r := prs.pso_prs_decompress_buf2
               (prsd_decrypt_body cxt junk src (src_len - 8) key) d (src_len - 8) dst_len
             if r.1 < 0 then (r.1, some r.2)
             else if r.1 ≠ toInt32 unc_len then (PSOARCHIVE_EFATAL, some r.2)
             else (r.1, some r.2))) := by
  constructor
  · intro h
    simp only [pso_prsd_decompress_buf, pso_prsd_decompress_buf2, pso_prsd_decompress_size,
      if_pos h, and_self]
  · intro h
    have h1 : ¬ (src_len < 11) := by omega
    simp only [pso_prsd_decompress_buf, pso_prsd_decompress_buf2, pso_prsd_decompress_size,
      if_neg h1, and_self]

/-- C15 on a 10-byte payload. -/
theorem prsd_minimum_length_witness :
    pso_prsd_decompress_buf toy_prs cxt0 [] (some [4, 0, 0, 0, 1, 2, 3, 4, 9, 9]) (some none) 10
      = (PSOARCHIVE_EBADMSG, none) ∧
    pso_prsd_decompress_buf2 toy_prs cxt0 [] (some [4, 0, 0, 0, 1, 2, 3, 4, 9, 9]) (some [7]) 10 1
      = (PSOARCHIVE_EBADMSG, some [7]) ∧
    pso_prsd_decompress_size (some [4, 0, 0, 0, 1, 2, 3, 4, 9, 9]) 10 = PSOARCHIVE_EBADMSG :=
  (prsd_minimum_length toy_prs cxt0 [] [4, 0, 0, 0, 1, 2, 3, 4, 9, 9] [7] none 10 1).1
    (by decide)

/-! ## C16: out of space is decided from the header -/

/-- C16. For a payload of at least 11 bytes whose declared length (bytes
0-3, little-endian) is above `dst_len`, `pso_prsd_decompress_buf2` returns
`PSOARCHIVE_ENOSPC` and the destination buffer holds what it held before,
whatever the key and payload bytes, the decompressor, the stack context and
the contents of fresh memory are. -/
theorem prsd_out_of_space_from_header (prs : prs_lib) (cxt : prsd_crypt_cxt)
    (junk src d : List Nat) (src_len dst_len : Nat) (h11 : 11 ≤ src_len)
    (hlen : dst_len < le32 (src.getD 0 0) (src.getD 1 0) (src.getD 2 0) (src.getD 3 0)) :
    pso_prsd_decompress_buf2 prs cxt junk (some src) (some d) src_len dst_len
      = (PSOARCHIVE_ENOSPC, some d) := by
  have h1 : ¬ (src_len < 11) := by omega
  simp only [pso_prsd_decompress_buf2, if_neg h1, if_pos hlen]

/-- C16 on an 11-byte payload declaring 5 bytes, with room for 4. -/
theorem prsd_out_of_space_from_header_witness :
    pso_prsd_decompress_buf2 toy_prs cxt0 [] (some [5, 0, 0, 0, 1, 2, 3, 4, 9, 9, 9])
      (some [7, 7, 7, 7]) 11 4 = (PSOARCHIVE_ENOSPC, some [7, 7, 7, 7]) :=
  prsd_out_of_space_from_header toy_prs cxt0 [] [5, 0, 0, 0, 1, 2, 3, 4, 9, 9, 9] [7, 7, 7, 7]
    11 4 (by decide) (by decide)

/-! ## C17: argument validation of the sealing functions -/

/-- C17 as stated fails for a null plaintext pointer: `pso_prsd_compress` and
`pso_prsd_archive` then return `PSOARCHIVE_EFAULT`, which is not
`PSOARCHIVE_EINVAL`. -/
theorem prsd_null_source_is_efault :
    pso_prsd_compress toy_prs cxt0 [] none (some none) 5 0
      = heap_result.ret (PSOARCHIVE_EFAULT, none) ∧
    (pso_prsd_archive 1 (fun _ d _ _ => (0, d)) cxt0 [] none (some none) 5 0)
      = some (PSOARCHIVE_EFAULT, none) ∧
    PSOARCHIVE_EFAULT ≠ PSOARCHIVE_EINVAL := by
  refine ⟨rfl, rfl, by decide⟩

/-- C17 as amended. With non-null `src` and `dst`, `pso_prsd_compress` and
`pso_prsd_archive` return `PSOARCHIVE_EINVAL` when `src_len` is 0 and leave
`*dst` as it was; with a null `src` they return `PSOARCHIVE_EFAULT`, whatever
`src_len` is. -/
theorem prsd_seal_argument_validation (prs : prs_lib)
    (pso_prs_archive2 : List Nat → List Nat → Nat → Nat → Int × List Nat)
    (fuel : Nat) (cxt : prsd_crypt_cxt) (junk src : List Nat) (d0 : Option (List Nat))
    (dst : Option (Option (List Nat))) (src_len key : Nat) :
    (src_len = 0 →
      pso_prsd_compress prs cxt junk (some src) (some d0) src_len key
        = heap_result.ret (PSOARCHIVE_EINVAL, d0) ∧
      pso_prsd_archive fuel pso_prs_archive2 cxt junk (some src) (some d0) src_len key
        = some (PSOARCHIVE_EINVAL, d0)) ∧
    pso_prsd_compress prs cxt junk none dst src_len key
      = heap_result.ret (PSOARCHIVE_EFAULT, dst.join) ∧
    pso_prsd_archive fuel pso_prs_archive2 cxt junk none dst src_len key
      = some (PSOARCHIVE_EFAULT, dst.join) := by
  refine ⟨fun h => ?_, ?_, ?_⟩
  · simp only [pso_prsd_compress, pso_prsd_archive, if_pos h, and_self]
  · cases dst <;> rfl
  · cases dst <;> rfl

/-- C17 as amended, on an empty plaintext. -/
theorem prsd_seal_argument_validation_witness :
    pso_prsd_compress toy_prs cxt0 [] (some []) (some none) 0 7
      = heap_result.ret (PSOARCHIVE_EINVAL, none) ∧
    pso_prsd_archive 0 (fun _ d _ _ => (0, d)) cxt0 [] (some []) (some none) 0 7
      = some (PSOARCHIVE_EINVAL, none) :=
  (prsd_seal_argument_validation toy_prs (fun _ d _ _ => (0, d)) 0 cxt0 [] [] none none 0 7).1 rfl

/-! ## Handles made by `pso_afs_read_open_fd` -/

theorem afs_read_entries_inv (k : Nat) : ∀ (fd : File) (len : Nat) (acc tab : List afs_file)
    (fd1 : File), afs_read_entries k fd len acc = .ok (tab, fd1) →
    tab.length = acc.length + k ∧ fd1.data = fd.data := by
  induction k with
  | zero =>
    intro fd len acc tab fd1 h
    simp only [afs_read_entries, Except.ok.injEq, Prod.mk.injEq] at h
    rw [← h.1, ← h.2]
    exact ⟨rfl, rfl⟩
  | succ k ih =>
    intro fd len acc tab fd1 h
    simp only [afs_read_entries] at h
    split at h
    · cases h
    · split at h
      · cases h
      · have := ih _ _ _ _ _ h
        rw [this.1, this.2, read_snd, List.length_append, List.length_singleton]
        exact ⟨by omega, rfl⟩

theorem afs_open_inv (fd : File) (len flags : Nat) (h : pso_afs_read)
    (hopen : pso_afs_read_open_fd fd len flags = .ok h) :
    h.files.length = h.file_count ∧ h.fd.data = fd.data ∧ h.file_count ≤ 65535 := by
  simp only [pso_afs_read_open_fd] at hopen
  split at hopen
  · cases hopen
  · split at hopen
    · cases hopen
    · split at hopen
      · cases hopen
      · rename_i hc
        split at hopen
        · cases hopen
        · rename_i tab fd1 he
          have := afs_read_entries_inv _ _ _ _ _ _ he
          simp only [Except.ok.injEq] at hopen
          rw [← hopen]
          refine ⟨by simpa using this.1, ?_, Nat.not_lt.mp hc⟩
          show fd1.data = fd.data
          rw [this.2, read_snd]

theorem get?_of_lt {α : Type} (l : List α) (i : Nat) (h : i < l.length) :
    ∃ x, l.get? i = some x :=
  ⟨l.get ⟨i, h⟩, List.get?_eq_get h⟩

/-! ## C18: a blob read is cut to the blob's size -/

/-- C18. Let `h` be a handle made by `pso_afs_read_open_fd` and
`hnd < file_count`. The table holds an entry `f` for `hnd`, and if that entry
lies inside the file then, for every buffer and every `len > 0`,
`pso_afs_file_read` returns `min(f.size, len)` and stores that many file
bytes, taken from offset `f.offset` on, at the start of the buffer; a `len`
above the size is no error. -/
theorem afs_read_truncates (fd : File) (len flags : Nat) (h : pso_afs_read) (hnd n : Nat)
    (b : List Nat) (hopen : pso_afs_read_open_fd fd len flags = .ok h)
    (hh : hnd < h.file_count) (hn : 0 < n) :
    ∃ f, h.files.get? hnd = some f ∧
      (f.offset + f.size ≤ fd.data.length →
        pso_afs_file_read (some h) hnd (some b) n =
          .ret ((min f.size n : Nat) : Int)
            (some (write_at b 0 (bytes_at fd.data f.offset (min f.size n))))) := by
  obtain ⟨hl, hd, _⟩ := afs_open_inv fd len flags h hopen
  obtain ⟨f, hf⟩ := get?_of_lt h.files hnd (by omega)
  refine ⟨f, hf, fun hin => ?_⟩
  have hg : ¬ (hnd > h.file_count ∨ n = 0) := by omega
  have hm : (if f.size < n then f.size else n) = min f.size n := by
    split <;> omega
  simp only [pso_afs_file_read, if_neg hg, hf, hm]
  have hr := read_full (lseek h.fd f.offset) (min f.size n)
    (by show f.offset + min f.size n ≤ h.fd.data.length; rw [hd]; omega)
  have e : (read (lseek h.fd f.offset) (min f.size n)).1
      = bytes_at fd.data f.offset (min f.size n) := by
    apply ext_getD
    · rw [hr.1, length_bytes_at]
    · intro i hi
      rw [hr.1] at hi
      rw [hr.2.2 i hi, getD_bytes_at, if_pos hi]
      show h.fd.data.getD (f.offset + i) 0 = _
      rw [hd]
  have hne : ¬ ((read (lseek h.fd f.offset) (min f.size n)).1.length ≠ min f.size n) := by
    rw [hr.1]
    simp
  rw [if_neg hne, e]

/-- C18 on `afs_small_image`: a read of 10 bytes from the 4-byte blob. -/
theorem afs_read_truncates_witness :
    pso_afs_read_open_fd ⟨afs_small_image, 0⟩ 20 0 = .ok afs_small_handle ∧
    ∃ f, afs_small_handle.files.get? 0 = some f ∧
      (f.offset + f.size ≤ afs_small_image.length →
        pso_afs_file_read (some afs_small_handle) 0 (some [1, 1, 1, 1, 1, 1]) 10 =
          .ret ((min f.size 10 : Nat) : Int)
            (some (write_at [1, 1, 1, 1, 1, 1] 0
              (bytes_at afs_small_image f.offset (min f.size 10))))) :=
  ⟨rfl, afs_read_truncates ⟨afs_small_image, 0⟩ 20 0 afs_small_handle 0 10 [1, 1, 1, 1, 1, 1]
    rfl (by decide) (by decide)⟩

/-! ## C19: placeholder names -/

theorem fmt_05u_bin_lt (n : Nat) (h : n < 100000) :
    fmt_05u_bin n = [48 + n / 10000, 48 + n / 1000 % 10, 48 + n / 100 % 10, 48 + n / 10 % 10,
      48 + n % 10, 46, 98, 105, 110] := by
  unfold fmt_05u_bin
  by_cases h1 : n < 10
  · have e : dec_digits 10 n = [48 + n] := by simp only [dec_digits, if_pos h1]
    have z1 : n / 10000 = 0 := by omega
    have z2 : n / 1000 % 10 = 0 := by omega
    have z3 : n / 100 % 10 = 0 := by omega
    have z4 : n / 10 % 10 = 0 := by omega
    have z5 : n % 10 = n := by omega
    rw [e, z1, z2, z3, z4, z5]
    rfl
  · by_cases h2 : n / 10 < 10
    · have e : dec_digits 10 n = [48 + n / 10, 48 + n % 10] := by
        simp only [dec_digits, if_neg h1, if_pos h2, List.singleton_append]
      have z1 : n / 10000 = 0 := by omega
      have z2 : n / 1000 % 10 = 0 := by omega
      have z3 : n / 100 % 10 = 0 := by omega
      have z4 : n / 10 % 10 = n / 10 := by omega
      rw [e, z1, z2, z3, z4]
      rfl
    · by_cases h3 : n / 10 / 10 < 10
      · have e : dec_digits 10 n = [48 + n / 10 / 10, 48 + n / 10 % 10, 48 + n % 10] := by
          simp only [dec_digits, if_neg h1, if_neg h2, if_pos h3, List.singleton_append,
            List.cons_append, List.nil_append]
        have z1 : n / 10000 = 0 := by omega
        have z2 : n / 1000 % 10 = 0 := by omega
        have z3 : n / 100 % 10 = n / 10 / 10 := by omega
        rw [e, z1, z2, z3]
        rfl
      · by_cases h4 : n / 10 / 10 / 10 < 10
        · have e : dec_digits 10 n =
              [48 + n / 10 / 10 / 10, 48 + n / 10 / 10 % 10, 48 + n / 10 % 10, 48 + n % 10] := by
            simp only [dec_digits, if_neg h1, if_neg h2, if_neg h3, if_pos h4,
              List.singleton_append, List.cons_append, List.nil_append]
          have z1 : n / 10000 = 0 := by omega
          have z2 : n / 1000 % 10 = n / 10 / 10 / 10 := by omega
          have z3 : n / 100 % 10 = n / 10 / 10 % 10 := by omega
          rw [e, z1, z2, z3]
          rfl
        · have h5 : n / 10 / 10 / 10 / 10 < 10 := by omega
          have e : dec_digits 10 n =
              [48 + n / 10 / 10 / 10 / 10, 48 + n / 10 / 10 / 10 % 10, 48 + n / 10 / 10 % 10,
                48 + n / 10 % 10, 48 + n % 10] := by
            simp only [dec_digits, if_neg h1, if_neg h2, if_neg h3, if_neg h4, if_pos h5,
              List.singleton_append, List.cons_append, List.nil_append]
          have z1 : n / 10000 = n / 10 / 10 / 10 / 10 := by omega
          have z2 : n / 1000 % 10 = n / 10 / 10 / 10 % 10 := by omega
          have z3 : n / 100 % 10 = n / 10 / 10 % 10 := by omega
          rw [e, z1, z2, z3]
          rfl

theorem bytes_at_write_at_start (fn l : List Nat) (n : Nat) (h : n ≤ l.length) :
    bytes_at (write_at fn 0 l) 0 n = l.take n := by
  apply ext_getD
  · rw [length_bytes_at, List.length_take]
    omega
  · intro i hi
    rw [length_bytes_at] at hi
    have c : 0 ≤ 0 + i ∧ 0 + i < 0 + l.length := by omega
    rw [getD_bytes_at, if_pos hi, getD_write_at, if_pos c, getD_take, if_pos hi, Nat.sub_zero,
      Nat.zero_add]

theorem pso_afs_file_name_spec (h : pso_afs_read) (hnd : Nat) (fn : List Nat) (n : Nat)
    (hc : h.file_count ≤ 65535) (hh : hnd < h.file_count) (hn : 10 ≤ n) :
    pso_afs_file_name (some h) hnd fn n =
      (PSOARCHIVE_OK, write_at fn 0 [48 + hnd / 10000, 48 + hnd / 1000 % 10,
        48 + hnd / 100 % 10, 48 + hnd / 10 % 10, 48 + hnd % 10, 46, 98, 105, 110, 0]) := by
  have h1 : ¬ (hnd ≥ h.file_count) := by omega
  have h2 : ¬ (n = 0) := by omega
  simp only [pso_afs_file_name, if_neg h1, snprintf_05u_bin, if_neg h2,
    fmt_05u_bin_lt hnd (by omega)]
  have e : List.take (n - 1) [48 + hnd / 10000, 48 + hnd / 1000 % 10, 48 + hnd / 100 % 10,
      48 + hnd / 10 % 10, 48 + hnd % 10, 46, 98, 105, 110] = [48 + hnd / 10000,
      48 + hnd / 1000 % 10, 48 + hnd / 100 % 10, 48 + hnd / 10 % 10, 48 + hnd % 10, 46, 98, 105,
      110] := List.take_of_length_le (by simp only [List.length_cons, List.length_nil]; omega)
  rw [e]
  rfl

/-- C19. Let `h` be a handle made by `pso_afs_read_open_fd`, `hnd <
file_count` and `len >= 10`. Then `pso_afs_file_name` returns
`PSOARCHIVE_OK` and stores at the start of the buffer the five decimal digits
of `hnd` (leading zeros included, since `hnd < 65535`), the four characters
`.bin` and a zero byte. The 9 characters stored for another valid handle
differ from these. -/
theorem afs_placeholder_names (fd : File) (len flags : Nat) (h : pso_afs_read) (hnd n : Nat)
    (fn : List Nat) (hopen : pso_afs_read_open_fd fd len flags = .ok h)
    (hh : hnd < h.file_count) (hn : 10 ≤ n) :
    pso_afs_file_name (some h) hnd fn n =
      (PSOARCHIVE_OK, write_at fn 0 [48 + hnd / 10000, 48 + hnd / 1000 % 10,
        48 + hnd / 100 % 10, 48 + hnd / 10 % 10, 48 + hnd % 10, 46, 98, 105, 110, 0]) ∧
    hnd / 10000 < 10 ∧
    ∀ hnd2 fn2 n2, hnd2 < h.file_count → 10 ≤ n2 → hnd2 ≠ hnd →
      bytes_at (pso_afs_file_name (some h) hnd2 fn2 n2).2 0 9 ≠
        bytes_at (pso_afs_file_name (some h) hnd fn n).2 0 9 := by
  obtain ⟨_, _, hc⟩ := afs_open_inv fd len flags h hopen
  refine ⟨pso_afs_file_name_spec h hnd fn n hc hh hn, by omega, ?_⟩
  intro hnd2 fn2 n2 hh2 hn2 hne heq
  rw [pso_afs_file_name_spec h hnd fn n hc hh hn,
    pso_afs_file_name_spec h hnd2 fn2 n2 hc hh2 hn2] at heq
  simp only [] at heq
  rw [bytes_at_write_at_start _ _ 9 (by simp only [List.length_cons, List.length_nil]; omega),
    bytes_at_write_at_start _ _ 9 (by simp only [List.length_cons, List.length_nil]; omega)]
    at heq
  simp only [List.take_succ_cons, List.take_zero, List.cons.injEq, and_true] at heq
  omega

/-- C19 on the one-entry archive `afs_small_image`: handle 0 is named
`00000.bin`. -/
theorem afs_placeholder_names_witness :
    pso_afs_read_open_fd ⟨afs_small_image, 0⟩ 20 0 = .ok afs_small_handle ∧
    pso_afs_file_name (some afs_small_handle) 0 (List.replicate 12 1) 12 =
      (PSOARCHIVE_OK, write_at (List.replicate 12 1) 0 [48 + 0 / 10000, 48 + 0 / 1000 % 10,
        48 + 0 / 100 % 10, 48 + 0 / 10 % 10, 48 + 0 % 10, 46, 98, 105, 110, 0]) :=
  ⟨rfl, (afs_placeholder_names ⟨afs_small_image, 0⟩ 20 0 afs_small_handle 0 12
    (List.replicate 12 1) rfl (by decide) (by decide)).1⟩

/-! ## Handles made by `pso_gsl_read_open_fd` -/

theorem gsl_read_entries_inv (fuel : Nat) : ∀ (i maxfiles : Nat) (fd : File) (len flags : Nat)
    (files files1 : List gsl_file) (i1 : Nat) (fd1 : File),
    gsl_read_entries fuel i maxfiles fd len flags files = .ok (files1, i1, fd1) →
    files1.length + i = files.length + i1 ∧ i1 ≤ max i maxfiles := by
  induction fuel with
  | zero =>
    intro i maxfiles fd len flags files files1 i1 fd1 h
    simp only [gsl_read_entries, Except.ok.injEq, Prod.mk.injEq] at h
    rw [← h.1, ← h.2.1]
    omega
  | succ fuel ih =>
    intro i maxfiles fd len flags files files1 i1 fd1 h
    simp only [gsl_read_entries] at h
    split at h
    · split at h
      · cases h
      · split at h
        · simp only [Except.ok.injEq, Prod.mk.injEq] at h
          rw [← h.1, ← h.2.1]
          omega
        · by_cases c4 : flags &&& PSO_GSL_BIG_ENDIAN ≠ 0
          · simp only [if_pos c4] at h
            split at h
            · cases h
            · have := ih _ _ _ _ _ _ _ _ _ h
              rw [List.length_append, List.length_singleton] at this
              omega
          · simp only [if_neg c4] at h
            split at h
            · cases h
            · have := ih _ _ _ _ _ _ _ _ _ h
              rw [List.length_append, List.length_singleton] at this
              omega
    · simp only [Except.ok.injEq, Prod.mk.injEq] at h
      rw [← h.1, ← h.2.1]
      omega

theorem gsl_open_inv (fd : File) (len flags : Nat) (h : pso_gsl_read)
    (hopen : pso_gsl_read_open_fd fd len flags = .ok h) :
    h.files.length = h.file_count ∧ h.file_count < 2 ^ 32 := by
  simp only [pso_gsl_read_open_fd] at hopen
  split at hopen
  · cases hopen
  · split at hopen
    · cases hopen
    · split at hopen
      · cases hopen
      · rename_i offset size flags1 _
        split at hopen
        · cases hopen
        · rename_i files i fd1 he
          have := gsl_read_entries_inv _ _ _ _ _ _ _ _ _ _ he
          simp only [Except.ok.injEq] at hopen
          rw [← hopen]
          rw [List.length_singleton] at this
          have hm : offset * 2048 % 2 ^ 32 / 48 < 2 ^ 32 := by omega
          show files.length = i ∧ i < 2 ^ 32
          omega

/-! ## C20: name lookup -/

theorem strncmp_self (n : Nat) : ∀ s : List Nat, strncmp s s n = 0 := by
  induction n with
  | zero => intro s; rfl
  | succ n ih =>
    intro s
    simp only [strncmp, ne_eq, not_true_eq_false, if_false]
    split
    · rfl
    · exact ih _

theorem gsl_lookup_loop_invalid (fuel : Nat) : ∀ (a : pso_gsl_read) (fn : List Nat) (i : Nat),
    (∀ j f, i ≤ j → j < a.file_count → a.files.get? j = some f → strncmp fn f.filename 32 ≠ 0) →
    gsl_lookup_loop fuel a fn i = PSOARCHIVE_HND_INVALID := by
  induction fuel with
  | zero => intro a fn i _; rfl
  | succ fuel ih =>
    intro a fn i hno
    simp only [gsl_lookup_loop]
    split
    · rename_i hi
      split
      · rfl
      · rename_i f hf
        rw [if_neg (hno i f (Nat.le_refl i) hi hf)]
        exact ih a fn (i + 1) (fun j g hj => hno j g (by omega))
    · rfl

theorem gsl_lookup_loop_first (fuel : Nat) : ∀ (a : pso_gsl_read) (fn : List Nat) (i k : Nat)
    (f : gsl_file), a.files.length = a.file_count → k < i + fuel → i ≤ k → k < a.file_count →
    a.files.get? k = some f → strncmp fn f.filename 32 = 0 →
    (∀ j g, i ≤ j → j < k → a.files.get? j = some g → strncmp fn g.filename 32 ≠ 0) →
    gsl_lookup_loop fuel a fn i = k := by
  induction fuel with
  | zero => intro a fn i k f _ h1 h2; omega
  | succ fuel ih =>
    intro a fn i k f hl hk hik hkc hf hm hno
    have hi : i < a.file_count := by omega
    obtain ⟨g, hg⟩ := get?_of_lt a.files i (by omega)
    simp only [gsl_lookup_loop, if_pos hi, hg]
    by_cases hgm : strncmp fn g.filename 32 = 0
    · rw [if_pos hgm]
      by_cases e : i = k
      · exact e
      · exact absurd hgm (hno i g (Nat.le_refl i) (by omega) hg)
    · rw [if_neg hgm]
      have e : i ≠ k := by
        intro e
        rw [e, hf] at hg
        cases hg
        exact hgm hm
      exact ih a fn (i + 1) k f hl (by omega) (by omega) hkc hf hm
        (fun j g2 hj hjk => hno j g2 (by omega) hjk)

theorem exists_first_match (p : Nat → Prop) [DecidablePred p] (i : Nat) (h : p i) :
    ∃ j, j ≤ i ∧ p j ∧ ∀ m, m < j → ¬ p m :=
  ⟨Nat.find ⟨i, h⟩, Nat.find_min' _ h, Nat.find_spec ⟨i, h⟩, fun _ hm => Nat.find_min _ hm⟩

/-- C20. Let `h` be a handle made by `pso_gsl_read_open_fd` and `fn` a
non-null name. Every index below `file_count` has a table entry.
`pso_gsl_file_lookup` returns the smallest index whose 32-byte name field
compares equal to `fn` under `strncmp` limited to 32 bytes; it returns
`PSOARCHIVE_HND_INVALID` exactly when no entry compares equal; and looking up
the name field of entry `i` returns some `j <= i` whose name field compares
equal to it. -/
theorem gsl_lookup_first_match (fd : File) (len flags : Nat) (h : pso_gsl_read) (fn : List Nat)
    (hopen : pso_gsl_read_open_fd fd len flags = .ok h) :
    (∀ i, i < h.file_count → ∃ f, h.files.get? i = some f) ∧
    (∀ i f, i < h.file_count → h.files.get? i = some f → strncmp fn f.filename 32 = 0 →
      (∀ j g, j < i → h.files.get? j = some g → strncmp fn g.filename 32 ≠ 0) →
      pso_gsl_file_lookup (some h) (some fn) = i) ∧
    (pso_gsl_file_lookup (some h) (some fn) = PSOARCHIVE_HND_INVALID ↔
      ∀ i f, i < h.file_count → h.files.get? i = some f → strncmp fn f.filename 32 ≠ 0) ∧
    (∀ i f, i < h.file_count → h.files.get? i = some f →
      ∃ j g, j ≤ i ∧ pso_gsl_file_lookup (some h) (some f.filename) = j ∧
        h.files.get? j = some g ∧ strncmp f.filename g.filename 32 = 0) := by
  obtain ⟨hl, hc⟩ := gsl_open_inv fd len flags h hopen
  have hfirst : ∀ (nm : List Nat) (i : Nat) (f : gsl_file), i < h.file_count →
      h.files.get? i = some f → strncmp nm f.filename 32 = 0 →
      (∀ j g, j < i → h.files.get? j = some g → strncmp nm g.filename 32 ≠ 0) →
      pso_gsl_file_lookup (some h) (some nm) = i := by
    intro nm i f hi hf hm hno
    exact gsl_lookup_loop_first h.file_count h nm 0 i f hl (by omega) (Nat.zero_le i) hi hf hm
      (fun j g _ hj => hno j g hj)
  have hsome : ∀ (nm : List Nat) (i : Nat) (f : gsl_file), i < h.file_count →
      h.files.get? i = some f → strncmp nm f.filename 32 = 0 →
      ∃ j g, j ≤ i ∧ pso_gsl_file_lookup (some h) (some nm) = j ∧
        h.files.get? j = some g ∧ strncmp nm g.filename 32 = 0 := by
    intro nm i f hi hf hm
    haveI := Classical.decPred
      (fun j => ∃ g, h.files.get? j = some g ∧ strncmp nm g.filename 32 = 0)
    obtain ⟨j, hji, ⟨g, hg, hgm⟩, hmin⟩ := exists_first_match
      (fun j => ∃ g, h.files.get? j = some g ∧ strncmp nm g.filename 32 = 0) i ⟨f, hf, hm⟩
    refine ⟨j, g, hji, hfirst nm j g (by omega) hg hgm ?_, hg, hgm⟩
    intro m g2 hmj hg2 hm2
    exact hmin m hmj ⟨g2, hg2, hm2⟩
  refine ⟨fun i hi => get?_of_lt h.files i (by omega), hfirst fn, ⟨?_, ?_⟩, ?_⟩
  · intro hinv i f hi hf hm
    obtain ⟨j, g, hji, hj, _, _⟩ := hsome fn i f hi hf hm
    rw [hinv] at hj
    have : PSOARCHIVE_HND_INVALID = 2 ^ 32 - 1 := rfl
    omega
  · intro hno
    exact gsl_lookup_loop_invalid h.file_count h fn 0 (fun j f _ hj hf => hno j f hj hf)
  · intro i f hi hf
    exact hsome f.filename i f hi hf (strncmp_self 32 f.filename)

/-- C20 on `gsl_le_two_image`: the name `b` is found at index 1. -/
theorem gsl_lookup_first_match_witness :
    pso_gsl_read_open_fd ⟨gsl_le_two_image, 0⟩ 6144 PSO_GSL_LITTLE_ENDIAN = .ok gsl_le_two_handle ∧
    pso_gsl_file_lookup (some gsl_le_two_handle) (some [98]) = 1 :=
  ⟨rfl, (gsl_lookup_first_match ⟨gsl_le_two_image, 0⟩ 6144 PSO_GSL_LITTLE_ENDIAN
    gsl_le_two_handle [98] rfl).2.1 1 { filename := strncpy [98] 32, offset := 4096, size := 1 }
    (by decide) rfl (by decide)
    (fun j g hj hg => by
      have e : j = 0 := by omega
      subst e
      cases hg
      decide)⟩

/-! ## C21: the size-only query -/

/-- C21 as stated fails for a declared length of `2^31` or more: on an
11-byte payload whose bytes 0-3 are all `0xFF`, `pso_prsd_decompress_size`
returns `-1`, not the unsigned value 4294967295. -/
theorem prsd_size_of_large_length_is_negative :
    pso_prsd_decompress_size (some [0xFF, 0xFF, 0xFF, 0xFF, 0, 0, 0, 0, 0, 0, 0]) 11 = -1 ∧
    le32 0xFF 0xFF 0xFF 0xFF = 4294967295 ∧ (-1 : Int) ≠ 4294967295 := by
  refine ⟨by decide, by decide, by decide⟩

/-- C21 as amended. For every input of at least 11 bytes,
`pso_prsd_decompress_size` returns the declared length (the little-endian
value of bytes 0-3) converted to `int`: the value itself when it is below
`2^31`, the value minus `2^32` otherwise. The result is the same for any
other input of at least 11 bytes with the same bytes 0-3. -/
theorem prsd_size_query (src src2 : List Nat) (src_len len2 : Nat) (h : 11 ≤ src_len)
    (h2 : 11 ≤ len2) (hsame : ∀ i, i < 4 → src2.getD i 0 = src.getD i 0) :
    (le32 (src.getD 0 0) (src.getD 1 0) (src.getD 2 0) (src.getD 3 0) < 2 ^ 31 →
      pso_prsd_decompress_size (some src) src_len
        = (le32 (src.getD 0 0) (src.getD 1 0) (src.getD 2 0) (src.getD 3 0) : Int)) ∧
    (2 ^ 31 ≤ le32 (src.getD 0 0) (src.getD 1 0) (src.getD 2 0) (src.getD 3 0) →
      pso_prsd_decompress_size (some src) src_len
        = (le32 (src.getD 0 0) (src.getD 1 0) (src.getD 2 0) (src.getD 3 0) : Int) - 2 ^ 32) ∧
    pso_prsd_decompress_size (some src2) len2 = pso_prsd_decompress_size (some src) src_len := by
  have h1 : ¬ (src_len < 11) := by omega
  have h3 : ¬ (len2 < 11) := by omega
  have hl := le32_lt (src.getD 0 0) (src.getD 1 0) (src.getD 2 0) (src.getD 3 0)
  simp only [pso_prsd_decompress_size, if_neg h1, if_neg h3, hsame 0 (by omega),
    hsame 1 (by omega), hsame 2 (by omega), hsame 3 (by omega), and_true]
  generalize le32 (src.getD 0 0) (src.getD 1 0) (src.getD 2 0) (src.getD 3 0) = u at hl ⊢
  have e : u % 2 ^ 32 = u := Nat.mod_eq_of_lt hl
  unfold toInt32
  rw [e]
  constructor
  · intro hu
    rw [if_pos hu]
  · intro hu
    rw [if_neg (by omega)]

/-- C21 as amended, on two 11-byte payloads declaring 5 bytes. -/
theorem prsd_size_query_witness :
    pso_prsd_decompress_size (some [5, 0, 0, 0, 9, 9, 9, 9, 9, 9, 9]) 11
      = pso_prsd_decompress_size (some [5, 0, 0, 0, 1, 2, 3, 4, 5, 6, 7]) 11 :=
  (prsd_size_query [5, 0, 0, 0, 1, 2, 3, 4, 5, 6, 7] [5, 0, 0, 0, 9, 9, 9, 9, 9, 9, 9] 11 11
    (by decide) (by decide) (by decide)).2.2

/-! ## C23: a failed `open` -/

/-- C23, the code at the failing input. When `open` has returned `-1` and no
descriptor is open, `pso_afs_read_open` and `pso_gsl_read_open` report
`PSOARCHIVE_EIO`, not `PSOARCHIVE_EFILE`: the test `!(fd = open(..))` is only
true for descriptor 0, so the failure is first noticed by `lseek`. When
`open` returns the valid descriptor 0 they report `PSOARCHIVE_EFILE`. -/
theorem read_open_failure_is_eio (flags : Nat) (f : File) :
    pso_afs_read_open (-1) (fun _ => none) flags = .error PSOARCHIVE_EIO ∧
    pso_gsl_read_open (-1) (fun _ => none) flags = .error PSOARCHIVE_EIO ∧
    PSOARCHIVE_EIO ≠ PSOARCHIVE_EFILE ∧
    pso_afs_read_open 0 (fun _ => some f) flags = .error PSOARCHIVE_EFILE ∧
    pso_gsl_read_open 0 (fun _ => some f) flags = .error PSOARCHIVE_EFILE :=
  ⟨rfl, rfl, by decide, rfl, rfl⟩

/-! ## C30: the handle check of `pso_gsl_file_read` -/

/-- C30, the code at the failing input. On the two-entry archive
`gsl_le_two_image`, `pso_gsl_file_size` and `pso_gsl_file_name` reject the
handle 2, which equals `file_count`, but `pso_gsl_file_read` does not: its
check is `hnd > a->file_count`, and it goes on to index the entry table at
position 2, past its last entry. -/
theorem gsl_file_read_accepts_file_count :
    pso_gsl_read_open_fd ⟨gsl_le_two_image, 0⟩ 6144 PSO_GSL_LITTLE_ENDIAN
      = .ok gsl_le_two_handle ∧
    gsl_le_two_handle.file_count = 2 ∧
    pso_gsl_file_size (some gsl_le_two_handle) 2 = -1 ∧
    (pso_gsl_file_name (some gsl_le_two_handle) 2 [7] 1 []).1 = PSOARCHIVE_EFATAL ∧
    pso_gsl_file_read (some gsl_le_two_handle) 2 (some [7]) 1 = .table_overrun 2 ∧
    pso_gsl_file_read (some gsl_le_two_handle) 3 (some [7]) 1 = .ret (-1) (some [7]) :=
  ⟨rfl, rfl, by decide, by decide, by decide, by decide⟩

/-! ## C24: the length of the key schedule -/

theorem crypt_init_loop_fold (fuel : Nat) : ∀ (i key tmp : Nat) (s : List Nat),
    crypt_init_loop fuel i key tmp s
      = (crypt_init_counters fuel i).foldl crypt_init_body (key, tmp, s) := by
  induction fuel with
  | zero => intro i key tmp s; rfl
  | succ fuel ih =>
    intro i key tmp s
    simp only [crypt_init_loop, crypt_init_counters]
    split
    · rw [ih, List.foldl_cons]
      rfl
    · rfl

set_option maxRecDepth 100000 in
theorem crypt_init_counters_eq :
    crypt_init_counters 0x46E 0x15 = (List.range 54).map (fun k => 21 * (k + 1)) := by
  decide

set_option maxRecDepth 100000 in
/-- C24 as stated fails: the seeding loop `for(i = 0x15; i <= 0x46E; i +=
0x15)` runs its body for 54 counter values, not 70, and the 54 slots it
writes are all different, so no slot is written twice. -/
theorem crypt_init_runs_54_times :
    (crypt_init_counters 0x46E 0x15).length = 54 ∧
    (crypt_init_counters 0x46E 0x15).length ≠ 70 ∧
    ((crypt_init_counters 0x46E 0x15).map (fun i => i % 55)).Nodup := by
  decide

set_option maxRecDepth 100000 in
/-- C24 as amended. The seeding loop of `pso_prsd_crypt_init` executes
exactly 54 iterations, for the counter values 21, 42, .., 1134; each writes
the slot whose index is the counter mod 55; these indices are different from
one another and are exactly the slots 1..54, so each of them is written once
(slot 55 is set to the key before the loop, slot 0 is not written). -/
theorem crypt_init_schedule (key tmp : Nat) (s : List Nat) :
    crypt_init_loop 0x46E 0x15 key tmp s
      = ((List.range 54).map (fun k => 21 * (k + 1))).foldl crypt_init_body (key, tmp, s) ∧
    (∀ st i, (crypt_init_body st i).2.2 = st.2.2.set (i % 55) st.2.1) ∧
    (((List.range 54).map (fun k => 21 * (k + 1))).map (fun i => i % 55)).Nodup ∧
    (∀ j, j ∈ ((List.range 54).map (fun k => 21 * (k + 1))).map (fun i => i % 55) ↔
      1 ≤ j ∧ j ≤ 54) ∧
    crypt_init_written 0x46E 0x15
      = (((List.range 54).map (fun k => 21 * (k + 1))).map (fun i => i % 55)).reverse := by
  refine ⟨?_, fun _ _ => rfl, by decide, ?_, by decide⟩
  · rw [crypt_init_loop_fold, crypt_init_counters_eq]
  · intro j
    constructor
    · intro h
      revert j
      decide
    · intro h
      obtain ⟨h1, h2⟩ := h
      interval_cases j <;> decide

/-! ## C25: the mix pass -/

theorem sub32_eq_int (a b : Nat) : sub32 a b = (((a : Int) - (b : Int)) % 2 ^ 32).toNat := by
  unfold sub32
  omega

theorem mix_loop1_fold (n : Nat) : ∀ (p : Nat) (s : List Nat),
    mix_loop1 n p s = (List.range' p n).foldl
      (fun t i => t.set i ((((t.getD i 0 : Int) - (t.getD (i + 31) 0 : Int)) % 2 ^ 32).toNat))
      s := by
  induction n with
  | zero => intro p s; rfl
  | succ n ih =>
    intro p s
    rw [List.range'_succ, List.foldl_cons, ← sub32_eq_int, ← ih]
    rfl

theorem mix_loop2_fold (n : Nat) : ∀ (p : Nat) (s : List Nat),
    mix_loop2 n p s = (List.range' p n).foldl
      (fun t i => t.set i ((((t.getD i 0 : Int) - (t.getD (i - 24) 0 : Int)) % 2 ^ 32).toNat))
      s := by
  induction n with
  | zero => intro p s; rfl
  | succ n ih =>
    intro p s
    rw [List.range'_succ, List.foldl_cons, ← sub32_eq_int, ← ih]
    rfl

theorem mix_loop1_zero (n : Nat) : ∀ (p : Nat) (s : List Nat), 1 ≤ p →
    (mix_loop1 n p s).getD 0 0 = s.getD 0 0 ∧ (mix_loop1 n p s).length = s.length := by
  induction n with
  | zero => intro p s _; exact ⟨rfl, rfl⟩
  | succ n ih =>
    intro p s hp
    simp only [mix_loop1]
    have := ih (p + 1) (s.set p (sub32 (s.getD p 0) (s.getD (p + 31) 0))) (by omega)
    rw [this.1, this.2, getD_set, if_neg (by omega), List.length_set]
    exact ⟨rfl, rfl⟩

theorem mix_loop2_zero (n : Nat) : ∀ (p : Nat) (s : List Nat), 1 ≤ p →
    (mix_loop2 n p s).getD 0 0 = s.getD 0 0 ∧ (mix_loop2 n p s).length = s.length := by
  induction n with
  | zero => intro p s _; exact ⟨rfl, rfl⟩
  | succ n ih =>
    intro p s hp
    simp only [mix_loop2]
    have := ih (p + 1) (s.set p (sub32 (s.getD p 0) (s.getD (p - 24) 0))) (by omega)
    rw [this.1, this.2, getD_set, if_neg (by omega), List.length_set]
    exact ⟨rfl, rfl⟩

/-- C25. For every state, `mix_stream` equals the in-place update that sets
`state[i] := state[i] - state[i+31] (mod 2^32)` for `i = 1..24` in increasing
order and then `state[i] := state[i] - state[i-24] (mod 2^32)` for `i =
25..55` in increasing order, each step working on the state the previous step
left. Every index read or written lies in 1..55; slot 0, the key, the cursor
and the number of slots are unchanged, and two states that agree on slots
1..55 are mixed to states that agree on slots 1..55. -/
theorem mix_stream_sequential (cxt : prsd_crypt_cxt) :
    (mix_stream cxt).stream = mix_stream_steps cxt.stream ∧
    (∀ i ∈ List.range' 1 24, 1 ≤ i ∧ i ≤ 55 ∧ 1 ≤ i + 31 ∧ i + 31 ≤ 55) ∧
    (∀ i ∈ List.range' 25 31, 1 ≤ i ∧ i ≤ 55 ∧ 1 ≤ i - 24 ∧ i - 24 ≤ 55) ∧
    (mix_stream cxt).stream.getD 0 0 = cxt.stream.getD 0 0 ∧
    (mix_stream cxt).stream.length = cxt.stream.length ∧
    (mix_stream cxt).key = cxt.key ∧ (mix_stream cxt).pos = cxt.pos ∧
    (∀ c2 : prsd_crypt_cxt, stream_agree cxt.stream c2.stream →
      stream_agree (mix_stream cxt).stream (mix_stream c2).stream) := by
  refine ⟨?_, ?_, ?_, ?_, ?_, by simp only [mix_stream], by simp only [mix_stream],
    fun c2 h => mix_stream_agree cxt c2 h⟩
  · simp only [mix_stream, mix_stream_steps]
    rw [mix_loop2_fold, mix_loop1_fold]
  · intro i hi
    rw [List.mem_range'_1] at hi
    omega
  · intro i hi
    rw [List.mem_range'_1] at hi
    omega
  · simp only [mix_stream]
    rw [(mix_loop2_zero 31 25 _ (by omega)).1, (mix_loop1_zero 24 1 _ (by omega)).1]
  · simp only [mix_stream]
    rw [(mix_loop2_zero 31 25 _ (by omega)).2, (mix_loop1_zero 24 1 _ (by omega)).2]

/-- C25 on the all-zero state and on a state that differs from it in slot 0
only. -/
theorem mix_stream_sequential_witness :
    stream_agree cxt0.stream ({ cxt0 with stream := cxt0.stream.set 0 7 } : prsd_crypt_cxt).stream ∧
    stream_agree (mix_stream cxt0).stream
      (mix_stream { cxt0 with stream := cxt0.stream.set 0 7 }).stream :=
  ⟨⟨rfl, rfl, fun i h1 _ => by rw [getD_set, if_neg (by omega)]⟩,
    (mix_stream_sequential cxt0).2.2.2.2.2.2.2 _
      ⟨rfl, rfl, fun i h1 _ => by rw [getD_set, if_neg (by omega)]⟩⟩

/-! ## C26: the keystream in terms of mix passes -/

theorem mix_stream_key (c : prsd_crypt_cxt) : (mix_stream c).key = c.key := by
  simp only [mix_stream]

theorem mix_stream_pos (c : prsd_crypt_cxt) : (mix_stream c).pos = c.pos := by
  simp only [mix_stream]

theorem mix_stream_stream_congr (a b : prsd_crypt_cxt) (h : a.stream = b.stream) :
    (mix_stream a).stream = (mix_stream b).stream := by
  simp only [mix_stream, h]

theorem crypt_next_56 (c : prsd_crypt_cxt) (h : c.pos = 56) :
    (crypt_next c).1 = { stream := (mix_stream c).stream, key := c.key, pos := 2 } ∧
    (crypt_next c).2 = (mix_stream c).stream.getD 1 0 := by
  unfold crypt_next
  rw [if_pos h]
  have hk := mix_stream_key c
  generalize mix_stream c = m at hk ⊢
  refine ⟨?_, rfl⟩
  show ({ stream := m.stream, key := m.key, pos := (1 + 1) % 2 ^ 32 } : prsd_crypt_cxt) = _
  rw [hk]
  rfl

theorem crypt_next_lt (c : prsd_crypt_cxt) (h : c.pos ≠ 56) (h2 : c.pos + 1 < 2 ^ 32) :
    (crypt_next c).1 = { stream := c.stream, key := c.key, pos := c.pos + 1 } ∧
    (crypt_next c).2 = c.stream.getD c.pos 0 := by
  unfold crypt_next
  rw [if_neg h]
  refine ⟨?_, rfl⟩
  show ({ c with pos := (c.pos + 1) % 2 ^ 32 } : prsd_crypt_cxt) = _
  rw [Nat.mod_eq_of_lt h2]

theorem crypt_dwords_succ (c : prsd_crypt_cxt) (n : Nat) :
    crypt_dwords c (n + 1) = (crypt_next (crypt_dwords c n)).1 := rfl

theorem crypt_dwords_eq (c : prsd_crypt_cxt) (h2 : 2 ≤ c.pos) (h56 : c.pos ≤ 56) (n : Nat) :
    crypt_dwords c n = { stream := (mix_n ((c.pos - 2 + n) / 55) c).stream, key := c.key,
                         pos := 2 + (c.pos - 2 + n) % 55 } := by
  induction n with
  | zero =>
    have e1 : (c.pos - 2 + 0) / 55 = 0 := by omega
    have e2 : 2 + (c.pos - 2 + 0) % 55 = c.pos := by omega
    rw [e1, e2]
    rfl
  | succ n ih =>
    rw [crypt_dwords_succ, ih]
    generalize hq : (c.pos - 2 + n) / 55 = q
    by_cases hw : (c.pos - 2 + n) % 55 = 54
    · have e0 : 2 + (c.pos - 2 + n) % 55 = 56 := by omega
      have e1 : (c.pos - 2 + (n + 1)) / 55 = q + 1 := by omega
      have e2 : 2 + (c.pos - 2 + (n + 1)) % 55 = 2 := by omega
      rw [e0, e1, e2, (crypt_next_56 _ rfl).1]
      have e3 : (mix_n (q + 1) c).stream = (mix_stream (mix_n q c)).stream := rfl
      rw [e3]
      generalize mix_n q c = M
      rw [mix_stream_stream_congr { stream := M.stream, key := c.key, pos := 56 } M rfl]
    · have e0 : (c.pos - 2 + n) % 55 < 54 := by omega
      have e1 : (c.pos - 2 + (n + 1)) / 55 = q := by omega
      have e2 : 2 + (c.pos - 2 + (n + 1)) % 55 = 2 + (c.pos - 2 + n) % 55 + 1 := by omega
      rw [e1, e2]
      generalize (mix_n q c).stream = S
      exact (crypt_next_lt { stream := S, key := c.key, pos := 2 + (c.pos - 2 + n) % 55 }
        (Nat.ne_of_lt (Nat.add_lt_add_left e0 2))
        (Nat.lt_trans (Nat.add_lt_add_right (Nat.add_lt_add_left e0 2) 1) (by decide))).1

theorem mix_n_stream_congr (n : Nat) (a b : prsd_crypt_cxt) (h : a.stream = b.stream) :
    (mix_n n a).stream = (mix_n n b).stream := by
  induction n with
  | zero => exact h
  | succ n ih => exact mix_stream_stream_congr _ _ ih

theorem mix_n_add (a b : Nat) (c : prsd_crypt_cxt) : mix_n a (mix_n b c) = mix_n (a + b) c := by
  induction a with
  | zero => rw [Nat.zero_add]; rfl
  | succ a ih =>
    rw [Nat.succ_add]
    show mix_stream (mix_n a (mix_n b c)) = mix_stream (mix_n (a + b) c)
    rw [ih]

theorem pso_prsd_crypt_init_eq (cxt : prsd_crypt_cxt) (key : Nat) :
    pso_prsd_crypt_init cxt key = { mix_n 4 (crypt_scheduled cxt key) with pos := 56 } := by
  simp only [pso_prsd_crypt_init, crypt_scheduled, mix_n]

theorem crypt_dwords_shift (n : Nat) : ∀ c : prsd_crypt_cxt,
    crypt_dwords (crypt_next c).1 n = crypt_dwords c (n + 1) := by
  induction n with
  | zero => intro c; rfl
  | succ n ih =>
    intro c
    rw [crypt_dwords_succ, ih, crypt_dwords_succ c (n + 1)]

theorem keystream_word_eq (n : Nat) : ∀ c : prsd_crypt_cxt,
    keystream_word c n = (crypt_next (crypt_dwords c n)).2 := by
  induction n with
  | zero => intro c; rfl
  | succ n ih =>
    intro c
    show keystream_word (crypt_next c).1 n = _
    rw [ih, crypt_dwords_shift]

theorem crypt_next_word (c : prsd_crypt_cxt) (key n : Nat) :
    (crypt_next (crypt_dwords (pso_prsd_crypt_init c key) n)).2
      = (mix_n (5 + n / 55) (crypt_scheduled c key)).stream.getD (1 + n % 55) 0 := by
  have hp := pso_prsd_crypt_init_pos c key
  have hi : (pso_prsd_crypt_init c key).stream = (mix_n 4 (crypt_scheduled c key)).stream := by
    rw [pso_prsd_crypt_init_eq]
  generalize crypt_scheduled c key = sc at hi ⊢
  generalize pso_prsd_crypt_init c key = c0 at hp hi ⊢
  have h2 : 2 ≤ c0.pos := by omega
  have h56 : c0.pos ≤ 56 := by omega
  rw [crypt_dwords_eq c0 h2 h56, hp]
  have hs : ∀ q, (mix_n q c0).stream = (mix_n (q + 4) sc).stream := by
    intro q
    rw [← mix_n_add]
    exact mix_n_stream_congr q _ _ hi
  rw [hs]
  generalize hq : (56 - 2 + n) / 55 = q
  by_cases hw : (56 - 2 + n) % 55 = 54
  · have e0 : 2 + (56 - 2 + n) % 55 = 56 := by omega
    have e1 : 5 + n / 55 = (q + 4) + 1 := by omega
    have e2 : 1 + n % 55 = 1 := by omega
    rw [e0, e1, e2, (crypt_next_56 _ rfl).2]
    have e3 : (mix_n (q + 4 + 1) sc).stream = (mix_stream (mix_n (q + 4) sc)).stream := rfl
    rw [e3]
    generalize mix_n (q + 4) sc = M
    rw [mix_stream_stream_congr { stream := M.stream, key := c0.key, pos := 56 } M rfl]
  · have e0 : (56 - 2 + n) % 55 < 54 := by omega
    have e1 : 5 + n / 55 = q + 4 := by omega
    have e2 : 1 + n % 55 = 2 + (56 - 2 + n) % 55 := by omega
    rw [e1, e2]
    generalize (mix_n (q + 4) sc).stream = S
    exact (crypt_next_lt { stream := S, key := c0.key, pos := 2 + (56 - 2 + n) % 55 }
      (Nat.ne_of_lt (Nat.add_lt_add_left e0 2))
      (Nat.lt_trans (Nat.add_lt_add_right (Nat.add_lt_add_left e0 2) 1) (by decide))).2

/-- C26. After `pso_prsd_crypt_init(cxt, key)`, whatever the context held
before, the word that the `n`-th call of `crypt_dword` (counting from 0) XORs
into its data is slot `1 + n mod 55` of the state obtained from the
key-scheduled state by `5 + n / 55` calls of `mix_stream`: four of them are
made by `pso_prsd_crypt_init`, which leaves the cursor at 56. The contexts
before and after every call have their cursor within 1..56. -/
theorem keystream_reference (cxt : prsd_crypt_cxt) (key n x : Nat) :
    crypt_dword (crypt_dwords (pso_prsd_crypt_init cxt key) n) x
      = (crypt_dwords (pso_prsd_crypt_init cxt key) (n + 1),
         (x ^^^ (mix_n (5 + n / 55) (crypt_scheduled cxt key)).stream.getD (1 + n % 55) 0)
           % 2 ^ 32) ∧
    keystream_word (pso_prsd_crypt_init cxt key) n
      = (mix_n (5 + n / 55) (crypt_scheduled cxt key)).stream.getD (1 + n % 55) 0 ∧
    pso_prsd_crypt_init cxt key = { mix_n 4 (crypt_scheduled cxt key) with pos := 56 } ∧
    1 ≤ (crypt_dwords (pso_prsd_crypt_init cxt key) n).pos ∧
    (crypt_dwords (pso_prsd_crypt_init cxt key) n).pos ≤ 56 := by
  have hp := pso_prsd_crypt_init_pos cxt key
  have hd := crypt_dwords_eq (pso_prsd_crypt_init cxt key) (Nat.le_of_lt_succ (by rw [hp]; decide))
    (Nat.le_of_eq hp) n
  have hw := crypt_next_word cxt key n
  have hs := crypt_dwords_succ (pso_prsd_crypt_init cxt key) n
  have hk := keystream_word_eq n (pso_prsd_crypt_init cxt key)
  have hi := pso_prsd_crypt_init_eq cxt key
  generalize pso_prsd_crypt_init cxt key = c0 at hd hw hs hk hi ⊢
  refine ⟨?_, ?_, hi, ?_, ?_⟩
  · rw [crypt_dword_eq, hw, hs]
  · rw [hk, hw]
  · rw [hd]
    show 1 ≤ 2 + _
    omega
  · rw [hd]
    show 2 + _ % 55 ≤ 56
    omega

/-! ## C27: the length rounding of `pso_prsd_crypt` -/

theorem pso_prsd_crypt_words (c : prsd_crypt_cxt) (d : List Nat) (len : Nat)
    (hd : ∀ j, d.getD j 0 < 256) (hlen : len ≤ 0xFFFFFFFC) :
    (∀ j, j < (len + 3) / 4 →
      le32 ((pso_prsd_crypt c d len).2.getD (4 * j) 0)
          ((pso_prsd_crypt c d len).2.getD (4 * j + 1) 0)
          ((pso_prsd_crypt c d len).2.getD (4 * j + 2) 0)
          ((pso_prsd_crypt c d len).2.getD (4 * j + 3) 0)
        = (le32 (d.getD (4 * j) 0) (d.getD (4 * j + 1) 0) (d.getD (4 * j + 2) 0)
            (d.getD (4 * j + 3) 0) ^^^ keystream_word c j) % 2 ^ 32) ∧
    (∀ i, 4 * ((len + 3) / 4) ≤ i → (pso_prsd_crypt c d len).2.getD i 0 = d.getD i 0) := by
  have hN : ((len % 2 ^ 32 + 3) % 2 ^ 32) / 4 = (len + 3) / 4 := by omega
  have hg := (pso_prsd_crypt_getD c d len hd).2
  rw [hN] at hg
  constructor
  · intro j hj
    have kb : ∀ k, k < 4 → keystream_byte c (4 * j + k)
        = (keystream_word c j >>> (8 * k)) % 256 := by
      intro k hk
      unfold keystream_byte
      have e1 : (4 * j + k) / 4 = j := by omega
      have e2 : (4 * j + k) % 4 = k := by omega
      rw [e1, e2]
    have h0 := hg (4 * j)
    have h1 := hg (4 * j + 1)
    have h2 := hg (4 * j + 2)
    have h3 := hg (4 * j + 3)
    rw [if_pos (by omega)] at h0 h1 h2 h3
    have k0 := kb 0 (by omega)
    rw [Nat.add_zero] at k0
    rw [h0, h1, h2, h3, k0, kb 1 (by omega), kb 2 (by omega), kb 3 (by omega)]
    have hx := le32_bytes_xor (d.getD (4 * j) 0) (d.getD (4 * j + 1) 0) (d.getD (4 * j + 2) 0)
      (d.getD (4 * j + 3) 0) (keystream_word c j) (hd _) (hd _) (hd _) (hd _)
    obtain ⟨X, hXdef⟩ : ∃ X, X = (le32 (d.getD (4 * j) 0) (d.getD (4 * j + 1) 0)
        (d.getD (4 * j + 2) 0) (d.getD (4 * j + 3) 0) ^^^ keystream_word c j) % 2 ^ 32 :=
      ⟨_, rfl⟩
    rw [← hXdef] at hx ⊢
    have hXlt : X < 2 ^ 32 := by
      rw [hXdef]
      exact Nat.mod_lt _ (by norm_num)
    have hX := le32_le32_bytes X
    simp only [le32_bytes, List.cons.injEq, and_true] at hx
    have e0 : keystream_word c j >>> (8 * 0) = keystream_word c j := rfl
    have e1 : 8 * 1 = 8 := rfl
    have e2 : 8 * 2 = 16 := rfl
    have e3 : 8 * 3 = 24 := rfl
    rw [e0, e1, e2, e3, ← hx.1, ← hx.2.1, ← hx.2.2.1, ← hx.2.2.2, hX, Nat.mod_eq_of_lt hXlt]
  · intro i hi
    rw [hg i, if_neg (by omega)]

set_option maxRecDepth 100000 in
/-- The three largest lengths. For `len = 0xFFFFFFFF` (and likewise
`0xFFFFFFFD`, `0xFFFFFFFE`) the rounding `(len + 3) & 0xFFFFFFFC` wraps to 0 in
32-bit arithmetic, so `pso_prsd_crypt` leaves every buffer and the context as
they were, although the length rounded up is `2^30` words. On a buffer of
`2^32` zero bytes and key `0x12345678`, word 0 stays 0, while keystream word 0
is not 0. -/
theorem prsd_crypt_length_wraps (c : prsd_crypt_cxt) (d : List Nat) :
    pso_prsd_crypt c d 0xFFFFFFFF = (c, d) ∧
    pso_prsd_crypt c d 0xFFFFFFFE = (c, d) ∧
    pso_prsd_crypt c d 0xFFFFFFFD = (c, d) ∧
    (0xFFFFFFFF + 3) / 4 = 2 ^ 30 ∧
    (pso_prsd_crypt (pso_prsd_crypt_init cxt0 0x12345678) (List.replicate (2 ^ 32) 0)
      0xFFFFFFFF).2.getD 0 0 = 0 ∧
    (0 ^^^ keystream_word (pso_prsd_crypt_init cxt0 0x12345678) 0) % 256 ≠ 0 := by
  have h1 : ∀ (c : prsd_crypt_cxt) (d : List Nat), pso_prsd_crypt c d 0xFFFFFFFF = (c, d) := by
    intro c d
    have e : ((0xFFFFFFFF % 2 ^ 32 + 3) % 2 ^ 32) &&& 0xFFFFFFFC = 0 := by decide
    simp only [pso_prsd_crypt, e, crypt_loop]
  have h2 : pso_prsd_crypt c d 0xFFFFFFFE = (c, d) := by
    have e : ((0xFFFFFFFE % 2 ^ 32 + 3) % 2 ^ 32) &&& 0xFFFFFFFC = 0 := by decide
    simp only [pso_prsd_crypt, e, crypt_loop]
  have h3 : pso_prsd_crypt c d 0xFFFFFFFD = (c, d) := by
    have e : ((0xFFFFFFFD % 2 ^ 32 + 3) % 2 ^ 32) &&& 0xFFFFFFFC = 0 := by decide
    simp only [pso_prsd_crypt, e, crypt_loop]
  refine ⟨h1 c d, h2, h3, by decide, ?_, by decide⟩
  rw [h1]
  exact getD_replicate_zero _ 0

/-- C27 as stated fails for the largest length. On a buffer of `2^32` zero
bytes, which holds the `ceil(0xFFFFFFFF / 4) = 2^30` words of the claim, and
the context initialised with key `0x12345678`, `pso_prsd_crypt` with
`len = 0xFFFFFFFF` leaves the buffer and the context as they were: word 0
stays 0, although keystream word 0 is not 0. -/
theorem prsd_crypt_max_length_unchanged :
    (List.replicate (2 ^ 32) 0).length = 4 * ((0xFFFFFFFF + 3) / 4) ∧
    pso_prsd_crypt (pso_prsd_crypt_init cxt0 0x12345678) (List.replicate (2 ^ 32) 0)
      0xFFFFFFFF = (pso_prsd_crypt_init cxt0 0x12345678, List.replicate (2 ^ 32) 0) ∧
    (pso_prsd_crypt (pso_prsd_crypt_init cxt0 0x12345678) (List.replicate (2 ^ 32) 0)
      0xFFFFFFFF).2.getD 0 0 = 0 ∧
    (0 ^^^ keystream_word (pso_prsd_crypt_init cxt0 0x12345678) 0) % 256 ≠ 0 := by
  obtain ⟨h1, _, _, _, h5, h6⟩ := prsd_crypt_length_wraps
    (pso_prsd_crypt_init cxt0 0x12345678) (List.replicate (2 ^ 32) 0)
  refine ⟨?_, h1, h5, h6⟩
  rw [List.length_replicate]
  norm_num

/-- C27 as amended. For every `len <= 0xFFFFFFFC`, the lengths whose rounding
up to a multiple of 4 fits the 32-bit length, and every buffer of bytes,
`pso_prsd_crypt` XORs word `j` of the buffer (read little-endian) with
keystream word `j` for exactly the indices `j < ceil(len/4)`, leaves every
later byte unchanged, and leaves the length of a buffer of at least
`ceil(len/4)` words unchanged. -/
theorem prsd_crypt_rounds_to_words (c : prsd_crypt_cxt) (d : List Nat) (len : Nat)
    (hd : ∀ j, d.getD j 0 < 256) (hlen : len ≤ 0xFFFFFFFC) :
    (∀ j, j < (len + 3) / 4 →
      le32 ((pso_prsd_crypt c d len).2.getD (4 * j) 0)
          ((pso_prsd_crypt c d len).2.getD (4 * j + 1) 0)
          ((pso_prsd_crypt c d len).2.getD (4 * j + 2) 0)
          ((pso_prsd_crypt c d len).2.getD (4 * j + 3) 0)
        = (le32 (d.getD (4 * j) 0) (d.getD (4 * j + 1) 0) (d.getD (4 * j + 2) 0)
            (d.getD (4 * j + 3) 0) ^^^ keystream_word c j) % 2 ^ 32) ∧
    (∀ i, 4 * ((len + 3) / 4) ≤ i → (pso_prsd_crypt c d len).2.getD i 0 = d.getD i 0) ∧
    (4 * ((len + 3) / 4) ≤ d.length → (pso_prsd_crypt c d len).2.length = d.length) := by
  obtain ⟨w1, w2⟩ := pso_prsd_crypt_words c d len hd hlen
  refine ⟨w1, w2, ?_⟩
  intro hl
  have e : (len % 2 ^ 32 + 3) % 2 ^ 32 = len + 3 := by omega
  rw [(pso_prsd_crypt_getD c d len hd).1, e]
  exact max_eq_left hl

/-- C27 as amended, on a buffer of 8 bytes and `len = 5`: two words are
XORed. -/
theorem prsd_crypt_rounds_to_words_witness :
    (∀ j, [1, 2, 3, 4, 5, 6, 7, 8].getD j 0 < 256) ∧ 5 ≤ 0xFFFFFFFC ∧ (5 + 3) / 4 = 2 ∧
    (∀ j, j < (5 + 3) / 4 →
      le32 ((pso_prsd_crypt cxt0 [1, 2, 3, 4, 5, 6, 7, 8] 5).2.getD (4 * j) 0)
          ((pso_prsd_crypt cxt0 [1, 2, 3, 4, 5, 6, 7, 8] 5).2.getD (4 * j + 1) 0)
          ((pso_prsd_crypt cxt0 [1, 2, 3, 4, 5, 6, 7, 8] 5).2.getD (4 * j + 2) 0)
          ((pso_prsd_crypt cxt0 [1, 2, 3, 4, 5, 6, 7, 8] 5).2.getD (4 * j + 3) 0)
        = (le32 ([1, 2, 3, 4, 5, 6, 7, 8].getD (4 * j) 0)
            ([1, 2, 3, 4, 5, 6, 7, 8].getD (4 * j + 1) 0)
            ([1, 2, 3, 4, 5, 6, 7, 8].getD (4 * j + 2) 0)
            ([1, 2, 3, 4, 5, 6, 7, 8].getD (4 * j + 3) 0) ^^^ keystream_word cxt0 j)
          % 2 ^ 32) ∧
    (pso_prsd_crypt cxt0 [1, 2, 3, 4, 5, 6, 7, 8] 5).2.length = 8 :=
  have hd : ∀ j, [1, 2, 3, 4, 5, 6, 7, 8].getD j 0 < 256 :=
    getD_lt_of_forall [1, 2, 3, 4, 5, 6, 7, 8] (by decide)
  have t := prsd_crypt_rounds_to_words cxt0 [1, 2, 3, 4, 5, 6, 7, 8] 5 hd (by decide)
  ⟨hd, by decide, by decide, t.1, t.2.2 (by decide)⟩

/-! ## C28: the entry count of Container B -/

theorem gsl_read_entries_succ (fuel i maxfiles : Nat) (fd : File) (len flags : Nat)
    (files : List gsl_file) :
    gsl_read_entries (fuel + 1) i maxfiles fd len flags files =
      if i < maxfiles then
        if (read fd 48).1.length ≠ 48 then .error PSOARCHIVE_EIO
        else if (read fd 48).1.getD 0 0 = 0 then .ok (files, i, (read fd 48).2)
        else if ((gsl_file_of_buf flags (read fd 48).1).offset +
            (gsl_file_of_buf flags (read fd 48).1).size) % 2 ^ 32 > len
        then .error PSOARCHIVE_ERANGE
        else gsl_read_entries fuel (i + 1) maxfiles (read fd 48).2 len flags
          (files ++ [gsl_file_of_buf flags (read fd 48).1])
      else .ok (files, i, fd) := rfl

theorem gsl_read_entries_table (fuel : Nat) : ∀ (i maxfiles : Nat) (fd : File) (len flags : Nat)
    (files files1 : List gsl_file) (i1 : Nat) (fd1 : File),
    gsl_read_entries fuel i maxfiles fd len flags files = .ok (files1, i1, fd1) →
    maxfiles ≤ i + fuel →
    i ≤ i1 ∧ (maxfiles ≤ i1 ∨ fd.data.getD (fd.pos + 48 * (i1 - i)) 0 = 0) ∧
    (∀ j, i ≤ j → j < i1 → j < maxfiles ∧ fd.data.getD (fd.pos + 48 * (j - i)) 0 ≠ 0) ∧
    (∀ k, k < files.length → files1.get? k = files.get? k) ∧
    (∀ j, i ≤ j → j < i1 → files1.get? (files.length + (j - i)) =
      some (gsl_file_of_buf flags ((fd.data.drop (fd.pos + 48 * (j - i))).take 48))) := by
  induction fuel with
  | zero =>
    intro i maxfiles fd len flags files files1 i1 fd1 h hf
    simp only [gsl_read_entries, Except.ok.injEq, Prod.mk.injEq] at h
    obtain ⟨h1, h2, _⟩ := h
    subst h1 h2
    exact ⟨Nat.le_refl _, Or.inl (by omega), fun j a b => by omega, fun k _ => rfl,
      fun j a b => by omega⟩
  | succ fuel ih =>
    intro i maxfiles fd len flags files files1 i1 fd1 h hf
    rw [gsl_read_entries_succ] at h
    split at h
    · rename_i hi
      split at h
      · cases h
      · rename_i hlen
        have hlen48 : (read fd 48).1.length = 48 := by
          by_contra hc
          exact hlen hc
        have hg0 := getD_read fd 48 0
        rw [if_pos (by omega), Nat.add_zero] at hg0
        split at h
        · rename_i hz
          simp only [Except.ok.injEq, Prod.mk.injEq] at h
          obtain ⟨h1, h2, _⟩ := h
          subst h1 h2
          refine ⟨Nat.le_refl _, Or.inr ?_, fun j a b => by omega, fun k _ => rfl,
            fun j a b => by omega⟩
          rw [Nat.sub_self, Nat.mul_zero, Nat.add_zero, ← hg0]
          exact hz
        · rename_i hnz
          split at h
          · cases h
          · have hpos : (read fd 48).2 = ⟨fd.data, fd.pos + 48⟩ := by
              rw [read_snd]
              rw [length_read] at hlen48
              rw [hlen48]
            rw [hpos] at h
            obtain ⟨a1, a2, a3, a4, a5⟩ := ih _ _ _ _ _ _ _ _ _ h (by omega)
            simp only [List.length_append, List.length_singleton] at a4 a5
            refine ⟨by omega, ?_, ?_, ?_, ?_⟩
            · rcases a2 with a2 | a2
              · exact Or.inl a2
              · right
                have e : fd.pos + 48 * (i1 - i) = fd.pos + 48 + 48 * (i1 - (i + 1)) := by omega
                rw [e]
                exact a2
            · intro j hj1 hj2
              by_cases hji : j = i
              · subst hji
                refine ⟨hi, ?_⟩
                rw [Nat.sub_self, Nat.mul_zero, Nat.add_zero, ← hg0]
                exact hnz
              · have := a3 j (by omega) hj2
                have e : fd.pos + 48 * (j - i) = fd.pos + 48 + 48 * (j - (i + 1)) := by omega
                rw [e]
                exact this
            · intro k hk
              rw [a4 k (by omega), List.get?_eq_getElem?, List.get?_eq_getElem?,
                List.getElem?_append_left hk]
            · intro j hj1 hj2
              by_cases hji : j = i
              · subst hji
                rw [Nat.sub_self, Nat.mul_zero, Nat.add_zero, Nat.add_zero,
                  a4 files.length (by omega), List.get?_eq_getElem?,
                  List.getElem?_append_right (Nat.le_refl _), Nat.sub_self]
                rfl
              · have := a5 j (by omega) hj2
                have e : fd.pos + 48 * (j - i) = fd.pos + 48 + 48 * (j - (i + 1)) := by omega
                have e2 : files.length + (j - i) = files.length + 1 + (j - (i + 1)) := by omega
                rw [e, e2]
                exact this
    · simp only [Except.ok.injEq, Prod.mk.injEq] at h
      obtain ⟨h1, h2, _⟩ := h
      subst h1 h2
      exact ⟨Nat.le_refl _, Or.inl (by omega), fun j a b => by omega, fun k _ => rfl,
        fun j a b => by omega⟩

theorem gsl_allocd_gt (i : Nat) : i < 2 ^ 31 → i < gsl_allocd i ∧ gsl_allocd i ≤ 2 * i + 256 := by
  induction i with
  | zero => intro _; exact ⟨by decide, by decide⟩
  | succ i ih =>
    intro hi
    obtain ⟨h1, h2⟩ := ih (by omega)
    simp only [gsl_allocd]
    split
    · omega
    · omega

theorem gsl_first_entry_cases (buf : List Nat) (len flags offset size flags1 : Nat)
    (h : gsl_first_entry buf len flags = .ok (offset, size, flags1)) :
    ((offset, size) = gsl_decode_be buf ∨ (offset, size) = gsl_decode_le buf) ∧
    (flags &&& GSL_ENDIANNESS ≠ 0 → flags1 = flags ∧
      (offset, size) = if flags &&& PSO_GSL_BIG_ENDIAN ≠ 0 then gsl_decode_be buf
        else gsl_decode_le buf) := by
  simp only [gsl_first_entry] at h
  split at h
  · rename_i h0
    split at h
    · split at h
      · cases h
      · simp only [Except.ok.injEq, Prod.mk.injEq] at h
        exact ⟨Or.inr (by rw [← h.1, ← h.2.1]), fun hc => absurd h0 hc⟩
    · simp only [Except.ok.injEq, Prod.mk.injEq] at h
      exact ⟨Or.inl (by rw [← h.1, ← h.2.1]), fun hc => absurd h0 hc⟩
  · split at h
    · rename_i hb
      simp only [Except.ok.injEq, Prod.mk.injEq] at h
      exact ⟨Or.inl (by rw [← h.1, ← h.2.1]), fun _ => ⟨h.2.2.symm, by
        rw [if_pos hb, ← h.1, ← h.2.1]⟩⟩
    · rename_i hb
      simp only [Except.ok.injEq, Prod.mk.injEq] at h
      exact ⟨Or.inr (by rw [← h.1, ← h.2.1]), fun _ => ⟨h.2.2.symm, by
        rw [if_neg hb, ← h.1, ← h.2.1]⟩⟩

/-- C28. Let `pso_gsl_read_open_fd` succeed on a descriptor whose records
are the 48-byte pieces from the current position on, and let `max_entries` be
the byte offset of entry 0 of the handle divided by 48. Then `file_count` is
the least `i >= 1` with `i >= max_entries` or a zero first byte in record `i`;
the table holds `file_count` entries; entry 0 is record 0 decoded in the
byte order settled for it (the one given, or the guessed one) and every later
entry `i` is record `i` decoded as the flags of the handle say; and, also
beyond 256 entries, every entry is stored below the allocated size `allocd`
of the table. -/
theorem gsl_entry_count (fd : File) (len flags : Nat) (h : pso_gsl_read)
    (hopen : pso_gsl_read_open_fd fd len flags = .ok h) :
    ∃ f0, h.files.get? 0 = some f0 ∧
      1 ≤ h.file_count ∧
      (f0.offset / 48 ≤ h.file_count ∨ fd.data.getD (fd.pos + 48 * h.file_count) 0 = 0) ∧
      (∀ j, 1 ≤ j → j < h.file_count →
        j < f0.offset / 48 ∧ fd.data.getD (fd.pos + 48 * j) 0 ≠ 0) ∧
      h.files.length = h.file_count ∧
      (f0 = gsl_file_of_buf PSO_GSL_BIG_ENDIAN ((fd.data.drop fd.pos).take 48) ∨
        f0 = gsl_file_of_buf PSO_GSL_LITTLE_ENDIAN ((fd.data.drop fd.pos).take 48)) ∧
      (flags &&& GSL_ENDIANNESS ≠ 0 → h.flags = flags ∧
        f0 = gsl_file_of_buf flags ((fd.data.drop fd.pos).take 48)) ∧
      (∀ i, 1 ≤ i → i < h.file_count → h.files.get? i =
        some (gsl_file_of_buf h.flags ((fd.data.drop (fd.pos + 48 * i)).take 48))) ∧
      (∀ i, i < h.file_count → i < gsl_allocd i) := by
  have hlen := (gsl_open_inv fd len flags h hopen).1
  simp only [pso_gsl_read_open_fd] at hopen
  split at hopen
  · cases hopen
  · rename_i hl48
    have hlen48 : (read fd 48).1.length = 48 := by
      by_contra hc
      exact hl48 hc
    split at hopen
    · cases hopen
    · split at hopen
      · cases hopen
      · rename_i offset size flags1 hfe
        split at hopen
        · cases hopen
        · rename_i files i fd1 he
          simp only [Except.ok.injEq] at hopen
          have hpos : (read fd 48).2 = ⟨fd.data, fd.pos + 48⟩ := by
            rw [read_snd]
            rw [length_read] at hlen48
            rw [hlen48]
          have hbuf : (read fd 48).1 = (fd.data.drop fd.pos).take 48 := rfl
          rw [hpos, hbuf] at he
          rw [hbuf] at hfe
          generalize hB : (fd.data.drop fd.pos).take 48 = B at he hfe
          obtain ⟨c1, c2⟩ := gsl_first_entry_cases B len flags offset size flags1 hfe
          obtain ⟨a1, a2, a3, a4, a5⟩ := gsl_read_entries_table _ _ _ _ _ _ _ _ _ _ he (by omega)
          simp only [List.length_singleton] at a4 a5
          have hoff : offset * 2048 % 2 ^ 32 / 48 < 2 ^ 27 := by omega
          rw [← hopen] at hlen ⊢
          simp only at hlen ⊢
          refine ⟨{ filename := List.take 32 B, offset := offset * 2048 % 2 ^ 32, size := size },
            ?_, a1, ?_, ?_, hlen, ?_, ?_, ?_, ?_⟩
          · rw [a4 0 (by omega)]
            rfl
          · rcases a2 with a2 | a2
            · exact Or.inl a2
            · right
              have e : fd.pos + 48 * i = fd.pos + 48 + 48 * (i - 1) := by omega
              rw [e]
              exact a2
          · intro j hj1 hj2
            have := a3 j hj1 hj2
            have e : fd.pos + 48 * j = fd.pos + 48 + 48 * (j - 1) := by omega
            rw [e]
            exact this
          · rcases c1 with c1 | c1
            · left
              have e1 : offset = (gsl_decode_be B).1 := congrArg Prod.fst c1
              have e2 : size = (gsl_decode_be B).2 := congrArg Prod.snd c1
              have cb : PSO_GSL_BIG_ENDIAN &&& PSO_GSL_BIG_ENDIAN ≠ 0 := by decide
              simp only [gsl_file_of_buf, if_pos cb, e1, e2]
            · right
              have e1 : offset = (gsl_decode_le B).1 := congrArg Prod.fst c1
              have e2 : size = (gsl_decode_le B).2 := congrArg Prod.snd c1
              have cb : ¬ (PSO_GSL_LITTLE_ENDIAN &&& PSO_GSL_BIG_ENDIAN ≠ 0) := by decide
              simp only [gsl_file_of_buf, if_neg cb, e1, e2]
          · intro hE
            obtain ⟨d1, d2⟩ := c2 hE
            refine ⟨d1, ?_⟩
            have e1 : offset = (if flags &&& PSO_GSL_BIG_ENDIAN ≠ 0 then gsl_decode_be B
                else gsl_decode_le B).1 := congrArg Prod.fst d2
            have e2 : size = (if flags &&& PSO_GSL_BIG_ENDIAN ≠ 0 then gsl_decode_be B
                else gsl_decode_le B).2 := congrArg Prod.snd d2
            simp only [gsl_file_of_buf, e1, e2]
          · intro j hj1 hj2
            have := a5 j hj1 hj2
            have e : fd.pos + 48 * j = fd.pos + 48 + 48 * (j - 1) := by omega
            have e2 : 1 + (j - 1) = j := by omega
            rw [e2] at this
            rw [e]
            exact this
          · intro j hj
            by_cases hj0 : j = 0
            · subst hj0
              decide
            · have := (a3 j (by omega) hj).1
              exact (gsl_allocd_gt j (by omega)).1

/-- C28 on `gsl_le_two_image`, opened as little-endian: two entries, the
record at position 2 starts with a zero byte. -/
theorem gsl_entry_count_witness :
    pso_gsl_read_open_fd ⟨gsl_le_two_image, 0⟩ 6144 PSO_GSL_LITTLE_ENDIAN = .ok gsl_le_two_handle ∧
    gsl_le_two_handle.file_count = 2 ∧
    ∃ f0, gsl_le_two_handle.files.get? 0 = some f0 ∧
      1 ≤ gsl_le_two_handle.file_count ∧
      (f0.offset / 48 ≤ gsl_le_two_handle.file_count ∨
        gsl_le_two_image.getD (0 + 48 * gsl_le_two_handle.file_count) 0 = 0) :=
  ⟨rfl, rfl,
    match gsl_entry_count ⟨gsl_le_two_image, 0⟩ 6144 PSO_GSL_LITTLE_ENDIAN gsl_le_two_handle rfl
    with
    | ⟨f0, h0, h1, h2, _⟩ => ⟨f0, h0, h1, h2⟩⟩

/-! ## C29: the endianness guess -/

/-- C29, the code at two failing inputs, both opened with `len = 0x200000`
and no endianness flag. In the first image the big-endian block offset is
`0x200000`; its product with 2048 is `2^32`, above `len`, but the code computes
it in 32 bits as 0 and keeps the big-endian reading. In the second image the
big-endian reading is rejected (block `0x2000`, byte offset `2^24`) and the
little-endian block offset is `0x200000`: again the product wraps to 0 and the
open succeeds instead of failing with `PSOARCHIVE_ERANGE`. -/
theorem gsl_guess_product_wraps :
    gsl_decode_be (gsl_wrap_be_image.take 48) = (0x200000, 0) ∧
    0x200000 * 2048 > 0x200000 ∧
    (∃ h, pso_gsl_read_open_fd ⟨gsl_wrap_be_image, 0⟩ 0x200000 0 = .ok h ∧
      h.flags = PSO_GSL_BIG_ENDIAN ∧ h.files.map (fun f => (f.offset, f.size)) = [(0, 0)]) ∧
    gsl_decode_be (gsl_wrap_le_image.take 48) = (0x2000, 0) ∧
    0x2000 * 2048 > 0x200000 ∧
    gsl_decode_le (gsl_wrap_le_image.take 48) = (0x200000, 0) ∧
    (∃ h, pso_gsl_read_open_fd ⟨gsl_wrap_le_image, 0⟩ 0x200000 0 = .ok h ∧
      h.flags = PSO_GSL_BIG_ENDIAN ||| PSO_GSL_LITTLE_ENDIAN ∧
      h.files.map (fun f => (f.offset, f.size)) = [(0, 0)]) :=
  ⟨by decide, by decide, ⟨_, rfl, rfl, rfl⟩, by decide, by decide, by decide, ⟨_, rfl, rfl, rfl⟩⟩

/-! ## C22: cursors and written slots of the writers -/

theorem padded_end_snoc (l : List Nat) : ∀ (dp x : Nat),
    padded_end dp (l ++ [x]) = next_data_pos (padded_end dp l) x := by
  induction l with
  | nil => intro dp x; rfl
  | cons y l ih =>
    intro dp x
    simp only [List.cons_append, padded_end]
    exact ih _ _

theorem take_succ_snoc {α : Type} (l : List α) (k : Nat) (b : α) (h : l.get? k = some b) :
    l.take (k + 1) = l.take k ++ [b] := by
  rw [List.take_succ, ← List.get?_eq_getElem?, h]
  rfl

theorem padded_end_take_succ (lens : List Nat) (dp k : Nat) :
    padded_end dp (lens.take k) ≤ padded_end dp (lens.take (k + 1)) := by
  by_cases hk : k < lens.length
  · obtain ⟨x, hx⟩ : ∃ x, lens.get? k = some x := ⟨lens.get ⟨k, hk⟩, List.get?_eq_get hk⟩
    rw [take_succ_snoc lens k x hx, padded_end_snoc]
    have := next_data_pos_gt (padded_end dp (lens.take k)) x
    omega
  · rw [List.take_of_length_le (by omega), List.take_of_length_le (by omega)]

theorem padded_end_take_mono (lens : List Nat) (dp i : Nat) : ∀ k, i ≤ k →
    padded_end dp (lens.take i) ≤ padded_end dp (lens.take k) := by
  intro k hk
  induction k with
  | zero =>
    have : i = 0 := by omega
    rw [this]
  | succ k ih =>
    by_cases e : i = k + 1
    · rw [e]
    · exact Nat.le_trans (ih (by omega)) (padded_end_take_succ lens dp k)

theorem padded_end_take_le (lens : List Nat) (dp k : Nat) :
    padded_end dp (lens.take k) ≤ padded_end dp lens := by
  have h := padded_end_take_mono lens dp k (k + lens.length) (by omega)
  rw [List.take_of_length_le (l := lens) (i := k + lens.length) (by omega)] at h
  exact h

theorem afs_write_all_snoc (l : List (List Nat)) : ∀ (a : Option pso_afs_write) (b : List Nat),
    afs_write_all a (l ++ [b]) =
      ((afs_write_all a l).1 ++ [(pso_afs_write_add (afs_write_all a l).2 [] b b.length).1],
       (pso_afs_write_add (afs_write_all a l).2 [] b b.length).2) := by
  induction l with
  | nil => intro a b; rfl
  | cons x l ih =>
    intro a b
    rw [List.cons_append]
    simp only [afs_write_all]
    rw [ih]
    rfl

theorem afs_state (a0 : pso_afs_write) (blobs : List (List Nat)) (k : Nat)
    (h0 : a0.ftab_pos = 8 ∧ a0.data_pos = 0x80000) (hk : k ≤ blobs.length)
    (htot : padded_end 0x80000 (blobs.map List.length) < 2 ^ 64) :
    ∃ a, afs_write_all (some a0) (blobs.take k)
        = (List.replicate k PSOARCHIVE_OK, some a) ∧
      a.ftab_pos = 8 + 8 * k ∧
      a.data_pos = padded_end 0x80000 ((blobs.map List.length).take k) := by
  have hb := padded_end_take_le (blobs.map List.length) 0x80000 k
  have hl : (blobs.take k).length = k := by rw [List.length_take]; omega
  obtain ⟨a, e1, _, _, e4, e5, _⟩ := afs_write_all_spec (blobs.take k) a0 (by
    rw [List.map_take, h0.2]
    exact Nat.lt_of_le_of_lt hb htot)
  rw [hl] at e1
  rw [hl, h0.1] at e4
  rw [List.map_take, h0.2] at e5
  exact ⟨a, e1, e4, e5⟩

theorem afs_append_frame (a0 : pso_afs_write) (blobs : List (List Nat)) (k : Nat)
    (b : List Nat) (h0 : a0.ftab_pos = 8 ∧ a0.data_pos = 0x80000) (hn : blobs.length ≤ 65535) (htot : padded_end 0x80000 (blobs.map List.length) < 2 ^ 64)
    (hb : blobs.get? k = some b) :
    ∃ a a1, (afs_write_all (some a0) (blobs.take k)).2 = some a ∧
      (afs_write_all (some a0) (blobs.take (k + 1))).2 = some a1 ∧
      pso_afs_write_add (some a) [] b b.length = (PSOARCHIVE_OK, some a1) ∧
      a.ftab_pos < a1.ftab_pos ∧ a.data_pos < a1.data_pos ∧
      ∀ i bi ai, i < k → blobs.get? i = some bi →
        (afs_write_all (some a0) (blobs.take i)).2 = some ai →
        ∀ p, (ai.ftab_pos ≤ p ∧ p < ai.ftab_pos + 8) ∨
            (ai.data_pos ≤ p ∧ p < ai.data_pos + bi.length) →
          a1.fd.data.getD p 0 = a.fd.data.getD p 0 := by
  have hk := get?_lt blobs k b hb
  obtain ⟨a, s1, s2, s3⟩ := afs_state a0 blobs k h0 (by omega) htot
  have hlk : (blobs.map List.length).get? k = some b.length := by
    rw [List.get?_eq_getElem?, List.getElem?_map, ← List.get?_eq_getElem?, hb]
    rfl
  have hDk1 := padded_end_take_le (blobs.map List.length) 0x80000 (k + 1)
  rw [take_succ_snoc _ k _ hlk, padded_end_snoc, ← s3] at hDk1
  have hgt := next_data_pos_gt a.data_pos b.length
  have hadd := pso_afs_write_add_eq a [] b (by omega)
  have hge := padded_end_ge ((blobs.map List.length).take k) 0x80000
  rw [← s3] at hge
  refine ⟨a, _, by rw [s1], ?_, hadd, by show a.ftab_pos < a.ftab_pos + 8; omega,
    by show a.data_pos < next_data_pos a.data_pos b.length; omega, ?_⟩
  · rw [take_succ_snoc blobs k b hb, afs_write_all_snoc, s1, hadd]
  · intro i bi ai hik hbi hai p hp
    obtain ⟨a', t1, t2, t3⟩ := afs_state a0 blobs i h0 (by omega) htot
    rw [t1] at hai
    have e : a' = ai := Option.some.inj hai
    subst e
    have hli : (blobs.map List.length).get? i = some bi.length := by
      rw [List.get?_eq_getElem?, List.getElem?_map, ← List.get?_eq_getElem?, hbi]
      rfl
    have hDi1 := padded_end_take_mono (blobs.map List.length) 0x80000 (i + 1) k (by omega)
    rw [take_succ_snoc _ i _ hli, padded_end_snoc, ← t3, ← s3] at hDi1
    have hgi := next_data_pos_gt a'.data_pos bi.length
    have hgei := padded_end_ge ((blobs.map List.length).take i) 0x80000
    rw [← t3] at hgei
    have hent : ((afs_item b).1 a.data_pos).length = 8 := rfl
    show (add_data a.fd.data a.ftab_pos ((afs_item b).1 a.data_pos) a.data_pos b).getD p 0 = _
    rw [getD_add_data _ _ _ _ _ (by rw [hent]; omega), hent]
    rw [if_neg (by omega), if_neg (by omega), if_neg (by omega)]

theorem gsl_write_all_snoc (l : List (List Nat × List Nat)) :
    ∀ (a : Option pso_gsl_write) (nb : List Nat × List Nat),
    gsl_write_all a (l ++ [nb]) =
      ((gsl_write_all a l).1 ++ [(pso_gsl_write_add (gsl_write_all a l).2 nb.1 nb.2 nb.2.length).1],
       (pso_gsl_write_add (gsl_write_all a l).2 nb.1 nb.2 nb.2.length).2) := by
  induction l with
  | nil => intro a nb; rfl
  | cons x l ih =>
    intro a nb
    rw [List.cons_append]
    simp only [gsl_write_all]
    rw [ih]
    rfl

theorem gsl_state (g0 : pso_gsl_write) (named : List (List Nat × List Nat)) (k : Nat)
    (h0 : g0.ftab_pos = 0 ∧ g0.data_pos = 256 * 48 ∧ g0.ftab_used = 0 ∧ g0.ftab_entries = 256)
    (hk : k ≤ named.length) (hn : named.length ≤ 255)
    (htot : padded_end (256 * 48) (named.map (fun nb => nb.2.length)) < 2 ^ 64) :
    ∃ a, gsl_write_all (some g0) (named.take k)
        = (List.replicate k PSOARCHIVE_OK, some a) ∧
      a.ftab_pos = 48 * k ∧
      a.data_pos = padded_end (256 * 48) ((named.map (fun nb => nb.2.length)).take k) ∧
      a.ftab_used = k ∧ a.ftab_entries = 256 := by
  have hb := padded_end_take_le (named.map (fun nb => nb.2.length)) (256 * 48) k
  have hl : (named.take k).length = k := by rw [List.length_take]; omega
  obtain ⟨a, e1, _, e3, e4, e5, _, e7⟩ := gsl_write_all_spec (named.take k) g0 (by
    rw [hl, h0.2.2.1, h0.2.2.2]
    omega) (by
    rw [List.map_take, h0.2.1]
    exact Nat.lt_of_le_of_lt hb htot)
  rw [hl] at e1
  rw [hl, h0.2.2.1] at e3
  rw [hl, h0.1] at e4
  rw [List.map_take, h0.2.1] at e5
  rw [h0.2.2.2] at e7
  exact ⟨a, e1, by omega, e5, by omega, e7⟩

theorem gsl_append_frame (g0 : pso_gsl_write) (named : List (List Nat × List Nat)) (k : Nat)
    (nb : List Nat × List Nat)
    (h0 : g0.ftab_pos = 0 ∧ g0.data_pos = 256 * 48 ∧ g0.ftab_used = 0 ∧ g0.ftab_entries = 256)
    (hn : named.length ≤ 255)
    (htot : padded_end (256 * 48) (named.map (fun nb => nb.2.length)) < 2 ^ 64)
    (hb : named.get? k = some nb) :
    ∃ a a1, (gsl_write_all (some g0) (named.take k)).2 = some a ∧
      (gsl_write_all (some g0) (named.take (k + 1))).2 = some a1 ∧
      pso_gsl_write_add (some a) nb.1 nb.2 nb.2.length = (PSOARCHIVE_OK, some a1) ∧
      a.ftab_pos < a1.ftab_pos ∧ a.data_pos < a1.data_pos ∧
      ∀ i nbi ai, i < k → named.get? i = some nbi →
        (gsl_write_all (some g0) (named.take i)).2 = some ai →
        ∀ p, (ai.ftab_pos ≤ p ∧ p < ai.ftab_pos + 48) ∨
            (ai.data_pos ≤ p ∧ p < ai.data_pos + nbi.2.length) →
          a1.fd.data.getD p 0 = a.fd.data.getD p 0 := by
  have hk := get?_lt named k nb hb
  obtain ⟨a, s1, s2, s3, s4, s5⟩ := gsl_state g0 named k h0 (by omega) hn htot
  have hlk : (named.map (fun nb => nb.2.length)).get? k = some nb.2.length := by
    rw [List.get?_eq_getElem?, List.getElem?_map, ← List.get?_eq_getElem?, hb]
    rfl
  have hDk1 := padded_end_take_le (named.map (fun nb => nb.2.length)) (256 * 48) (k + 1)
  rw [take_succ_snoc _ k _ hlk, padded_end_snoc, ← s3] at hDk1
  have hgt := next_data_pos_gt a.data_pos nb.2.length
  have hadd := pso_gsl_write_add_eq a nb.1 nb.2 (by rw [s4, s5]; omega) (by omega)
  have hge := padded_end_ge ((named.map (fun nb => nb.2.length)).take k) (256 * 48)
  rw [← s3] at hge
  refine ⟨a, _, by rw [s1], ?_, hadd, by show a.ftab_pos < a.ftab_pos + 48; omega,
    by show a.data_pos < next_data_pos a.data_pos nb.2.length; omega, ?_⟩
  · rw [take_succ_snoc named k nb hb, gsl_write_all_snoc, s1, hadd]
  · intro i nbi ai hik hbi hai p hp
    obtain ⟨a', t1, t2, t3, _, _⟩ := gsl_state g0 named i h0 (by omega) hn htot
    rw [t1] at hai
    have e : a' = ai := Option.some.inj hai
    subst e
    have hli : (named.map (fun nb => nb.2.length)).get? i = some nbi.2.length := by
      rw [List.get?_eq_getElem?, List.getElem?_map, ← List.get?_eq_getElem?, hbi]
      rfl
    have hDi1 := padded_end_take_mono (named.map (fun nb => nb.2.length)) (256 * 48) (i + 1) k
      (by omega)
    rw [take_succ_snoc _ i _ hli, padded_end_snoc, ← t3, ← s3] at hDi1
    have hgi := next_data_pos_gt a'.data_pos nbi.2.length
    have hgei := padded_end_ge ((named.map (fun nb => nb.2.length)).take i) (256 * 48)
    rw [← t3] at hgei
    have hent : ((gsl_item a.flags (nb.1, nb.2)).1 a.data_pos).length = 48 :=
      length_gsl_entry _ _ _ _
    show (add_data a.fd.data a.ftab_pos ((gsl_item a.flags (nb.1, nb.2)).1 a.data_pos)
      a.data_pos nb.2).getD p 0 = _
    rw [getD_add_data _ _ _ _ _ (by rw [hent]; omega), hent]
    rw [if_neg (by omega), if_neg (by omega), if_neg (by omega)]

theorem gsl_all_ok_length (g0 : pso_gsl_write) (named : List (List Nat × List Nat))
    (h0 : g0.ftab_used = 0 ∧ g0.ftab_entries = 256)
    (hsucc : ∀ i, i < named.length → (gsl_write_all (some g0) named).1.getD i 0 = PSOARCHIVE_OK) :
    named.length ≤ 255 := by
  by_contra hc
  have h1 := gsl_write_all_codes named g0 256 h0.2 (by rw [h0.1]; omega) 255 (by omega)
  rw [hsucc 255 (by omega), h0.1, if_neg (by omega)] at h1
  exact absurd h1 (by decide)

theorem padded_end_cons (dp x : Nat) (l : List Nat) :
    padded_end dp (x :: l) = padded_end (next_data_pos dp x) l := rfl

theorem padded_end_replicate_zero (n : Nat) : ∀ dp, dp % 2048 = 0 →
    padded_end dp (List.replicate n 0) = dp + 2048 * n := by
  induction n with
  | zero => intro dp _; rfl
  | succ n ih =>
    intro dp h
    have e : next_data_pos dp 0 = dp + 2048 := by
      unfold next_data_pos
      omega
    simp only [List.replicate, padded_end]
    rw [e, ih _ (by omega)]
    omega

/-- Also without any I/O failure the frame part of C22 fails for Container A,
whose writer has no table capacity. After 65535 appends the table cursor has reached `0x80000`, where the first
blob was written; the 65536th append then stores its table entry over the
first byte of that blob, which changes from 1 to 0. -/
theorem afs_65536th_append_overwrites :
    pso_afs_new_fd ⟨[], 0⟩ 0 = .ok afs_fresh ∧ afs_fresh.data_pos = 0x80000 ∧
    afs_many_blobs.get? 0 = some [1] ∧
    ∃ a a1, afs_write_all (some afs_fresh) afs_many_blobs
        = (List.replicate afs_many_blobs.length PSOARCHIVE_OK, some a) ∧
      afs_many_blobs.length = 65535 ∧ a.ftab_pos = 0x80000 ∧
      a.fd.data.getD 0x80000 0 = 1 ∧
      pso_afs_write_add (some a) [] [] 0 = (PSOARCHIVE_OK, some a1) ∧
      a1.fd.data.getD 0x80000 0 = 0 := by
  have hlen : afs_many_blobs.length = 65535 := by
    unfold afs_many_blobs
    rw [List.length_cons, List.length_replicate]
  have hlens : afs_many_blobs.map List.length = 1 :: List.replicate 65534 0 := by
    unfold afs_many_blobs
    rw [List.map_cons, List.map_replicate, List.length_singleton, List.length_nil]
  have hg0 : afs_many_blobs.get? 0 = some [1] := by
    unfold afs_many_blobs
    exact List.get?_cons_zero
  have hi0 : (afs_many_blobs.map afs_item).get? 0 = some (afs_item [1]) := by
    unfold afs_many_blobs
    rw [List.map_cons]
    exact List.get?_cons_zero
  have hnd : next_data_pos 0x80000 1 = 0x80800 := by decide
  have hend : padded_end 0x80000 (afs_many_blobs.map List.length) = 0x80800 + 2048 * 65534 := by
    rw [hlens, padded_end_cons, hnd, padded_end_replicate_zero _ _ (by decide)]
  obtain ⟨a, e1, e2, _, e4, e5, _⟩ := afs_write_all_spec afs_many_blobs afs_fresh (by
    show padded_end 0x80000 _ < _
    rw [hend]
    decide)
  have e4b : a.ftab_pos = 0x80000 := by
    rw [e4, hlen]
    rfl
  have e5b : a.data_pos = 0x80800 + 2048 * 65534 := by
    rw [e5]
    exact hend
  have hE : ∀ x ∈ afs_many_blobs.map afs_item, ∀ d, (x.1 d).length = 8 := by
    intro x hx d
    obtain ⟨b, _, rfl⟩ := List.mem_map.1 hx
    rfl
  obtain ⟨_, _, _, hd⟩ := layout_spec 8 (afs_many_blobs.map afs_item) [] 8 0x80000 hE
    (by rw [List.length_map, hlen])
  have hbyte := hd 0 (afs_item [1]) hi0 0 (by decide)
  have hadd := pso_afs_write_add_eq a [] [] (by rw [e5b]; decide)
  refine ⟨rfl, rfl, hg0, a, _, e1, hlen, e4b, ?_, hadd, ?_⟩
  · rw [e2]
    exact hbyte
  · show (add_data a.fd.data a.ftab_pos ((afs_item []).1 a.data_pos) a.data_pos []).getD
      0x80000 0 = 0
    have hent : ((afs_item []).1 a.data_pos).length = 8 := rfl
    rw [getD_add_data _ _ _ _ _ (by rw [hent, e4b, e5b]; decide), hent, e4b,
      if_pos (by decide), e5b]
    decide

/-- What holds of C22 when the system calls of `pad_file` succeed. Start from
a fresh Container A handle and append blobs, at most 65535 of them, or from a
fresh Container B handle and append named blobs that are all accepted, the
files staying below `2^64` bytes. Then every append succeeds and moves the table cursor and the data cursor strictly up,
and it leaves unchanged every file byte of the table slot and of the data of
each blob appended before it. The slot and the data of a blob are the 8 (or
48) bytes at the table cursor and the bytes at the data cursor of the handle
it was appended to. -/
theorem writer_cursors_and_slots (blobs : List (List Nat))
    (named : List (List Nat × List Nat)) (fd gfd : File) (wflags gflags : Nat)
    (a0 : pso_afs_write) (g0 : pso_gsl_write)
    (hnew : pso_afs_new_fd fd wflags = .ok a0) (hn : blobs.length ≤ 65535)
    (htot : padded_end 0x80000 (blobs.map List.length) < 2 ^ 64)
    (hgnew : pso_gsl_new_fd gfd gflags = .ok g0)
    (hsucc : ∀ i, i < named.length →
      (gsl_write_all (some g0) named).1.getD i 0 = PSOARCHIVE_OK)
    (hgtot : padded_end (256 * 48) (named.map (fun nb => nb.2.length)) < 2 ^ 64) :
    (∀ k b, blobs.get? k = some b →
      ∃ a a1, (afs_write_all (some a0) (blobs.take k)).2 = some a ∧
        (afs_write_all (some a0) (blobs.take (k + 1))).2 = some a1 ∧
        pso_afs_write_add (some a) [] b b.length = (PSOARCHIVE_OK, some a1) ∧
        a.ftab_pos < a1.ftab_pos ∧ a.data_pos < a1.data_pos ∧
        ∀ i bi ai, i < k → blobs.get? i = some bi →
          (afs_write_all (some a0) (blobs.take i)).2 = some ai →
          ∀ p, (ai.ftab_pos ≤ p ∧ p < ai.ftab_pos + 8) ∨
              (ai.data_pos ≤ p ∧ p < ai.data_pos + bi.length) →
            a1.fd.data.getD p 0 = a.fd.data.getD p 0) ∧
    (∀ k nb, named.get? k = some nb →
      ∃ a a1, (gsl_write_all (some g0) (named.take k)).2 = some a ∧
        (gsl_write_all (some g0) (named.take (k + 1))).2 = some a1 ∧
        pso_gsl_write_add (some a) nb.1 nb.2 nb.2.length = (PSOARCHIVE_OK, some a1) ∧
        a.ftab_pos < a1.ftab_pos ∧ a.data_pos < a1.data_pos ∧
        ∀ i nbi ai, i < k → named.get? i = some nbi →
          (gsl_write_all (some g0) (named.take i)).2 = some ai →
          ∀ p, (ai.ftab_pos ≤ p ∧ p < ai.ftab_pos + 48) ∨
              (ai.data_pos ≤ p ∧ p < ai.data_pos + nbi.2.length) →
            a1.fd.data.getD p 0 = a.fd.data.getD p 0) := by
  have ha0 : a0.ftab_pos = 8 ∧ a0.data_pos = 0x80000 := by
    simp only [pso_afs_new_fd, Except.ok.injEq] at hnew
    rw [← hnew]
    exact ⟨rfl, rfl⟩
  have hg := pso_gsl_new_fd_ok gfd gflags g0 hgnew
  have hg0 : g0.ftab_pos = 0 ∧ g0.data_pos = 256 * 48 ∧ g0.ftab_used = 0 ∧
      g0.ftab_entries = 256 := by
    rw [hg]
    exact ⟨rfl, rfl, rfl, rfl⟩
  have hgn := gsl_all_ok_length g0 named ⟨hg0.2.2.1, hg0.2.2.2⟩ hsucc
  exact ⟨fun k b hb => afs_append_frame a0 blobs k b ha0 hn htot hb,
    fun k nb hb => gsl_append_frame g0 named k nb hg0 hgn hgtot hb⟩

/-- The cursors and slots on the two blobs of `example_blobs` for Container A
and the two named blobs of `example_named_blobs` for Container B. -/
theorem writer_cursors_and_slots_witness :
    pso_afs_new_fd ⟨[], 0⟩ 0 = .ok afs_fresh ∧ example_blobs.length ≤ 65535 ∧
    pso_gsl_new_fd ⟨[], 0⟩ PSO_GSL_LITTLE_ENDIAN = .ok gsl_fresh_le ∧
    (∀ i, i < example_named_blobs.length →
      (gsl_write_all (some gsl_fresh_le) example_named_blobs).1.getD i 0 = PSOARCHIVE_OK) ∧
    (∀ k b, example_blobs.get? k = some b →
      ∃ a a1, (afs_write_all (some afs_fresh) (example_blobs.take k)).2 = some a ∧
        (afs_write_all (some afs_fresh) (example_blobs.take (k + 1))).2 = some a1 ∧
        pso_afs_write_add (some a) [] b b.length = (PSOARCHIVE_OK, some a1) ∧
        a.ftab_pos < a1.ftab_pos ∧ a.data_pos < a1.data_pos ∧
        ∀ i bi ai, i < k → example_blobs.get? i = some bi →
          (afs_write_all (some afs_fresh) (example_blobs.take i)).2 = some ai →
          ∀ p, (ai.ftab_pos ≤ p ∧ p < ai.ftab_pos + 8) ∨
              (ai.data_pos ≤ p ∧ p < ai.data_pos + bi.length) →
            a1.fd.data.getD p 0 = a.fd.data.getD p 0) ∧
    (∀ k nb, example_named_blobs.get? k = some nb →
      ∃ a a1, (gsl_write_all (some gsl_fresh_le) (example_named_blobs.take k)).2 = some a ∧
        (gsl_write_all (some gsl_fresh_le) (example_named_blobs.take (k + 1))).2 = some a1 ∧
        pso_gsl_write_add (some a) nb.1 nb.2 nb.2.length = (PSOARCHIVE_OK, some a1) ∧
        a.ftab_pos < a1.ftab_pos ∧ a.data_pos < a1.data_pos ∧
        ∀ i nbi ai, i < k → example_named_blobs.get? i = some nbi →
          (gsl_write_all (some gsl_fresh_le) (example_named_blobs.take i)).2 = some ai →
          ∀ p, (ai.ftab_pos ≤ p ∧ p < ai.ftab_pos + 48) ∨
              (ai.data_pos ≤ p ∧ p < ai.data_pos + nbi.2.length) →
            a1.fd.data.getD p 0 = a.fd.data.getD p 0) :=
  have hs : ∀ i, i < example_named_blobs.length →
      (gsl_write_all (some gsl_fresh_le) example_named_blobs).1.getD i 0 = PSOARCHIVE_OK :=
    fun i hi => (gsl_write_all_codes example_named_blobs gsl_fresh_le 256 rfl (by decide) i
      hi).trans (if_pos (by
        show 0 + i + 1 < 256
        have h2 : example_named_blobs.length = 2 := rfl
        omega))
  ⟨rfl, by decide, rfl, hs,
    writer_cursors_and_slots example_blobs example_named_blobs ⟨[], 0⟩ ⟨[], 0⟩ 0
      PSO_GSL_LITTLE_ENDIAN afs_fresh gsl_fresh_le rfl (by decide) (by decide) rfl hs
      (by decide)⟩

/-! ## C31: the handle check of `pso_afs_file_read` -/

/-- C31. For a handle made by `pso_afs_read_open_fd`, a non-null buffer and
`len > 0`, `pso_afs_file_read` lets `hnd == file_count` through its argument
check (only `hnd > file_count` is rejected, with `-1`) and then indexes the
table at `file_count`, where no entry is: the table holds exactly the entries
`0 .. file_count - 1`. `pso_afs_file_size` and `pso_afs_file_name` reject
`hnd == file_count`. -/
theorem afs_file_read_accepts_file_count (fd : File) (len flags : Nat) (h : pso_afs_read)
    (b : List Nat) (n : Nat) (hopen : pso_afs_read_open_fd fd len flags = .ok h) (hn : 0 < n) :
    pso_afs_file_read (some h) h.file_count (some b) n = .table_overrun h.file_count ∧
    h.files.get? h.file_count = none ∧
    (∀ k, k < h.file_count → ∃ e, h.files.get? k = some e) ∧
    (∀ hnd, h.file_count < hnd →
      pso_afs_file_read (some h) hnd (some b) n = .ret (-1) (some b)) ∧
    pso_afs_file_size (some h) h.file_count = -1 ∧
    ∀ fn m, pso_afs_file_name (some h) h.file_count fn m = (PSOARCHIVE_EFATAL, fn) := by
  obtain ⟨hl, _, _⟩ := afs_open_inv fd len flags h hopen
  have hnone : h.files.get? h.file_count = none := List.get?_eq_none.2 (by omega)
  refine ⟨?_, hnone, ?_, ?_, ?_, ?_⟩
  · have hc : ¬ (h.file_count > h.file_count ∨ n = 0) := by omega
    simp only [pso_afs_file_read, hc, if_false, hnone]
  · intro k hk
    exact ⟨h.files.get ⟨k, by omega⟩, List.get?_eq_get (by omega)⟩
  · intro hnd hh
    have hc : hnd > h.file_count ∨ n = 0 := Or.inl hh
    simp only [pso_afs_file_read, hc, if_true]
  · simp only [pso_afs_file_size, ge_iff_le, le_refl, if_true]
  · intro fn m
    simp only [pso_afs_file_name, ge_iff_le, le_refl, if_true]

/-- C31 on the 20-byte image with one entry: handle 1 passes the check of
`pso_afs_file_read`. -/
theorem afs_file_read_accepts_file_count_witness :
    pso_afs_read_open_fd ⟨afs_small_image, 0⟩ 20 0 = .ok afs_small_handle ∧ 0 < 4 ∧
    pso_afs_file_read (some afs_small_handle) 1 (some [0, 0, 0, 0]) 4 = .table_overrun 1 ∧
    pso_afs_file_size (some afs_small_handle) 1 = -1 :=
  have h := afs_file_read_accepts_file_count ⟨afs_small_image, 0⟩ 20 0 afs_small_handle
    [0, 0, 0, 0] 4 rfl (by decide)
  ⟨rfl, by decide, h.1, h.2.2.2.2.1⟩

/-! ## C33: `pso_prsd_max_compressed_size` -/

/-- C33, the code on every input. `pso_prsd_max_compressed_size` calls itself
before it adds 8, so no depth of nested calls lets it return, for any `len`;
`pso_prsd_archive` with non-null pointers and a non-zero length waits for it
and does not return either. -/
theorem prsd_max_compressed_size_never_returns (fuel len : Nat)
    (f : List Nat → List Nat → Nat → Nat → Int × List Nat) (cxt : prsd_crypt_cxt)
    (junk src : List Nat) (d0 : Option (List Nat)) (src_len key : Nat) :
    pso_prsd_max_compressed_size fuel len = none ∧
    pso_prsd_archive fuel f cxt junk (some src) (some d0) (src_len + 1) key = none := by
  have h : ∀ fuel len, pso_prsd_max_compressed_size fuel len = none := by
    intro fuel
    induction fuel with
    | zero => intro len; rfl
    | succ k ih => intro len; simp only [pso_prsd_max_compressed_size, ih, Option.map_none']
  refine ⟨h fuel len, ?_⟩
  simp only [pso_prsd_archive, Nat.succ_ne_zero, if_false, h]

/-! ## C34: the block `pso_prsd_compress` allocates -/

theorem length_malloc (junk : List Nat) (n : Nat) : (malloc junk n).length = n := by
  simp only [malloc, List.length_map, List.length_range]

theorem prsd_compress_block_le (junk : List Nat) (rv : Nat) :
    (malloc junk ((((rv : Int) + 3) % 2 ^ 32).toNat &&& 0xFFFFFFFC)).length
      ≤ (rv + 3) / 4 * 4 := by
  have e : (((rv : Int) + 3) % 2 ^ 32).toNat = (rv + 3) % 2 ^ 32 := by
    have : ((rv : Int) + 3) % 2 ^ 32 = (((rv + 3) % 2 ^ 32 : Nat) : Int) := by push_cast; rfl
    rw [this, Int.toNat_ofNat]
  rw [length_malloc, e, and_fffffffc _ (Nat.mod_lt _ (by norm_num))]
  exact Nat.mul_le_mul_right 4 (Nat.div_le_div_right (Nat.mod_le _ _))

/-- C34, the code on every input and at a failing input. For every
compressed length `rv` the block `pso_prsd_compress` allocates has at most
`(rv + 3)` rounded down to a multiple of 4 bytes: the 8 bytes of the header are
not counted. For the plaintext `1, 2, 3` the stand-in compressor returns
`rv = 4`; the block has 4 bytes, fewer than the header alone, and the first
store of the call, `memcpy(db2 + 8, db, 4)` for the payload at offsets 8..11,
ends at offset 12, past the end of the block. -/
theorem prsd_compress_block_too_small (junk : List Nat) (rv : Nat) :
    (malloc junk ((((rv : Int) + 3) % 2 ^ 32).toNat &&& 0xFFFFFFFC)).length
      ≤ (rv + 3) / 4 * 4 ∧
    (toy_prs.pso_prs_compress [1, 2, 3] 3).1 = 4 ∧
    (malloc [] (((4 + 3 : Int) % 2 ^ 32).toNat &&& 0xFFFFFFFC)).length = 4 ∧
    pso_prsd_compress toy_prs cxt0 [] (some [1, 2, 3]) (some none) 3 0
      = heap_result.overrun 4 12 := by
  refine ⟨prsd_compress_block_le junk rv, by decide, by decide, ?_⟩
  decide

/-! ## C35: the keystream depends on the key alone -/

theorem mix_stream_zero (c : prsd_crypt_cxt) :
    (mix_stream c).stream.getD 0 0 = c.stream.getD 0 0 := by
  simp only [mix_stream]
  rw [(mix_loop2_zero 31 25 _ (by omega)).1, (mix_loop1_zero 24 1 _ (by omega)).1]

theorem mix_n_zero (n : Nat) (c : prsd_crypt_cxt) :
    (mix_n n c).stream.getD 0 0 = c.stream.getD 0 0 := by
  induction n with
  | zero => rfl
  | succ n ih =>
    have e : mix_n (n + 1) c = mix_stream (mix_n n c) := rfl
    rw [e, mix_stream_zero, ih]

theorem crypt_init_fold_getD (l : List Nat) (j : Nat) (hl : ∀ i ∈ l, i % 55 ≠ j) :
    ∀ st : Nat × Nat × List Nat,
      (l.foldl crypt_init_body st).2.2.getD j 0 = st.2.2.getD j 0 := by
  induction l with
  | nil => intro st; rfl
  | cons i l ih =>
    intro st
    rw [List.foldl_cons, ih (fun k hk => hl k (List.mem_cons_of_mem _ hk))]
    have e : (crypt_init_body st i).2.2 = st.2.2.set (i % 55) st.2.1 := rfl
    rw [e, getD_set, if_neg]
    intro h
    exact hl i (List.mem_cons_self _ _) h.1

theorem crypt_scheduled_stream (c : prsd_crypt_cxt) (key : Nat) :
    (crypt_scheduled c key).stream
      = (crypt_init_loop 0x46E 0x15 key 1 (c.stream.set 55 key)).2.2 := by
  simp only [crypt_scheduled]

theorem crypt_scheduled_getD (c : prsd_crypt_cxt) (key j : Nat)
    (hj : ∀ i ∈ crypt_init_counters 0x46E 0x15, i % 55 ≠ j) :
    (crypt_scheduled c key).stream.getD j 0 = (c.stream.set 55 key).getD j 0 := by
  rw [crypt_scheduled_stream, crypt_init_loop_fold, crypt_init_fold_getD _ j hj]

theorem crypt_dwords_zero (c : prsd_crypt_cxt) (h2 : 2 ≤ c.pos) (h56 : c.pos ≤ 56) (n : Nat) :
    (crypt_dwords c n).stream.getD 0 0 = c.stream.getD 0 0 := by
  rw [crypt_dwords_eq c h2 h56 n]
  exact mix_n_zero _ c

theorem pso_prsd_crypt_init_zero (c : prsd_crypt_cxt) (key : Nat) :
    (pso_prsd_crypt_init c key).stream.getD 0 0 = c.stream.getD 0 0 := by
  have e : ∀ X : prsd_crypt_cxt,
      ({ X with pos := 56 } : prsd_crypt_cxt).stream.getD 0 0 = X.stream.getD 0 0 := fun _ => rfl
  have hc : ∀ i ∈ crypt_init_counters 0x46E 0x15, i % 55 ≠ 0 := by decide
  rw [pso_prsd_crypt_init_eq, e, mix_n_zero, crypt_scheduled_getD c key 0 hc, getD_set,
    if_neg (by omega)]

/-- C35. After `pso_prsd_crypt_init(cxt, key)` the keystream is the same
whatever the context held before (two contexts of 56 slots give the same key
words). The seeding loop stores to slots `21k mod 55` for `k = 1..54`, which
are the slots 1..54, each once; slot 55 holds the key when the loop ends; the
key-scheduled slots 1..55 do not depend on the prior contents; and slot 0
keeps its prior value through the initialisation and any number of
`crypt_dword` calls, while the keystream does not depend on it. -/
theorem keystream_determined_by_key (c1 c2 : prsd_crypt_cxt) (key : Nat)
    (h1 : c1.stream.length = 56) (h2 : c2.stream.length = 56) :
    (∀ n, keystream_word (pso_prsd_crypt_init c1 key) n
      = keystream_word (pso_prsd_crypt_init c2 key) n) ∧
    ((crypt_init_counters 0x46E 0x15).map (fun i => i % 55)).Perm (List.range' 1 54) ∧
    (crypt_scheduled c1 key).stream.getD 55 0 = key ∧
    (∀ i, 1 ≤ i → i < 56 →
      (crypt_scheduled c1 key).stream.getD i 0 = (crypt_scheduled c2 key).stream.getD i 0) ∧
    (∀ n, (crypt_dwords (pso_prsd_crypt_init c1 key) n).stream.getD 0 0
      = c1.stream.getD 0 0) := by
  refine ⟨?_, by decide, ?_, ?_, ?_⟩
  · intro n
    exact keystream_word_agree n _ _ (pso_prsd_crypt_init_agree c1 c2 key h1 h2)
  · have hc : ∀ i ∈ crypt_init_counters 0x46E 0x15, i % 55 ≠ 55 := fun i _ => by omega
    rw [crypt_scheduled_getD c1 key 55 hc, getD_set, if_pos ⟨rfl, by omega⟩]
  · intro i hi1 hi2
    rw [crypt_scheduled_stream, crypt_scheduled_stream]
    exact (crypt_init_loop_stream_agree c1.stream c2.stream key h1 h2).2.2 i hi1 hi2
  · intro n
    have hpos := pso_prsd_crypt_init_pos c1 key
    rw [crypt_dwords_zero _ (by rw [hpos]; omega) (by rw [hpos]), pso_prsd_crypt_init_zero]

/-- C35 on the all-zero context and a context holding 7 in every slot, key
`0x12345678`: the first key word is the same. -/
theorem keystream_determined_by_key_witness :
    cxt0.stream.length = 56 ∧
    ({ stream := List.replicate 56 7, key := 9, pos := 3 } : prsd_crypt_cxt).stream.length = 56 ∧
    keystream_word (pso_prsd_crypt_init cxt0 0x12345678) 0
      = keystream_word
          (pso_prsd_crypt_init { stream := List.replicate 56 7, key := 9, pos := 3 } 0x12345678)
          0 :=
  ⟨by decide, by decide,
    (keystream_determined_by_key cxt0 { stream := List.replicate 56 7, key := 9, pos := 3 }
      0x12345678 (by decide) (by decide)).1 0⟩

/-! ## Reading back what the Container B writer wrote -/

theorem strncpy_first (fn : List Nat) (n : Nat) (hn : 0 < n) :
    (strncpy fn n).getD 0 0 = fn.getD 0 0 := by
  obtain ⟨m, rfl⟩ : ∃ m, n = m + 1 := ⟨n - 1, by omega⟩
  cases fn with
  | nil =>
    simp only [strncpy, List.takeWhile_nil, List.take_nil, List.nil_append, List.length_nil,
      Nat.sub_zero, List.replicate_succ, List.getD_cons_zero, List.getD_nil]
  | cons c rest =>
    by_cases hc : c = 0
    · subst hc
      simp only [strncpy, ne_eq, not_true_eq_false, decide_False, List.takeWhile_cons,
        Bool.false_eq_true, if_false, List.take_nil, List.nil_append, List.length_nil,
        Nat.sub_zero, List.replicate_succ, List.getD_cons_zero]
    · have hd : decide (c ≠ 0) = true := decide_eq_true hc
      simp only [strncpy, List.takeWhile_cons, hd, if_true, List.take_succ_cons,
        List.cons_append, List.getD_cons_zero]

theorem gsl_entry_first_byte (E : Nat) (fn : List Nat) (off len : Nat) :
    (gsl_entry E fn off len).getD 0 0 = fn.getD 0 0 := by
  have hS := length_strncpy fn 32
  simp only [gsl_entry, List.append_assoc]
  rw [getD_append_if, if_pos (by omega), strncpy_first fn 32 (by omega)]

theorem gsl_decode_be_entry (fn : List Nat) (off len : Nat) :
    gsl_decode_be (gsl_entry PSO_GSL_BIG_ENDIAN fn off len)
      = ((off >>> 11) % 2 ^ 32 % 2 ^ 32, len % 2 ^ 32) := by
  have hS := length_strncpy fn 32
  have c : PSO_GSL_BIG_ENDIAN &&& PSO_GSL_BIG_ENDIAN ≠ 0 := by decide
  simp only [gsl_entry, if_pos c, List.append_assoc, gsl_decode_be, be32_bytes]
  have g : ∀ k R, (strncpy fn 32 ++ R).getD (32 + k) 0 = R.getD k 0 :=
    fun k R => getD_append_32 _ R hS k
  have g0 := g 0
  have g1 := g 1
  have g2 := g 2
  have g3 := g 3
  have g4 := g 4
  have g5 := g 5
  have g6 := g 6
  have g7 := g 7
  simp only [Nat.reduceAdd] at g0 g1 g2 g3 g4 g5 g6 g7
  simp only [g0, g1, g2, g3, g4, g5, g6, g7, List.cons_append, List.nil_append,
    List.getD_cons_zero, List.getD_cons_succ, le32_le32_bytes]

/-- What `pso_gsl_read_open_fd` finds, in the writer's byte order `E`, in the
image of the named blobs `blobs` when the first `n` names are non-empty and
the table byte at `48 * n` is zero: `n` entries, each with the name field, the
data offset and the length the writer stored. -/
theorem gsl_open_image (E : Nat) (blobs : List (List Nat × List Nat)) (n : Nat)
    (hE : E = PSO_GSL_BIG_ENDIAN ∨ E = PSO_GSL_LITTLE_ENDIAN)
    (hn1 : 1 ≤ n) (hnb : n ≤ blobs.length) (hn2 : blobs.length ≤ 255)
    (hnames : ∀ i nb, i < n → blobs.get? i = some nb → nb.1.getD 0 0 ≠ 0)
    (hzero : (gsl_image E blobs).getD (48 * n) 0 = 0)
    (htot : padded_end (256 * 48) (blobs.map (fun nb => nb.2.length)) < 2 ^ 32) :
    pso_gsl_read_open_fd ⟨gsl_image E blobs, 0⟩ (gsl_image E blobs).length E =
      .ok { fd := ⟨gsl_image E blobs, 48 * n + 48⟩,
            files := (List.range n).map
              (fun k => gsl_file_of_buf E (((gsl_image E blobs).drop (48 * k)).take 48)),
            file_count := n, flags := E } ∧
    ∀ i nb, blobs.get? i = some nb →
      gsl_file_of_buf E (((gsl_image E blobs).drop (48 * i)).take 48) =
        ⟨strncpy nb.1 32, padded_off (256 * 48) (blobs.map (fun nb => nb.2.length)) i,
          nb.2.length⟩ := by
  obtain ⟨s1, s2, s3⟩ := gsl_image_spec E blobs (by omega) hn2
  have hge := padded_end_ge (blobs.map (fun nb => nb.2.length)) (256 * 48)
  have hfile : ∀ i nb, blobs.get? i = some nb →
      gsl_file_of_buf E (((gsl_image E blobs).drop (48 * i)).take 48) =
        ⟨strncpy nb.1 32, padded_off (256 * 48) (blobs.map (fun nb => nb.2.length)) i,
          nb.2.length⟩ := by
    intro i nb hb
    obtain ⟨e1, e2, e3, _⟩ := s3 i nb hb
    rw [e1]
    exact gsl_file_of_entry E nb.1 _ nb.2.length hE e3 (by omega) (by omega)
  have hget : ∀ i, i < blobs.length → ∃ nb, blobs.get? i = some nb :=
    fun i hi => ⟨blobs.get ⟨i, hi⟩, List.get?_eq_get hi⟩
  refine ⟨?_, hfile⟩
  exact gsl_open_ok (gsl_image E blobs) E n (gsl_image E blobs).length hE hn1
    (by
      obtain ⟨nb, hb⟩ := hget 0 (by omega)
      rw [hfile 0 nb hb]
      simp only [padded_off]
      omega)
    (by rw [s1]; omega)
    (by
      intro k hk
      obtain ⟨nb, hb⟩ := hget k (by omega)
      obtain ⟨e1, e2, e3, _⟩ := s3 k nb hb
      constructor
      · rw [← getD_zero_take_drop _ _ 48 (by omega), e1, gsl_entry_first_byte]
        exact hnames k nb hk hb
      · rw [hfile k nb hb, s1]
        simp only
        omega)
    hzero

theorem gsl_first_entry_guess (buf : List Nat) (len : Nat)
    (h : ¬ ((gsl_decode_be buf).1 > len ∨ ((gsl_decode_be buf).1 * 2048) % 2 ^ 32 > len ∨
      (gsl_decode_be buf).2 > len)) :
    gsl_first_entry buf len 0 = gsl_first_entry buf len PSO_GSL_BIG_ENDIAN := by
  have c0 : (0 : Nat) &&& GSL_ENDIANNESS = 0 := by decide
  have c1 : ¬ (PSO_GSL_BIG_ENDIAN &&& GSL_ENDIANNESS = 0) := by decide
  have c2 : PSO_GSL_BIG_ENDIAN &&& PSO_GSL_BIG_ENDIAN ≠ 0 := by decide
  have c3 : (0 : Nat) ||| PSO_GSL_BIG_ENDIAN = PSO_GSL_BIG_ENDIAN := by decide
  simp only [gsl_first_entry, c0, if_true, if_neg h, if_neg c1, if_pos c2, c3]

theorem gsl_open_guess (fd : File) (len : Nat)
    (h : ¬ ((gsl_decode_be (read fd 48).1).1 > len ∨
      ((gsl_decode_be (read fd 48).1).1 * 2048) % 2 ^ 32 > len ∨
      (gsl_decode_be (read fd 48).1).2 > len)) :
    pso_gsl_read_open_fd fd len 0 = pso_gsl_read_open_fd fd len PSO_GSL_BIG_ENDIAN := by
  simp only [pso_gsl_read_open_fd, gsl_first_entry_guess _ _ h]

/-! ## C38: auto-detection on big-endian archives of the writer -/

/-- C38. An archive made by `pso_gsl_new_fd` with `PSO_GSL_BIG_ENDIAN` on an
empty file and at least one successful `pso_gsl_write_add`, all names
non-empty and the file shorter than `2^32` bytes: `pso_gsl_read_open_fd` with
no endianness flag succeeds and returns the very handle it returns with
`PSO_GSL_BIG_ENDIAN`, whose `file_count` is the number of blobs and whose entry
`i` holds the name field, data offset and size the writer stored. -/
theorem gsl_autodetect_big_endian (blobs : List (List Nat × List Nat)) (a : pso_gsl_write)
    (hnew : pso_gsl_new_fd ⟨[], 0⟩ PSO_GSL_BIG_ENDIAN = .ok a)
    (hn1 : 1 ≤ blobs.length) (hn2 : (blobs.length : Int) ≤ a.ftab_entries - 1)
    (hnames : ∀ nb ∈ blobs, nb.1.getD 0 0 ≠ 0)
    (htot : padded_end (256 * 48) (blobs.map (fun nb => nb.2.length)) < 2 ^ 32) :
    ∃ a1 f h,
      gsl_write_all (some a) blobs = (List.replicate blobs.length PSOARCHIVE_OK, some a1) ∧
      pso_gsl_write_close (some a1) = (PSOARCHIVE_OK, some f) ∧
      pso_gsl_read_open_fd ⟨f.data, 0⟩ f.data.length 0 = .ok h ∧
      pso_gsl_read_open_fd ⟨f.data, 0⟩ f.data.length PSO_GSL_BIG_ENDIAN = .ok h ∧
      pso_gsl_file_count (some h) = blobs.length ∧
      ∀ i nb, blobs.get? i = some nb →
        h.files.get? i = some ⟨strncpy nb.1 32,
          padded_off (256 * 48) (blobs.map (fun nb => nb.2.length)) i, nb.2.length⟩ := by
  have ha := pso_gsl_new_fd_ok ⟨[], 0⟩ PSO_GSL_BIG_ENDIAN a hnew
  subst ha
  simp only at hn2
  have hn3 : blobs.length ≤ 255 := by omega
  obtain ⟨a1, w1, w2, w3, w4, w5, w6, w7⟩ := gsl_write_all_spec blobs
    { fd := ⟨[], 0⟩, ftab_entries := 256, ftab_used := 0, ftab_pos := 0, data_pos := 256 * 48,
      flags := PSO_GSL_BIG_ENDIAN } (by simp only; omega) (by simp only; omega)
  simp only at w2
  have himg : a1.fd.data = gsl_image PSO_GSL_BIG_ENDIAN blobs := w2
  obtain ⟨s1, s2, s3⟩ := gsl_image_spec PSO_GSL_BIG_ENDIAN blobs hn1 hn3
  obtain ⟨hopen, hfile⟩ := gsl_open_image PSO_GSL_BIG_ENDIAN blobs blobs.length (Or.inl rfl) hn1
    (le_refl _) hn3 (fun i nb _ hb => hnames nb (List.get?_mem hb)) s2 htot
  have hge := padded_end_ge (blobs.map (fun nb => nb.2.length)) (256 * 48)
  have hguess : pso_gsl_read_open_fd ⟨gsl_image PSO_GSL_BIG_ENDIAN blobs, 0⟩
      (gsl_image PSO_GSL_BIG_ENDIAN blobs).length 0 =
      pso_gsl_read_open_fd ⟨gsl_image PSO_GSL_BIG_ENDIAN blobs, 0⟩
        (gsl_image PSO_GSL_BIG_ENDIAN blobs).length PSO_GSL_BIG_ENDIAN := by
    apply gsl_open_guess
    obtain ⟨nb, hb⟩ : ∃ nb, blobs.get? 0 = some nb :=
      ⟨blobs.get ⟨0, by omega⟩, List.get?_eq_get (by omega)⟩
    obtain ⟨e1, e2, e3, _⟩ := s3 0 nb hb
    have hbuf : (read ⟨gsl_image PSO_GSL_BIG_ENDIAN blobs, 0⟩ 48).1
        = ((gsl_image PSO_GSL_BIG_ENDIAN blobs).drop (48 * 0)).take 48 := rfl
    rw [hbuf, e1, gsl_decode_be_entry, s1]
    have hp : padded_off (256 * 48) (blobs.map (fun nb => nb.2.length)) 0 = 256 * 48 := by
      simp only [padded_off]
    rw [hp] at e2 ⊢
    have hs : (256 * 48) >>> 11 = 6 := by decide
    rw [hs]
    simp only
    omega
  refine ⟨a1, a1.fd, _, w1, rfl, (by rw [himg, hguess]; exact hopen),
    (by rw [himg]; exact hopen), ?_, ?_⟩
  · rfl
  · intro i nb hb
    have hi := get?_lt blobs i nb hb
    show ((List.range blobs.length).map _).get? i = _
    rw [getElem?_map_range _ _ _ hi, hfile i nb hb]

/-- C38 on two named blobs written big-endian. -/
theorem gsl_autodetect_big_endian_witness :
    pso_gsl_new_fd ⟨[], 0⟩ PSO_GSL_BIG_ENDIAN = .ok gsl_fresh_be ∧
    1 ≤ example_named_blobs.length ∧
    (example_named_blobs.length : Int) ≤ gsl_fresh_be.ftab_entries - 1 ∧
    (∀ nb ∈ example_named_blobs, nb.1.getD 0 0 ≠ 0) ∧
    padded_end (256 * 48) (example_named_blobs.map (fun nb => nb.2.length)) < 2 ^ 32 ∧
    ∃ a1 f h,
      gsl_write_all (some gsl_fresh_be) example_named_blobs
        = (List.replicate example_named_blobs.length PSOARCHIVE_OK, some a1) ∧
      pso_gsl_write_close (some a1) = (PSOARCHIVE_OK, some f) ∧
      pso_gsl_read_open_fd ⟨f.data, 0⟩ f.data.length 0 = .ok h ∧
      pso_gsl_read_open_fd ⟨f.data, 0⟩ f.data.length PSO_GSL_BIG_ENDIAN = .ok h ∧
      pso_gsl_file_count (some h) = example_named_blobs.length ∧
      ∀ i nb, example_named_blobs.get? i = some nb →
        h.files.get? i = some ⟨strncpy nb.1 32,
          padded_off (256 * 48) (example_named_blobs.map (fun nb => nb.2.length)) i,
          nb.2.length⟩ :=
  ⟨rfl, by decide, by decide, by decide, by decide,
    gsl_autodetect_big_endian example_named_blobs gsl_fresh_be rfl (by decide) (by decide)
      (by decide) (by decide)⟩

/-! ## C36: an empty name ends the table -/

theorem get?_append_left {β : Type} (l1 l2 : List β) (i : Nat) (x : β)
    (h : l1.get? i = some x) : (l1 ++ l2).get? i = some x := by
  rw [List.get?_eq_getElem?, List.getElem?_append_left (get?_lt l1 i x h),
    ← List.get?_eq_getElem?, h]

theorem get?_append_mid {β : Type} (l1 l2 : List β) (x : β) :
    (l1 ++ x :: l2).get? l1.length = some x := by
  rw [List.get?_eq_getElem?, List.getElem?_append_right (le_refl _), Nat.sub_self,
    List.getElem?_cons_zero]

/-- What one `pso_gsl_write_add` leaves in the table slot at the table cursor,
for a handle with a free slot whose table cursor is at least 48 bytes below
its data cursor. -/
theorem pso_gsl_write_add_slot (w : pso_gsl_write) (fn d : List Nat)
    (hcap : (w.ftab_used : Int) ≠ w.ftab_entries - 1) (hb : w.data_pos + d.length < 2 ^ 64)
    (htp : w.ftab_pos + 48 ≤ w.data_pos) :
    ∃ w1, pso_gsl_write_add (some w) fn d d.length = (PSOARCHIVE_OK, some w1) ∧
      (w1.fd.data.drop w.ftab_pos).take 48 = gsl_entry w.flags fn w.data_pos d.length ∧
      w1.fd.data.getD w.ftab_pos 0 = fn.getD 0 0 := by
  refine ⟨_, pso_gsl_write_add_eq w fn d hcap hb, ?_, ?_⟩
  · simp only
    have hl := length_gsl_entry w.flags fn w.data_pos d.length
    have hlen := length_add_data w.fd.data w.ftab_pos
      ((gsl_item w.flags (fn, d)).1 w.data_pos) w.data_pos d
      (by show w.ftab_pos + (gsl_entry w.flags fn w.data_pos d.length).length ≤ _; omega)
    have hgt := next_data_pos_gt w.data_pos d.length
    apply ext_getD
    · rw [List.length_take, List.length_drop, hlen, hl]
      omega
    · intro i hi
      rw [List.length_take, List.length_drop] at hi
      rw [getD_take, if_pos (by omega), getD_drop, getD_add_data _ _ _ _ _
        (by show w.ftab_pos + (gsl_entry w.flags fn w.data_pos d.length).length ≤ _; omega)]
      have c : w.ftab_pos ≤ w.ftab_pos + i ∧
          w.ftab_pos + i < w.ftab_pos + ((gsl_item w.flags (fn, d)).1 w.data_pos).length := by
        show _ ∧ _ < w.ftab_pos + (gsl_entry w.flags fn w.data_pos d.length).length
        omega
      rw [if_pos c, Nat.add_sub_cancel_left]
      rfl
  · simp only
    rw [getD_add_data _ _ _ _ _
      (by show w.ftab_pos + (gsl_entry w.flags fn w.data_pos d.length).length ≤ _
          rw [length_gsl_entry]; omega)]
    have c : w.ftab_pos ≤ w.ftab_pos ∧
        w.ftab_pos < w.ftab_pos + ((gsl_item w.flags (fn, d)).1 w.data_pos).length := by
      show _ ∧ _ < w.ftab_pos + (gsl_entry w.flags fn w.data_pos d.length).length
      rw [length_gsl_entry]
      omega
    rw [if_pos c, Nat.sub_self]
    exact gsl_entry_first_byte w.flags fn w.data_pos d.length

/-- C36. A name that is the empty string (first byte 0; `fn0 = []` is the
case of no characters at all) gives a 48-byte table entry whose first byte is
0, and `pso_gsl_write_add` stores it at the table cursor of every handle with a
free slot. When the named blobs `l1`, then such a blob, then the blobs `l2`
are appended to a fresh handle on an empty file, every append succeeds, the
table byte at `48 * l1.length` is 0, and `pso_gsl_read_open_fd` in the
writer's byte order reports `PSOARCHIVE_EMPTY` when `l1` is empty and
otherwise returns exactly the `l1.length` entries of `l1`. -/
theorem gsl_empty_name_terminates (E : Nat) (l1 l2 : List (List Nat × List Nat))
    (fn0 b : List Nat) (a : pso_gsl_write)
    (hE : E = PSO_GSL_BIG_ENDIAN ∨ E = PSO_GSL_LITTLE_ENDIAN)
    (hnew : pso_gsl_new_fd ⟨[], 0⟩ E = .ok a) (hfn : fn0.getD 0 0 = 0)
    (hn : ((l1 ++ (fn0, b) :: l2).length : Int) ≤ a.ftab_entries - 1)
    (hnames : ∀ nb ∈ l1, nb.1.getD 0 0 ≠ 0)
    (htot : padded_end (256 * 48) ((l1 ++ (fn0, b) :: l2).map (fun nb => nb.2.length))
      < 2 ^ 32) :
    (∀ flags dp len, (gsl_entry flags fn0 dp len).length = 48 ∧
      (gsl_entry flags fn0 dp len).getD 0 0 = 0) ∧
    (∀ (w : pso_gsl_write) (d : List Nat), (w.ftab_used : Int) ≠ w.ftab_entries - 1 →
      w.data_pos + d.length < 2 ^ 64 → w.ftab_pos + 48 ≤ w.data_pos →
      ∃ w1, pso_gsl_write_add (some w) fn0 d d.length = (PSOARCHIVE_OK, some w1) ∧
        (w1.fd.data.drop w.ftab_pos).take 48 = gsl_entry w.flags fn0 w.data_pos d.length ∧
        w1.fd.data.getD w.ftab_pos 0 = 0) ∧
    ∃ a1, gsl_write_all (some a) (l1 ++ (fn0, b) :: l2)
        = (List.replicate (l1 ++ (fn0, b) :: l2).length PSOARCHIVE_OK, some a1) ∧
      a1.fd.data.getD (48 * l1.length) 0 = 0 ∧
      (l1 = [] →
        pso_gsl_read_open_fd ⟨a1.fd.data, 0⟩ a1.fd.data.length E = .error PSOARCHIVE_EMPTY) ∧
      (l1 ≠ [] → ∃ h,
        pso_gsl_read_open_fd ⟨a1.fd.data, 0⟩ a1.fd.data.length E = .ok h ∧
        pso_gsl_file_count (some h) = l1.length ∧ h.files.length = l1.length ∧
        ∀ i nb, l1.get? i = some nb →
          h.files.get? i = some ⟨strncpy nb.1 32,
            padded_off (256 * 48) ((l1 ++ (fn0, b) :: l2).map (fun nb => nb.2.length)) i,
            nb.2.length⟩) := by
  have ha := pso_gsl_new_fd_ok ⟨[], 0⟩ E a hnew
  subst ha
  simp only at hn
  obtain ⟨blobs, hblobs⟩ : ∃ blobs, blobs = l1 ++ (fn0, b) :: l2 := ⟨_, rfl⟩
  rw [← hblobs] at hn htot ⊢
  have hlen : blobs.length = l1.length + (l2.length + 1) := by
    rw [hblobs, List.length_append, List.length_cons]
  have hn3 : blobs.length ≤ 255 := by omega
  have hn1 : 1 ≤ blobs.length := by omega
  obtain ⟨a1, w1, w2, w3, w4, w5, w6, w7⟩ := gsl_write_all_spec blobs
    { fd := ⟨[], 0⟩, ftab_entries := 256, ftab_used := 0, ftab_pos := 0, data_pos := 256 * 48,
      flags := E } (by simp only; omega) (by simp only; omega)
  simp only at w2
  have himg : a1.fd.data = gsl_image E blobs := w2
  obtain ⟨s1, s2, s3⟩ := gsl_image_spec E blobs hn1 hn3
  have hge := padded_end_ge (blobs.map (fun nb => nb.2.length)) (256 * 48)
  have hmid : blobs.get? l1.length = some (fn0, b) := by
    rw [hblobs]
    exact get?_append_mid l1 l2 (fn0, b)
  have hzero : (gsl_image E blobs).getD (48 * l1.length) 0 = 0 := by
    obtain ⟨e1, _, _, _⟩ := s3 l1.length (fn0, b) hmid
    rw [← getD_zero_take_drop _ _ 48 (by omega), e1, gsl_entry_first_byte]
    exact hfn
  refine ⟨fun flags dp len => ⟨length_gsl_entry flags fn0 dp len, ?_⟩, ?_, a1, w1, ?_, ?_, ?_⟩
  · rw [gsl_entry_first_byte]
    exact hfn
  · intro w d hcap hb htp
    obtain ⟨w1, e1, e2, e3⟩ := pso_gsl_write_add_slot w fn0 d hcap hb htp
    exact ⟨w1, e1, e2, by rw [e3]; exact hfn⟩
  · rw [himg]
    exact hzero
  · intro hl1
    subst hl1
    rw [himg]
    obtain ⟨r1, r2, r3⟩ := read_full ⟨gsl_image E blobs, 0⟩ 48 (by simp only; rw [s1]; omega)
    have g0 := r3 0 (by omega)
    simp only [Nat.add_zero] at g0
    have hz : (gsl_image E blobs).getD 0 0 = 0 := hzero
    rw [hz] at g0
    simp only [pso_gsl_read_open_fd, r1, ne_eq, not_true_eq_false, if_false, g0, if_true]
  · intro hl1
    have hl1n : 1 ≤ l1.length := by
      cases l1 with
      | nil => exact absurd rfl hl1
      | cons x xs => simp only [List.length_cons]; omega
    obtain ⟨hopen, hfile⟩ := gsl_open_image E blobs l1.length hE hl1n (by omega) hn3
      (fun i nb hi hb => by
        have h2 : l1.get? i = some nb := by
          rw [hblobs, List.get?_eq_getElem?, List.getElem?_append_left hi,
            ← List.get?_eq_getElem?] at hb
          exact hb
        exact hnames nb (List.get?_mem h2)) hzero htot
    refine ⟨_, (by rw [himg]; exact hopen), ?_, ?_, ?_⟩
    · rfl
    · simp only [List.length_map, List.length_range]
    · intro i nb hb
      have hi := get?_lt l1 i nb hb
      have hb2 : blobs.get? i = some nb := by
        rw [hblobs]
        exact get?_append_left l1 _ i nb hb
      show ((List.range l1.length).map _).get? i = _
      rw [getElem?_map_range _ _ _ hi, hfile i nb hb2]

/-- C36 on `a.bin`, then a blob with the empty name, then the blob `c`,
written little-endian. -/
theorem gsl_empty_name_terminates_witness :
    (PSO_GSL_LITTLE_ENDIAN = PSO_GSL_BIG_ENDIAN ∨ PSO_GSL_LITTLE_ENDIAN = PSO_GSL_LITTLE_ENDIAN) ∧
    pso_gsl_new_fd ⟨[], 0⟩ PSO_GSL_LITTLE_ENDIAN = .ok gsl_fresh_le ∧
    ([] : List Nat).getD 0 0 = 0 ∧
    ((example_named_blobs ++ ([], [1, 2, 3]) :: gsl_empty_name_tail).length : Int)
      ≤ gsl_fresh_le.ftab_entries - 1 ∧
    (∀ nb ∈ example_named_blobs, nb.1.getD 0 0 ≠ 0) ∧
    padded_end (256 * 48)
      ((example_named_blobs ++ ([], [1, 2, 3]) :: gsl_empty_name_tail).map
        (fun nb => nb.2.length)) < 2 ^ 32 ∧
    ∃ a1, gsl_write_all (some gsl_fresh_le)
          (example_named_blobs ++ ([], [1, 2, 3]) :: gsl_empty_name_tail)
        = (List.replicate (example_named_blobs ++ ([], [1, 2, 3]) :: gsl_empty_name_tail).length
            PSOARCHIVE_OK, some a1) ∧
      a1.fd.data.getD (48 * example_named_blobs.length) 0 = 0 ∧
      ∃ h, pso_gsl_read_open_fd ⟨a1.fd.data, 0⟩ a1.fd.data.length PSO_GSL_LITTLE_ENDIAN
          = .ok h ∧
        pso_gsl_file_count (some h) = example_named_blobs.length :=
  have t := gsl_empty_name_terminates PSO_GSL_LITTLE_ENDIAN example_named_blobs
    gsl_empty_name_tail [] [1, 2, 3] gsl_fresh_le (Or.inr rfl) rfl rfl (by decide) (by decide)
    (by decide)
  ⟨Or.inr rfl, rfl, rfl, by decide, by decide, by decide,
    t.2.2.elim (fun a1 ha => ⟨a1, ha.1, ha.2.1,
      (ha.2.2.2 (by decide)).elim (fun h hh => ⟨h, hh.1, hh.2.1⟩)⟩)⟩

/-! ## Runs of the writers -/

theorem bytes_at_bytes_at (data : List Nat) (len : Nat) :
    bytes_at (bytes_at data 0 len) 0 len = bytes_at data 0 len := by
  have h := bytes_at_self (bytes_at data 0 len)
  rw [length_bytes_at] at h
  exact h

theorem pso_afs_write_add_bytes (a : pso_afs_write) (fn data : List Nat) (len : Nat) :
    pso_afs_write_add (some a) fn data len =
      pso_afs_write_add (some a) fn (bytes_at data 0 len) (bytes_at data 0 len).length := by
  rw [length_bytes_at]
  simp only [pso_afs_write_add, bytes_at_bytes_at]

theorem pso_gsl_write_add_bytes (a : pso_gsl_write) (fn data : List Nat) (len : Nat) :
    pso_gsl_write_add (some a) fn data len =
      pso_gsl_write_add (some a) fn (bytes_at data 0 len) (bytes_at data 0 len).length := by
  rw [length_bytes_at]
  simp only [pso_gsl_write_add, bytes_at_bytes_at]

/-- What `pso_afs_write_add` returns for any data pointer and length, when the
blob ends below offset `2^64`. -/
theorem pso_afs_write_add_len (a : pso_afs_write) (fn data : List Nat) (len : Nat)
    (hb : a.data_pos + len < 2 ^ 64) :
    pso_afs_write_add (some a) fn data len = (PSOARCHIVE_OK, some
      { fd := ⟨add_data a.fd.data a.ftab_pos (le32_bytes a.data_pos ++ le32_bytes len)
                 a.data_pos (bytes_at data 0 len), next_data_pos a.data_pos len⟩,
        ftab_used := a.ftab_used + 1, flags := a.flags, ftab_pos := a.ftab_pos + 8,
        data_pos := next_data_pos a.data_pos len }) := by
  have hl := length_bytes_at data 0 len
  rw [pso_afs_write_add_bytes, pso_afs_write_add_eq a fn (bytes_at data 0 len) (by omega)]
  simp only [afs_item, hl]

/-- What a successful `pso_gsl_write_add` has done, for any data pointer and
length, when the blob ends below offset `2^64`. -/
theorem pso_gsl_write_add_len (a a1 : pso_gsl_write) (fn data : List Nat) (len : Nat)
    (h : pso_gsl_write_add (some a) fn data len = (PSOARCHIVE_OK, some a1))
    (hb : a.data_pos + len < 2 ^ 64) :
    (a.ftab_used : Int) ≠ a.ftab_entries - 1 ∧
    a1 = { fd := ⟨add_data a.fd.data a.ftab_pos (gsl_entry a.flags fn a.data_pos len)
                    a.data_pos (bytes_at data 0 len), next_data_pos a.data_pos len⟩,
           ftab_entries := a.ftab_entries, ftab_used := a.ftab_used + 1, flags := a.flags,
           ftab_pos := a.ftab_pos + 48, data_pos := next_data_pos a.data_pos len } := by
  have hl := length_bytes_at data 0 len
  by_cases hf : (a.ftab_used : Int) = a.ftab_entries - 1
  · rw [pso_gsl_write_add_full a fn data len hf] at h
    have hc : PSOARCHIVE_EFATAL = PSOARCHIVE_OK := (Prod.mk.inj h).1
    exact absurd hc (by decide)
  · refine ⟨hf, ?_⟩
    rw [pso_gsl_write_add_bytes,
      pso_gsl_write_add_eq a fn (bytes_at data 0 len) hf (by omega)] at h
    have e := (Option.some.inj (Prod.mk.inj h).2).symm
    rw [e]
    simp only [gsl_item, hl]

theorem and_pad_mask_mod (x : Nat) : (x &&& (2 ^ 64 - 2048)) % 2048 = 0 := by
  have m : (2 ^ 64 - 2048) &&& (2 ^ 11 - 1) = 0 := by decide
  have h := Nat.and_pow_two_sub_one_eq_mod (x &&& (2 ^ 64 - 2048)) 11
  rw [Nat.and_assoc, m, Nat.and_zero] at h
  have e : (2 : Nat) ^ 11 = 2048 := by norm_num
  rw [e] at h
  exact h.symm

theorem and_block_mask_mod (x : Nat) : (x &&& 0xFFFFF800) % 2048 = 0 := by
  have m : 0xFFFFF800 &&& (2 ^ 11 - 1) = 0 := by decide
  have h := Nat.and_pow_two_sub_one_eq_mod (x &&& 0xFFFFF800) 11
  rw [Nat.and_assoc, m, Nat.and_zero] at h
  have e : (2 : Nat) ^ 11 = 2048 := by norm_num
  rw [e] at h
  exact h.symm

theorem pad_file_mod (fd : File) : (pad_file fd 2048).1 % 2048 = 0 := by
  have h := and_pad_mask_mod fd.pos
  simp only [pad_file, Nat.reduceEqDiff, if_false]
  omega

theorem next_data_pos_least (d L m : Nat) (hm : m % 2048 = 0) (h : d + L < m) :
    next_data_pos d L ≤ m := by
  unfold next_data_pos
  omega

theorem next_data_pos_aligned (d L : Nat) (h : (d + L) % 2048 = 0) :
    next_data_pos d L = d + L + 2048 := by
  unfold next_data_pos
  omega


/-- The invariant of the Container B writer along a run from an empty file;
`ds` is the data cursor before the first append. -/
theorem gsl_write_run_inv (ds : Nat) (a : pso_gsl_write)
    (h : gsl_write_run (fun ents => ents * 48 + 2048 < 2 ^ 32) ds a) :
    a.ftab_pos = 48 * a.ftab_used ∧ (a.ftab_used : Int) + 1 ≤ a.ftab_entries ∧
    a.ftab_entries * 48 ≤ (ds : Int) ∧ ds ≤ a.data_pos ∧ a.data_pos % 2048 = 0 ∧
    (a.ftab_used = 0 → a.fd.data = [] ∧ a.data_pos = ds) ∧
    (0 < a.ftab_used → a.fd.data.length = a.data_pos) ∧
    (∀ j, a.ftab_pos ≤ j → j < ds → a.fd.data.getD j 0 = 0) := by
  induction h with
  | new_fd flags a h =>
    rw [pso_gsl_new_fd_ok ⟨[], 0⟩ flags a h]
    refine ⟨rfl, ?_, ?_, le_refl _, ?_, fun _ => ⟨rfl, rfl⟩, ?_, ?_⟩
    · show ((0 : Nat) : Int) + 1 ≤ 256
      omega
    · show (256 : Int) * 48 ≤ ((256 * 48 : Nat) : Int)
      omega
    · show 256 * 48 % 2048 = 0
      omega
    · intro h0
      exact absurd h0 (Nat.lt_irrefl 0)
    · intro j _ _
      rfl
  | set_ftab_size ds a a1 ents _ hP h ih =>
    obtain ⟨i1, i2, i3, i4, i5, i6, i7, i8⟩ := ih
    have hu : a.ftab_used = 0 := by
      by_contra hu
      have e0 : pso_gsl_write_set_ftab_size (some a) ents = (PSOARCHIVE_EFATAL, some a) := by
        simp only [pso_gsl_write_set_ftab_size, if_pos hu]
      rw [e0] at h
      have hc : PSOARCHIVE_EFATAL = PSOARCHIVE_OK := (Prod.mk.inj h).1
      exact absurd hc (by decide)
    have hm : max ents 256 = ents ∨ max ents 256 = 256 := by
      rcases le_total ents 256 with h1 | h1
      · exact Or.inr (max_eq_right h1)
      · exact Or.inl (max_eq_left h1)
    obtain ⟨m, hmdef⟩ : ∃ m, m = max ents 256 := ⟨_, rfl⟩
    have hm1 : 256 ≤ m := by rw [hmdef]; exact le_max_right _ _
    have hm2 : m * 48 + 2048 < 2 ^ 32 := by
      rw [hmdef]
      rcases hm with e | e <;> rw [e]
      · exact hP
      · norm_num
    rw [pso_gsl_write_set_ftab_size_spec a ents hu (by rw [← hmdef]; exact hm2), ← hmdef] at h
    have e : a1 = _ := (Option.some.inj (Prod.mk.inj h).2).symm
    rw [e]
    obtain ⟨N, hN⟩ : ∃ N, N = (m * 48 + 2047) / 2048 * 2048 := ⟨_, rfl⟩
    rw [← hN]
    have hN1 : 12288 ≤ N := by omega
    have hN2 : N % 2048 = 0 := by rw [hN]; exact Nat.mul_mod_left _ _
    refine ⟨i1, ?_, ?_, le_refl _, hN2, fun _ => ⟨(i6 hu).1, rfl⟩, ?_, ?_⟩
    · show ((a.ftab_used : Nat) : Int) + 1 ≤ ((N / 48 : Nat) : Int)
      have : 256 ≤ N / 48 := by omega
      omega
    · show ((N / 48 : Nat) : Int) * 48 ≤ (N : Int)
      have : N / 48 * 48 ≤ N := Nat.div_mul_le_self N 48
      omega
    · intro h0
      have h1 : 0 < a.ftab_used := h0
      omega
    · intro j _ _
      show a.fd.data.getD j 0 = 0
      rw [(i6 hu).1]
      rfl
  | add ds a a1 fn data len _ hb h ih =>
    obtain ⟨i1, i2, i3, i4, i5, i6, i7, i8⟩ := ih
    obtain ⟨hcap, e⟩ := pso_gsl_write_add_len a a1 fn data len h hb
    rw [e]
    have hE := length_gsl_entry a.flags fn a.data_pos len
    have hgt := next_data_pos_gt a.data_pos len
    have hmod := next_data_pos_mod a.data_pos len
    have htp : a.ftab_pos + (gsl_entry a.flags fn a.data_pos len).length ≤ a.data_pos := by
      rw [hE]
      omega
    have hlen := length_add_data a.fd.data a.ftab_pos (gsl_entry a.flags fn a.data_pos len)
      a.data_pos (bytes_at data 0 len) htp
    rw [length_bytes_at] at hlen
    have hD : a.fd.data.length ≤ a.data_pos := by
      rcases Nat.eq_zero_or_pos a.ftab_used with h0 | h0
      · rw [(i6 h0).1]
        exact Nat.zero_le _
      · rw [i7 h0]
    refine ⟨?_, ?_, i3, ?_, hmod, ?_, ?_, ?_⟩
    · show a.ftab_pos + 48 = 48 * (a.ftab_used + 1)
      omega
    · show ((a.ftab_used + 1 : Nat) : Int) + 1 ≤ a.ftab_entries
      push_cast
      omega
    · show ds ≤ next_data_pos a.data_pos len
      omega
    · intro h0
      have h1 : a.ftab_used + 1 = 0 := h0
      omega
    · intro _
      show (add_data _ _ _ _ _).length = next_data_pos a.data_pos len
      rw [hlen]
      exact max_eq_right (by omega)
    · intro j hj1 hj2
      have hj3 : a.ftab_pos + 48 ≤ j := hj1
      show (add_data _ _ _ _ _).getD j 0 = 0
      rw [getD_add_data _ _ _ _ _ htp, hE, length_bytes_at, if_neg (by omega),
        if_neg (by omega), if_neg (by omega)]
      exact i8 j (by omega) hj2

/-- The invariant of the Container A writer along a run from an empty file. -/
theorem afs_write_run_inv (a : pso_afs_write) (h : afs_write_run a) :
    a.ftab_pos + 8 ≤ a.data_pos ∧ a.data_pos % 2048 = 0 ∧
    (a.ftab_used = 0 → a.fd.data = []) ∧
    (0 < a.ftab_used → a.fd.data.length = a.data_pos) := by
  induction h with
  | new_fd flags a h =>
    have e : a = { fd := ⟨[], 0⟩, ftab_used := 0, ftab_pos := 8, data_pos := 0x80000,
                   flags := flags } := (Except.ok.inj h).symm
    rw [e]
    refine ⟨?_, ?_, fun _ => rfl, ?_⟩
    · show 8 + 8 ≤ 0x80000
      omega
    · show 0x80000 % 2048 = 0
      omega
    · intro h0
      exact absurd h0 (Nat.lt_irrefl 0)
  | add a a1 fn data len _ hb h ih =>
    obtain ⟨i1, i2, i3, i4⟩ := ih
    rw [pso_afs_write_add_len a fn data len hb] at h
    have e := (Option.some.inj (Prod.mk.inj h).2).symm
    rw [e]
    have hgt := next_data_pos_gt a.data_pos len
    have hmod := next_data_pos_mod a.data_pos len
    have hE : (le32_bytes a.data_pos ++ le32_bytes len).length = 8 := rfl
    have htp : a.ftab_pos + (le32_bytes a.data_pos ++ le32_bytes len).length ≤ a.data_pos := by
      rw [hE]
      exact i1
    have hlen := length_add_data a.fd.data a.ftab_pos (le32_bytes a.data_pos ++ le32_bytes len)
      a.data_pos (bytes_at data 0 len) htp
    rw [length_bytes_at] at hlen
    have hD : a.fd.data.length ≤ a.data_pos := by
      rcases Nat.eq_zero_or_pos a.ftab_used with h0 | h0
      · rw [i3 h0]
        exact Nat.zero_le _
      · rw [i4 h0]
    refine ⟨?_, hmod, ?_, ?_⟩
    · show a.ftab_pos + 8 + 8 ≤ next_data_pos a.data_pos len
      have : next_data_pos a.data_pos len = (a.data_pos + len) / 2048 * 2048 + 2048 := rfl
      omega
    · intro h0
      have h1 : a.ftab_used + 1 = 0 := h0
      omega
    · intro _
      show (add_data _ _ _ _ _).length = next_data_pos a.data_pos len
      rw [hlen]
      exact max_eq_right (by omega)

theorem afs_write_reach_mod (a : pso_afs_write) (h : afs_write_reach a) :
    a.data_pos % 2048 = 0 := by
  induction h with
  | new_fd fd flags a h =>
    have e : a = { fd := fd, ftab_used := 0, ftab_pos := 8, data_pos := 0x80000,
                   flags := flags } := (Except.ok.inj h).symm
    rw [e]
    show 0x80000 % 2048 = 0
    omega
  | add a a1 fn data len c _ h ih =>
    simp only [pso_afs_write_add] at h
    have e := (Option.some.inj (Prod.mk.inj h).2).symm
    rw [e]
    exact pad_file_mod _

theorem pso_gsl_write_set_ftab_size_mod (a a1 : pso_gsl_write) (ents : Nat) (c : pso_error_t)
    (h : pso_gsl_write_set_ftab_size (some a) ents = (c, some a1))
    (ih : a.data_pos % 2048 = 0) : a1.data_pos % 2048 = 0 := by
  obtain ⟨m, hm⟩ : ∃ m, m = if ents < 256 then 256 else ents := ⟨_, rfl⟩
  by_cases hu : a.ftab_used ≠ 0
  · have e0 : pso_gsl_write_set_ftab_size (some a) ents = (PSOARCHIVE_EFATAL, some a) := by
      simp only [pso_gsl_write_set_ftab_size, if_pos hu]
    rw [e0] at h
    have e : a1 = a := (Option.some.inj (Prod.mk.inj h).2).symm
    rw [e]
    exact ih
  · by_cases hz : (m * 48) % 2 ^ 32 &&& 0x7FF ≠ 0
    · have e0 : pso_gsl_write_set_ftab_size (some a) ents = (PSOARCHIVE_OK, some
          { a with ftab_entries := toInt32 ((((m * 48) % 2 ^ 32 + 0x800) &&& 0xFFFFF800) / 48),
                   data_pos := ((m * 48) % 2 ^ 32 + 0x800) &&& 0xFFFFF800 }) := by
        rw [hm] at hz ⊢
        simp only [pso_gsl_write_set_ftab_size, if_neg hu, if_pos hz]
      rw [e0] at h
      have e := (Option.some.inj (Prod.mk.inj h).2).symm
      rw [e]
      exact and_block_mask_mod _
    · have e0 : pso_gsl_write_set_ftab_size (some a) ents = (PSOARCHIVE_OK, some
          { a with ftab_entries := toInt32 m, data_pos := (m * 48) % 2 ^ 32 }) := by
        rw [hm] at hz ⊢
        simp only [pso_gsl_write_set_ftab_size, if_neg hu, if_neg hz]
      rw [e0] at h
      have e := (Option.some.inj (Prod.mk.inj h).2).symm
      rw [e]
      rw [and_7ff] at hz
      show m * 48 % 2 ^ 32 % 2048 = 0
      omega

theorem gsl_write_reach_mod (a : pso_gsl_write) (h : gsl_write_reach (fun _ => True) a) :
    a.data_pos % 2048 = 0 := by
  induction h with
  | new_fd fd flags a h =>
    rw [pso_gsl_new_fd_ok fd flags a h]
    show 256 * 48 % 2048 = 0
    omega
  | set_ftab_size a a1 ents c _ _ h ih =>
    exact pso_gsl_write_set_ftab_size_mod a a1 ents c h ih
  | add a a1 fn data len c _ h ih =>
    by_cases hf : (a.ftab_used : Int) = a.ftab_entries - 1
    · rw [pso_gsl_write_add_full a fn data len hf] at h
      have e : a1 = a := (Option.some.inj (Prod.mk.inj h).2).symm
      rw [e]
      exact ih
    · simp only [pso_gsl_write_add, if_neg hf] at h
      have e := (Option.some.inj (Prod.mk.inj h).2).symm
      rw [e]
      exact pad_file_mod _
  | add_fd a a1 fn fd fd1 len c _ h ih =>
    by_cases hf : (a.ftab_used : Int) = a.ftab_entries - 1
    · rw [pso_gsl_write_add_fd_full a fn fd len hf] at h
      have e : a1 = a := (Option.some.inj (Prod.mk.inj (Prod.mk.inj h).2).1).symm
      rw [e]
      exact ih
    · simp only [pso_gsl_write_add_fd, if_neg hf] at h
      split at h
      · have e := (Option.some.inj (Prod.mk.inj (Prod.mk.inj h).2).1).symm
        rw [e]
        exact ih
      · have e := (Option.some.inj (Prod.mk.inj (Prod.mk.inj h).2).1).symm
        rw [e]
        exact pad_file_mod _


/-- The data cursor and the file length after a `pso_gsl_write_add` on a
handle with a free slot whose table entry lies below the data cursor. -/
theorem pso_gsl_write_add_length (a : pso_gsl_write) (fn b : List Nat)
    (hcap : (a.ftab_used : Int) ≠ a.ftab_entries - 1) (hb : a.data_pos + b.length < 2 ^ 64)
    (htp : a.ftab_pos + 48 ≤ a.data_pos) :
    ∃ a1, pso_gsl_write_add (some a) fn b b.length = (PSOARCHIVE_OK, some a1) ∧
      a1.data_pos = next_data_pos a.data_pos b.length ∧
      a1.fd.data.length = max a.fd.data.length (next_data_pos a.data_pos b.length) := by
  refine ⟨_, pso_gsl_write_add_eq a fn b hcap hb, rfl, ?_⟩
  show (add_data _ _ _ _ _).length = _
  rw [length_add_data _ _ _ _ _
    (by show a.ftab_pos + (gsl_entry a.flags fn a.data_pos b.length).length ≤ _
        rw [length_gsl_entry]; exact htp)]

/-! ## C37: the terminator slot of Container B -/

/-- C37. In every state reached from `pso_gsl_new_fd` on an empty file by
calls of `pso_gsl_write_set_ftab_size` that return `PSOARCHIVE_OK` (so before
the first append; `ents * 48 + 2048 < 2^32`) and by successful calls of
`pso_gsl_write_add` (blob end below offset `2^64`), with `ds` the data cursor
before the first append: the table cursor is `48 * used`; `48 * (used + 1)` is
at most `ds`, which is at most the data cursor; every file byte from the table
cursor up to `ds`, the 48 bytes at the table cursor among them, is 0; and once
a blob has been appended, reading 48 bytes at the table cursor gives 48 zero
bytes. -/
theorem gsl_terminator_slot_free (ds : Nat) (a : pso_gsl_write)
    (hrun : gsl_write_run (fun ents => ents * 48 + 2048 < 2 ^ 32) ds a) :
    a.ftab_pos = 48 * a.ftab_used ∧
    48 * (a.ftab_used + 1) ≤ ds ∧
    ds ≤ a.data_pos ∧ (a.ftab_used = 0 → a.data_pos = ds) ∧
    (∀ j, a.ftab_pos ≤ j → j < ds → a.fd.data.getD j 0 = 0) ∧
    (∀ j, j < 48 → a.fd.data.getD (a.ftab_pos + j) 0 = 0) ∧
    (0 < a.ftab_used → (read (lseek a.fd a.ftab_pos) 48).1 = List.replicate 48 0) := by
  obtain ⟨i1, i2, i3, i4, i5, i6, i7, i8⟩ := gsl_write_run_inv ds a hrun
  have hds : 48 * (a.ftab_used + 1) ≤ ds := by omega
  refine ⟨i1, hds, i4, fun h0 => (i6 h0).2, i8, fun j hj => i8 _ (by omega) (by omega), ?_⟩
  intro h0
  have hlen := i7 h0
  have e : (read (lseek a.fd a.ftab_pos) 48).1 = (a.fd.data.drop a.ftab_pos).take 48 := rfl
  rw [e]
  apply ext_getD
  · rw [List.length_take, List.length_drop, List.length_replicate, hlen]
    omega
  · intro i hi
    rw [List.length_take] at hi
    rw [getD_take, if_pos (by omega), getD_drop, getD_replicate_zero]
    exact i8 _ (by omega) (by omega)

/-- C37 on the fresh big-endian handle after one append. -/
theorem gsl_terminator_slot_free_witness :
    gsl_write_run (fun ents => ents * 48 + 2048 < 2 ^ 32) (256 * 48) gsl_after_one ∧
    gsl_after_one.ftab_pos = 48 * gsl_after_one.ftab_used ∧
    48 * (gsl_after_one.ftab_used + 1) ≤ 256 * 48 ∧
    (read (lseek gsl_after_one.fd gsl_after_one.ftab_pos) 48).1 = List.replicate 48 0 :=
  have hrun : gsl_write_run (fun ents => ents * 48 + 2048 < 2 ^ 32) (256 * 48) gsl_after_one :=
    gsl_write_run.add (256 * 48) gsl_fresh_be gsl_after_one [97] [1] 1
      (gsl_write_run.new_fd PSO_GSL_BIG_ENDIAN gsl_fresh_be rfl) (by decide)
      (pso_gsl_write_add_eq gsl_fresh_be [97] [1] (by decide) (by decide))
  have t := gsl_terminator_slot_free (256 * 48) gsl_after_one hrun
  ⟨hrun, t.1, t.2.1, t.2.2.2.2.2.2 (by decide)⟩

/-! ## C32: the padding of the data cursor -/

/-- Also without any I/O failure the file-length part of C32 fails.
`pso_gsl_new_fd` on a descriptor
of a file that already holds 20000 bytes returns a handle; the append of a
1-byte blob succeeds and moves the data cursor from 12288 to 14336, the
smallest multiple of 2048 above 12289, but the file keeps its 20000 bytes, so
its length is not the new cursor. -/
theorem gsl_append_keeps_longer_file :
    pso_gsl_new_fd ⟨gsl_old_bytes, 0⟩ PSO_GSL_BIG_ENDIAN = .ok gsl_on_old_file ∧
    gsl_old_bytes.length = 20000 ∧
    ∃ a1, pso_gsl_write_add (some gsl_on_old_file) [97] [1] 1 = (PSOARCHIVE_OK, some a1) ∧
      a1.data_pos = 14336 ∧ a1.fd.data.length = 20000 ∧ a1.fd.data.length ≠ a1.data_pos := by
  have hold : gsl_old_bytes.length = 20000 := by
    simp only [gsl_old_bytes, List.length_replicate]
  have hcap : (gsl_on_old_file.ftab_used : Int) ≠ gsl_on_old_file.ftab_entries - 1 := by
    show ((0 : Nat) : Int) ≠ 256 - 1
    omega
  have hb : gsl_on_old_file.data_pos + [1].length < 2 ^ 64 := by
    show 256 * 48 + 1 < 2 ^ 64
    omega
  obtain ⟨a1, e1, e2, e3⟩ := pso_gsl_write_add_length gsl_on_old_file [97] [1] hcap hb
    (by show 0 + 48 ≤ 256 * 48; omega)
  have hdp : next_data_pos gsl_on_old_file.data_pos [1].length = 14336 := by decide
  have hfl : gsl_on_old_file.fd.data.length = 20000 := hold
  rw [hdp] at e2 e3
  rw [hfl] at e3
  have e4 : a1.fd.data.length = 20000 := by
    rw [e3]
    decide
  refine ⟨rfl, hold, a1, e1, e2, e4, ?_⟩
  rw [e4, e2]
  decide

/-- What holds of C32 when the system calls of `pad_file` succeed, which is
what the calls without the argument `o` stand for. (1) The value
`next_data_pos d L` is the smallest multiple of 2048 strictly greater than
`d + L`; when `d + L` is itself a multiple of
2048 (an empty blob at an aligned cursor, say) it is `d + L + 2048`. (2) Every
`pso_afs_write_add` and every successful `pso_gsl_write_add` of `len` bytes at
data cursor `d`, the blob ending below offset `2^64`, leaves the data cursor
`next_data_pos d len`, and, when the table entry lies below the data cursor,
a file whose length is the larger of its previous length and the new cursor.
(3) In every state reached from a handle created on an empty file by
successful appends (and, for Container B, by calls of
`pso_gsl_write_set_ftab_size` with `ents * 48 + 2048 < 2^32` that return
`PSOARCHIVE_OK`), the file length is the data cursor once a blob has been
appended. (4) The data cursor is a multiple of 2048 in every state reachable
from `pso_afs_new_fd` / `pso_gsl_new_fd` on any descriptor by any calls of
`pso_afs_write_add`, `pso_gsl_write_set_ftab_size`, `pso_gsl_write_add` and
`pso_gsl_write_add_fd`, whatever result code they return. -/
theorem data_cursor_padding :
    (∀ d L, next_data_pos d L % 2048 = 0 ∧ d + L < next_data_pos d L ∧
      (∀ m, m % 2048 = 0 → d + L < m → next_data_pos d L ≤ m) ∧
      ((d + L) % 2048 = 0 → next_data_pos d L = d + L + 2048)) ∧
    (∀ (a : pso_afs_write) (fn data : List Nat) (len : Nat), a.data_pos + len < 2 ^ 64 →
      ∃ a1, pso_afs_write_add (some a) fn data len = (PSOARCHIVE_OK, some a1) ∧
        a1.data_pos = next_data_pos a.data_pos len ∧
        (a.ftab_pos + 8 ≤ a.data_pos →
          a1.fd.data.length = max a.fd.data.length a1.data_pos)) ∧
    (∀ (a a1 : pso_gsl_write) (fn data : List Nat) (len : Nat),
      pso_gsl_write_add (some a) fn data len = (PSOARCHIVE_OK, some a1) →
      a.data_pos + len < 2 ^ 64 →
        a1.data_pos = next_data_pos a.data_pos len ∧
        (a.ftab_pos + 48 ≤ a.data_pos →
          a1.fd.data.length = max a.fd.data.length a1.data_pos)) ∧
    (∀ a, afs_write_run a → 0 < a.ftab_used → a.fd.data.length = a.data_pos) ∧
    (∀ ds a, gsl_write_run (fun ents => ents * 48 + 2048 < 2 ^ 32) ds a → 0 < a.ftab_used →
      a.fd.data.length = a.data_pos) ∧
    (∀ a, afs_write_reach a → a.data_pos % 2048 = 0) ∧
    (∀ a, gsl_write_reach (fun _ => True) a → a.data_pos % 2048 = 0) := by
  refine ⟨?_, ?_, ?_, ?_, ?_, afs_write_reach_mod, gsl_write_reach_mod⟩
  · intro d L
    exact ⟨next_data_pos_mod d L, next_data_pos_gt d L,
      fun m hm h => next_data_pos_least d L m hm h, next_data_pos_aligned d L⟩
  · intro a fn data len hb
    refine ⟨_, pso_afs_write_add_len a fn data len hb, rfl, ?_⟩
    intro htp
    show (add_data _ _ _ _ _).length = max a.fd.data.length (next_data_pos a.data_pos len)
    have hE : (le32_bytes a.data_pos ++ le32_bytes len).length = 8 := rfl
    rw [length_add_data _ _ _ _ _ (by rw [hE]; exact htp), length_bytes_at]
  · intro a a1 fn data len h hb
    obtain ⟨_, e⟩ := pso_gsl_write_add_len a a1 fn data len h hb
    rw [e]
    refine ⟨rfl, ?_⟩
    intro htp
    show (add_data _ _ _ _ _).length = max a.fd.data.length (next_data_pos a.data_pos len)
    rw [length_add_data _ _ _ _ _ (by rw [length_gsl_entry]; exact htp), length_bytes_at]
  · intro a h h0
    exact (afs_write_run_inv a h).2.2.2 h0
  · intro ds a h h0
    exact (gsl_write_run_inv ds a h).2.2.2.2.2.2.1 h0

/-- The padding on the fresh big-endian handle of an empty file after one
append of a 1-byte blob: the data cursor went from 12288 to 14336, which an
empty blob would have given as well, and the file has 14336 bytes. -/
theorem data_cursor_padding_witness :
    next_data_pos 12288 1 = 14336 ∧ next_data_pos 12288 0 = 14336 ∧
    gsl_write_run (fun ents => ents * 48 + 2048 < 2 ^ 32) (256 * 48) gsl_after_one ∧
    0 < gsl_after_one.ftab_used ∧ gsl_after_one.data_pos = 14336 ∧
    gsl_after_one.fd.data.length = gsl_after_one.data_pos :=
  have hrun : gsl_write_run (fun ents => ents * 48 + 2048 < 2 ^ 32) (256 * 48) gsl_after_one :=
    gsl_write_run.add (256 * 48) gsl_fresh_be gsl_after_one [97] [1] 1
      (gsl_write_run.new_fd PSO_GSL_BIG_ENDIAN gsl_fresh_be rfl) (by decide)
      (pso_gsl_write_add_eq gsl_fresh_be [97] [1] (by decide) (by decide))
  ⟨by decide, by decide, hrun, by decide, by decide,
    data_cursor_padding.2.2.2.2.1 (256 * 48) gsl_after_one hrun (by decide)⟩

/-! ## C22, C32: an append during which `pad_file` fails -/

theorem toInt64_minus_one : toInt64 (2 ^ 64 - 1) = -1 := by decide

theorem pad_file_fails (fd : File) (o : pad_io) (h : o ≠ pad_io.ok) :
    (pad_file fd 2048 o).1 = 2 ^ 64 - 1 := by
  cases o
  · exact absurd rfl h
  · rfl
  · rfl

/-- An append of Container A during which `pad_file` fails returns
`PSOARCHIVE_OK` and leaves `(off_t)-1` in the data cursor. -/
theorem pso_afs_write_add_pad_fails (a : pso_afs_write) (fn data : List Nat) (len : Nat)
    (o : pad_io) (h : o ≠ pad_io.ok) :
    ∃ fd1, pso_afs_write_add (some a) fn data len o = (PSOARCHIVE_OK, some
      { fd := fd1, ftab_used := a.ftab_used + 1, flags := a.flags, ftab_pos := a.ftab_pos + 8,
        data_pos := 2 ^ 64 - 1 }) := by
  cases o
  · exact absurd rfl h
  · exact ⟨_, rfl⟩
  · exact ⟨_, rfl⟩

/-- An append of Container B, on a handle with a free slot, during which
`pad_file` fails returns `PSOARCHIVE_OK` and leaves `(off_t)-1` in the data
cursor. -/
theorem pso_gsl_write_add_pad_fails (a : pso_gsl_write) (fn data : List Nat) (len : Nat)
    (o : pad_io) (h : o ≠ pad_io.ok) (hcap : (a.ftab_used : Int) ≠ a.ftab_entries - 1) :
    ∃ fd1, pso_gsl_write_add (some a) fn data len o = (PSOARCHIVE_OK, some
      { fd := fd1, ftab_entries := a.ftab_entries, ftab_used := a.ftab_used + 1,
        flags := a.flags, ftab_pos := a.ftab_pos + 48, data_pos := 2 ^ 64 - 1 }) := by
  cases o
  · exact absurd rfl h
  · refine ⟨(pad_file (write (lseek (write (lseek a.fd a.ftab_pos)
      (gsl_entry a.flags fn a.data_pos len)) a.data_pos) (bytes_at data 0 len)) 2048
      pad_io.lseek_fails).2, ?_⟩
    simp only [pso_gsl_write_add, if_neg hcap, pad_file_fails _ _ h]
  · refine ⟨(pad_file (write (lseek (write (lseek a.fd a.ftab_pos)
      (gsl_entry a.flags fn a.data_pos len)) a.data_pos) (bytes_at data 0 len)) 2048
      pad_io.write_fails).2, ?_⟩
    simp only [pso_gsl_write_add, if_neg hcap, pad_file_fails _ _ h]

/-- C22, the code at the failing input. On the fresh handle of an empty file,
for Container A and for Container B, an append of the 1-byte blob `1` during
which the `write` of the padding byte (or the `lseek` before it) fails returns
`PSOARCHIVE_OK`, and the data cursor, which was `0x80000` (12288 for
Container B), is `(off_t)-1` afterwards: it has not increased. -/
theorem append_ok_moves_data_cursor_back :
    pso_afs_new_fd ⟨[], 0⟩ 0 = .ok afs_fresh ∧ toInt64 afs_fresh.data_pos = 0x80000 ∧
    (∃ a1, pso_afs_write_add (some afs_fresh) [] [1] 1 pad_io.write_fails
        = (PSOARCHIVE_OK, some a1) ∧
      toInt64 a1.data_pos = -1 ∧ toInt64 a1.data_pos < toInt64 afs_fresh.data_pos) ∧
    (∃ a1, pso_afs_write_add (some afs_fresh) [] [1] 1 pad_io.lseek_fails
        = (PSOARCHIVE_OK, some a1) ∧
      toInt64 a1.data_pos = -1 ∧ toInt64 a1.data_pos < toInt64 afs_fresh.data_pos) ∧
    pso_gsl_new_fd ⟨[], 0⟩ PSO_GSL_BIG_ENDIAN = .ok gsl_fresh_be ∧
    toInt64 gsl_fresh_be.data_pos = 12288 ∧
    (∃ g1, pso_gsl_write_add (some gsl_fresh_be) [97] [1] 1 pad_io.write_fails
        = (PSOARCHIVE_OK, some g1) ∧
      toInt64 g1.data_pos = -1 ∧ toInt64 g1.data_pos < toInt64 gsl_fresh_be.data_pos) ∧
    (∃ g1, pso_gsl_write_add (some gsl_fresh_be) [97] [1] 1 pad_io.lseek_fails
        = (PSOARCHIVE_OK, some g1) ∧
      toInt64 g1.data_pos = -1 ∧ toInt64 g1.data_pos < toInt64 gsl_fresh_be.data_pos) := by
  have hA : toInt64 afs_fresh.data_pos = 0x80000 := by decide
  have hG : toInt64 gsl_fresh_be.data_pos = 12288 := by decide
  have hcap : (gsl_fresh_be.ftab_used : Int) ≠ gsl_fresh_be.ftab_entries - 1 := by decide
  have hm := toInt64_minus_one
  refine ⟨rfl, hA, ?_, ?_, rfl, hG, ?_, ?_⟩
  · obtain ⟨fd1, e⟩ := pso_afs_write_add_pad_fails afs_fresh [] [1] 1 pad_io.write_fails
      (by decide)
    exact ⟨_, e, hm, by rw [hA]; show toInt64 (2 ^ 64 - 1) < 0x80000; rw [hm]; decide⟩
  · obtain ⟨fd1, e⟩ := pso_afs_write_add_pad_fails afs_fresh [] [1] 1 pad_io.lseek_fails
      (by decide)
    exact ⟨_, e, hm, by rw [hA]; show toInt64 (2 ^ 64 - 1) < 0x80000; rw [hm]; decide⟩
  · obtain ⟨fd1, e⟩ := pso_gsl_write_add_pad_fails gsl_fresh_be [97] [1] 1 pad_io.write_fails
      (by decide) hcap
    exact ⟨_, e, hm, by rw [hG]; show toInt64 (2 ^ 64 - 1) < 12288; rw [hm]; decide⟩
  · obtain ⟨fd1, e⟩ := pso_gsl_write_add_pad_fails gsl_fresh_be [97] [1] 1 pad_io.lseek_fails
      (by decide) hcap
    exact ⟨_, e, hm, by rw [hG]; show toInt64 (2 ^ 64 - 1) < 12288; rw [hm]; decide⟩

/-- C32, the code at the failing input. For every Container A handle and
every Container B handle with a free slot, an append during which the `lseek`
or the `write` of `pad_file` fails returns `PSOARCHIVE_OK` and leaves the
pattern of `(off_t)-1` in the data cursor: it is not a multiple of 2048, and
it is not the smallest multiple of 2048 above `d + L` when that lies below
`2^63`. On the fresh Container A handle of an empty file and the 1-byte blob
`1` the cursor should become `0x80800`. -/
theorem failed_pad_leaves_cursor_unaligned (a : pso_afs_write) (g : pso_gsl_write)
    (fn data : List Nat) (len : Nat) :
    (∀ o, o ≠ pad_io.ok →
      ∃ a1, pso_afs_write_add (some a) fn data len o = (PSOARCHIVE_OK, some a1) ∧
        a1.data_pos = 2 ^ 64 - 1 ∧ a1.data_pos % 2048 ≠ 0 ∧
        (a.data_pos + len < 2 ^ 63 → a1.data_pos ≠ next_data_pos a.data_pos len)) ∧
    (∀ o, o ≠ pad_io.ok → (g.ftab_used : Int) ≠ g.ftab_entries - 1 →
      ∃ g1, pso_gsl_write_add (some g) fn data len o = (PSOARCHIVE_OK, some g1) ∧
        g1.data_pos = 2 ^ 64 - 1 ∧ g1.data_pos % 2048 ≠ 0 ∧
        (g.data_pos + len < 2 ^ 63 → g1.data_pos ≠ next_data_pos g.data_pos len)) ∧
    pso_afs_new_fd ⟨[], 0⟩ 0 = .ok afs_fresh ∧
    next_data_pos afs_fresh.data_pos 1 = 0x80800 ∧
    (∃ a1, pso_afs_write_add (some afs_fresh) [] [1] 1 pad_io.write_fails
        = (PSOARCHIVE_OK, some a1) ∧ a1.data_pos % 2048 = 2047) := by
  have hodd : (2 ^ 64 - 1) % 2048 ≠ 0 := by decide
  have hne : ∀ d L, d + L < 2 ^ 63 → 2 ^ 64 - 1 ≠ next_data_pos d L := by
    intro d L h
    unfold next_data_pos
    omega
  refine ⟨?_, ?_, rfl, by decide, ?_⟩
  · intro o ho
    obtain ⟨fd1, e⟩ := pso_afs_write_add_pad_fails a fn data len o ho
    exact ⟨_, e, rfl, hodd, hne _ _⟩
  · intro o ho hcap
    obtain ⟨fd1, e⟩ := pso_gsl_write_add_pad_fails g fn data len o ho hcap
    exact ⟨_, e, rfl, hodd, hne _ _⟩
  · obtain ⟨fd1, e⟩ := pso_afs_write_add_pad_fails afs_fresh [] [1] 1 pad_io.write_fails
      (by decide)
    exact ⟨_, e, by show (2 ^ 64 - 1) % 2048 = 2047; decide⟩

end PsoArchive
